import Mathlib

/-!
# Toastbox: cooperative task core (Task.h, TaskSwap.h)

A shallow embedding of `src/Task.h` (the interrupt-mask guard `IRQState`, the
fixed-capacity `Channel<T,N>` and the `Task` state machine with its control
primitives) and of `src/TaskSwap.h` (the stack switch, instruction by instruction),
followed by theorems about them.

Conventions used throughout.

* `abort()` is an explicit outcome.  The member functions of `IRQState` and `Channel`
  that can reach `abort()` return `Except`, whose `error` carries the state in which
  `abort()` was reached; task bodies and the scheduler return `Outcome`.
* A task body may loop without ever returning, so executing one takes a step budget
  (`fuel`); running out of it is an outcome of its own and never counts as a result.
* The client hooks (`SetInterruptsEnabled`, `WaitForInterrupt`, `TimeMs`) are only
  declared in the source; they are modelled on a small machine state `Cpu` that also
  records every hook call in order.
* `size_t` indices are `Nat`.  The only arithmetic on them is `i++` followed by the
  comparison with `N`; for `i < N` (which is an invariant) the increment cannot wrap
  because `N` itself is a `size_t`.
* `uint32_t` values are `Nat` reduced modulo `2^32` explicitly.
-/

namespace Toastbox

/-! ## Client hooks -/

/-- One call of a client-provided hook. -/
inductive HookCall where
  | SetInterruptsEnabled (en : Bool)
  | WaitForInterrupt
  deriving DecidableEq, Repr

/-- Machine state seen through the hooks: the interrupt-enable bit, the millisecond
counter, and the list of hook calls made so far (oldest first). -/
structure Cpu where
  ien : Bool
  timeMs : Nat := 0
  calls : List HookCall := []
  deriving DecidableEq, Repr

/-- Modelled from the spec: the client hook `static bool SetInterruptsEnabled(bool en)`
is declared but not defined in `Task.h`; section 6 describes it as "set/query
interrupt-enable state, returning the previous state". -/
def SetInterruptsEnabled (en : Bool) (cpu : Cpu) : Bool × Cpu :=
  (cpu.ien, { cpu with ien := en, calls := cpu.calls ++ [HookCall.SetInterruptsEnabled en] })

/-- Modelled from the spec: the client hook `static void WaitForInterrupt()` is declared
but not defined in `Task.h`; section 6 describes it as "halt-until-next-interrupt".  Only the
fact that it was called is recorded. -/
def WaitForInterrupt (cpu : Cpu) : Cpu :=
  { cpu with calls := cpu.calls ++ [HookCall.WaitForInterrupt] }

/-- Modelled from the spec: the client hook `static uint32_t TimeMs()` is declared but not
defined in `Task.h`; section 6 describes it as a millisecond counter.  The result is a
`uint32_t`. -/
def TimeMs (cpu : Cpu) : Nat :=
  cpu.timeMs % 2 ^ 32

/-! ## IRQState -/

/-- The two data members of `class IRQState`, with their default initialisers. -/
structure IRQState where
  _prevEn : Bool := false
  _prevEnValid : Bool := false
  deriving DecidableEq, Repr

namespace IRQState

/-- Source: `void enable()`: `_Assert(!_prevEnValid); _prevEn = SetInterruptsEnabled(true);
_prevEnValid = true;`.  `error` is `abort()`, with the state in which it was reached. -/
def enable (g : IRQState) (cpu : Cpu) : Except (IRQState × Cpu) (IRQState × Cpu) :=
  if !g._prevEnValid then
    let r := SetInterruptsEnabled true cpu
    let g1 := { g with _prevEn := r.1 }
    .ok ({ g1 with _prevEnValid := true }, r.2)
  else
    .error (g, cpu)

/-- Source: `void disable()`: `_Assert(!_prevEnValid); _prevEn = SetInterruptsEnabled(false);
_prevEnValid = true;`. -/
def disable (g : IRQState) (cpu : Cpu) : Except (IRQState × Cpu) (IRQState × Cpu) :=
  if !g._prevEnValid then
    let r := SetInterruptsEnabled false cpu
    let g1 := { g with _prevEn := r.1 }
    .ok ({ g1 with _prevEnValid := true }, r.2)
  else
    .error (g, cpu)

/-- Source: `void restore()`: `if (_prevEnValid) { SetInterruptsEnabled(_prevEn);
_prevEnValid = false; }`. -/
def restore (g : IRQState) (cpu : Cpu) : IRQState × Cpu :=
  if g._prevEnValid then
    let r := SetInterruptsEnabled g._prevEn cpu
    ({ g with _prevEnValid := false }, r.2)
  else
    (g, cpu)

/-- The destructor `~IRQState() { restore(); }`; the object is gone afterwards, only the
machine state remains. -/
def destroy (g : IRQState) (cpu : Cpu) : Cpu :=
  (g.restore cpu).2

/-- The move constructor `IRQState(IRQState&& x) = default;`.  A defaulted move
constructor moves member by member, and moving a `bool` copies it: the new object gets
both members of `x`, and `x` is left as it was.  Returns (new object, moved-from object). -/
def move (x : IRQState) : IRQState × IRQState :=
  ({ _prevEn := x._prevEn, _prevEnValid := x._prevEnValid }, x)

/-- Source: `static IRQState Disabled() { IRQState irq; irq.disable(); return irq; }`.
`return irq;` names a local: the compiler may construct `irq` directly in the caller's
object (`elide = true`), or move-construct the result from `irq` and then destroy `irq`
(`elide = false`). -/
def Disabled (elide : Bool) (cpu : Cpu) : Except (IRQState × Cpu) (IRQState × Cpu) :=
  let irq : IRQState := {}
  match irq.disable cpu with
  | .error e => .error e
  | .ok (irq1, cpu1) =>
    if elide then
      .ok (irq1, cpu1)
    else
      let m := irq1.move
      .ok (m.1, m.2.destroy cpu1)

end IRQState

/-! ## Channel -/

/-- The data members of `class Channel<T,N>`.  `_buf` is the array `T _buf[N]`, as a map
from index to element; the capacity `N` is a template argument and is passed to the
functions that use it. -/
structure Channel (T : Type) where
  _buf : Nat → T
  _rptr : Nat := 0
  _wptr : Nat := 0
  _full : Bool := false

/-- Source: `Channel::ReadResult`: either empty (`ReadResult()`, `_e = false`) or carrying a value
(`ReadResult(x)`, `_e = true`).  `operator bool` is `Option.isSome`, `operator*` the
value. -/
abbrev ReadResult (T : Type) := Option T

namespace Channel

variable {T : Type}

/-- A freshly constructed channel: the default member initialisers, with whatever the
buffer holds initially. -/
def fresh (buf : Nat → T) : Channel T :=
  { _buf := buf }

/-- Source: `bool _readable() const { return (_rptr!=_wptr || _full); }` -/
def _readable (c : Channel T) : Bool :=
  (c._rptr != c._wptr || c._full)

/-- Source: `bool _writeable() const { return !_full; }` -/
def _writeable (c : Channel T) : Bool :=
  !c._full

/-- Source: `T _read()`: `T r = _buf[_rptr]; _rptr++; if (_rptr == N) _rptr = 0; _full = false;
return r;` -/
def _read (N : Nat) (c : Channel T) : T × Channel T :=
  let r := c._buf c._rptr
  let c1 := { c with _rptr := c._rptr + 1 }
  let c2 := if c1._rptr = N then { c1 with _rptr := 0 } else c1
  (r, { c2 with _full := false })

/-- Source: `void _write(const T& x)`: `_buf[_wptr] = x; _wptr++; if (_wptr == N) _wptr = 0;
_full = (_rptr == _wptr);` -/
def _write (N : Nat) (c : Channel T) (x : T) : Channel T :=
  let c1 := { c with _buf := Function.update c._buf c._wptr x }
  let c2 := { c1 with _wptr := c1._wptr + 1 }
  let c3 := if c2._wptr = N then { c2 with _wptr := 0 } else c2
  { c3 with _full := (c3._rptr == c3._wptr) }

/-- Source: `bool readable() const`: `IRQState irq = IRQState::Disabled(); return _readable();`,
then the destructor of `irq`. -/
def readable (elide : Bool) (c : Channel T) (cpu : Cpu) :
    Except (Channel T × Cpu) (Bool × Channel T × Cpu) :=
  match IRQState.Disabled elide cpu with
  | .error e => .error (c, e.2)
  | .ok (irq, cpu1) => .ok (c._readable, c, irq.destroy cpu1)

/-- Source: `bool writeable() const`: `IRQState irq = IRQState::Disabled(); return _writeable();`,
then the destructor of `irq`. -/
def writeable (elide : Bool) (c : Channel T) (cpu : Cpu) :
    Except (Channel T × Cpu) (Bool × Channel T × Cpu) :=
  match IRQState.Disabled elide cpu with
  | .error e => .error (c, e.2)
  | .ok (irq, cpu1) => .ok (c._writeable, c, irq.destroy cpu1)

/-- Source: `T read()`: `IRQState irq = IRQState::Disabled(); _Assert(_readable());
return _read();`, then the destructor of `irq`.  `_Assert(cond)` is
`if (!cond) abort();`. -/
def read (N : Nat) (elide : Bool) (c : Channel T) (cpu : Cpu) :
    Except (Channel T × Cpu) (T × Channel T × Cpu) :=
  match IRQState.Disabled elide cpu with
  | .error e => .error (c, e.2)
  | .ok (irq, cpu1) =>
    if !c._readable then
      .error (c, cpu1)
    else
      let r := c._read N
      .ok (r.1, r.2, irq.destroy cpu1)

/-- Source: `void write(const T& x)`: `IRQState irq = IRQState::Disabled(); _Assert(_writeable());
_write(x);`, then the destructor of `irq`. -/
def write (N : Nat) (elide : Bool) (c : Channel T) (x : T) (cpu : Cpu) :
    Except (Channel T × Cpu) (Channel T × Cpu) :=
  match IRQState.Disabled elide cpu with
  | .error e => .error (c, e.2)
  | .ok (irq, cpu1) =>
    if !c._writeable then
      .error (c, cpu1)
    else
      .ok (c._write N x, irq.destroy cpu1)

/-- Source: `ReadResult readTry()`: `IRQState irq = IRQState::Disabled();
if (!_readable()) return {}; return _read();`, then the destructor of `irq`. -/
def readTry (N : Nat) (elide : Bool) (c : Channel T) (cpu : Cpu) :
    Except (Channel T × Cpu) (ReadResult T × Channel T × Cpu) :=
  match IRQState.Disabled elide cpu with
  | .error e => .error (c, e.2)
  | .ok (irq, cpu1) =>
    if !c._readable then
      .ok (none, c, irq.destroy cpu1)
    else
      let r := c._read N
      .ok (some r.1, r.2, irq.destroy cpu1)

/-- Source: `bool writeTry(const T& x)`: `IRQState irq = IRQState::Disabled();
if (!_writeable()) return false; _write(x); return true;`, then the destructor of
`irq`. -/
def writeTry (N : Nat) (elide : Bool) (c : Channel T) (x : T) (cpu : Cpu) :
    Except (Channel T × Cpu) (Bool × Channel T × Cpu) :=
  match IRQState.Disabled elide cpu with
  | .error e => .error (c, e.2)
  | .ok (irq, cpu1) =>
    if !c._writeable then
      .ok (false, c, irq.destroy cpu1)
    else
      .ok (true, c._write N x, irq.destroy cpu1)

/-- Source: `void reset() { _rptr = 0; _wptr = 0; _full = 0; }` (no guard is taken here). -/
def reset (c : Channel T) : Channel T :=
  { c with _rptr := 0, _wptr := 0, _full := false }

/-- One call of a public member function of `Channel<T,N>`. -/
inductive Op (T : Type) where
  | readable
  | writeable
  | read
  | write (x : T)
  | readTry
  | writeTry (x : T)
  | reset

/-- What a call of a public member function returns. -/
inductive Ret (T : Type) where
  | void
  | bool (b : Bool)
  | value (x : T)
  | result (r : ReadResult T)
  deriving DecidableEq

/-- Perform one call on the channel. -/
def call (N : Nat) (elide : Bool) (op : Op T) (c : Channel T) (cpu : Cpu) :
    Except (Channel T × Cpu) (Ret T × Channel T × Cpu) :=
  match op with
  | .readable => (c.readable elide cpu).map (fun r => (Ret.bool r.1, r.2))
  | .writeable => (c.writeable elide cpu).map (fun r => (Ret.bool r.1, r.2))
  | .read => (c.read N elide cpu).map (fun r => (Ret.value r.1, r.2))
  | .write x => (c.write N elide x cpu).map (fun r => (Ret.void, r))
  | .readTry => (c.readTry N elide cpu).map (fun r => (Ret.result r.1, r.2))
  | .writeTry x => (c.writeTry N elide x cpu).map (fun r => (Ret.bool r.1, r.2))
  | .reset => .ok (Ret.void, c.reset, cpu)

/-- Perform a sequence of calls, collecting what they return; stops at the first
`abort()`. -/
def calls (N : Nat) (elide : Bool) : List (Op T) → Channel T → Cpu →
    Except (Channel T × Cpu) (List (Ret T) × Channel T × Cpu)
  | [], c, cpu => .ok ([], c, cpu)
  | op :: ops, c, cpu =>
    match call N elide op c cpu with
    | .error e => .error e
    | .ok (r, c1, cpu1) =>
      match calls N elide ops c1 cpu1 with
      | .error e => .error e
      | .ok (rs, c2, cpu2) => .ok (r :: rs, c2, cpu2)

/-- Source: `k` successive `write` calls with the given values. -/
def writeAll (N : Nat) (elide : Bool) : List T → Channel T → Cpu →
    Except (Channel T × Cpu) (Channel T × Cpu)
  | [], c, cpu => .ok (c, cpu)
  | x :: xs, c, cpu =>
    match c.write N elide x cpu with
    | .error e => .error e
    | .ok (c1, cpu1) => writeAll N elide xs c1 cpu1

/-- Source: `k` successive `read` calls, collecting the values returned. -/
def readAll (N : Nat) (elide : Bool) : Nat → Channel T → Cpu →
    Except (Channel T × Cpu) (List T × Channel T × Cpu)
  | 0, c, cpu => .ok ([], c, cpu)
  | k + 1, c, cpu =>
    match c.read N elide cpu with
    | .error e => .error e
    | .ok (v, c1, cpu1) =>
      match readAll N elide k c1 cpu1 with
      | .error e => .error e
      | .ok (vs, c2, cpu2) => .ok (v :: vs, c2, cpu2)

/-- The state invariant of the ring buffer: both indices are inside the array, and the
full flag is only set when the indices coincide. -/
def WF (N : Nat) (c : Channel T) : Prop :=
  c._rptr < N ∧ c._wptr < N ∧ (c._full = true → c._rptr = c._wptr)

instance (N : Nat) (c : Channel T) : Decidable (WF N c) := by
  unfold WF; infer_instance

/-- Number of buffered (written and not yet read) values encoded by the state. -/
def count (N : Nat) (c : Channel T) : Nat :=
  if c._full then N else (c._wptr + N - c._rptr) % N

/-- The buffered values encoded by the state, oldest first: `count` cells starting at the
read index, wrapping at `N`. -/
def unread (N : Nat) (c : Channel T) : List T :=
  (List.range (count N c)).map (fun i => c._buf ((c._rptr + i) % N))

end Channel

/-! ## The bounded FIFO queue the channel is specified to be

Written from the words of the spec, not from the code: the state is the list of values
written and not yet read, oldest first; the capacity is `N`. -/

namespace Fifo

open Channel (Op Ret)

variable {T : Type}

/-- One call on the bounded queue `q`.  `none` is a violated precondition (`read` on an
empty queue, `write` on a full one). -/
def call (N : Nat) : Op T → List T → Option (Ret T × List T)
  | .readable, q => some (Ret.bool (!q.isEmpty), q)
  | .writeable, q => some (Ret.bool (decide (q.length < N)), q)
  | .read, [] => none
  | .read, v :: q => some (Ret.value v, q)
  | .write x, q => if q.length < N then some (Ret.void, q ++ [x]) else none
  | .readTry, [] => some (Ret.result none, [])
  | .readTry, v :: q => some (Ret.result (some v), q)
  | .writeTry x, q =>
    if q.length < N then some (Ret.bool true, q ++ [x]) else some (Ret.bool false, q)
  | .reset, _ => some (Ret.void, [])

/-- A sequence of calls on the bounded queue. -/
def calls (N : Nat) : List (Op T) → List T → Option (List (Ret T) × List T)
  | [], q => some ([], q)
  | op :: ops, q =>
    match call N op q with
    | none => none
    | some (r, q1) =>
      match calls N ops q1 with
      | none => none
      | some (rs, q2) => some (r :: rs, q2)

end Fifo

/-! ## Task -/

/-- Result of running code that may reach `abort()` or, in this model, run out of the
step budget given to it. -/
inductive Outcome (α : Type) where
  | ok (a : α)
  | abort
  | outOfFuel

/-- Apply a function to the result of code that returned. -/
def Outcome.map {α β : Type} (f : α → β) : Outcome α → Outcome β
  | .ok a => .ok (f a)
  | .abort => .abort
  | .outOfFuel => .outOfFuel

/-- What happened at the control points of a task body, recorded in order (oldest first).
This log is not in the source; it records what the body executed. -/
inductive Event where
  /-- the plain statement at `pc` was executed -/
  | stmt (pc : Nat)
  /-- the condition of the wait or sleep point at `pc` was evaluated, with this value -/
  | cond (pc : Nat) (b : Bool)
  /-- the body returned to its caller from the suspension point at `pc` -/
  | suspend (pc : Nat)
  /-- the body went through `task._state = Run; task._didWork = true;` at the point `pc` -/
  | pass (pc : Nat)
  /-- the body executed `task._state = Done` at the `TaskEnd` at `pc` -/
  | finish (pc : Nat)
  deriving DecidableEq, Repr

/-- Source: `enum class Task::State`. -/
inductive Task.State where
  | Run
  | Wait
  | Done
  deriving DecidableEq, Repr

/-- The data members of `class Task` other than `_fn`, with their default initialisers.
`_jmp` is `nullptr` (`none`) or the address of the label inside the control point at the
given position of the body. -/
structure Task where
  _state : Task.State := Task.State.Run
  _didWork : Bool := false
  _jmp : Option Nat := none
  _sleepStartMs : Nat := 0
  _sleepDurationMs : Nat := 0
  deriving DecidableEq, Repr

/-- Everything a task body can touch besides its `Task`: the machine state behind the
hooks, the client's own variables, and the log of control-point events. -/
structure World (σ : Type) where
  cpu : Cpu
  user : σ
  log : List Event := []

/-- Source: `using TaskFn = std::function<void(Task& task)>`: a body gets the task by reference
and may change it and the world; it may also not return. -/
abbrev TaskFn (σ : Type) := Task → World σ → Outcome (Task × World σ)

namespace Task

variable {σ : Type}

/-- Source: `void reset() { _state = State::Run; _jmp = nullptr; }` -/
def reset (t : Task) : Task :=
  { t with _state := State.Run, _jmp := none }

/-- Source: `bool run()`: `_didWork = false; switch (_state) { case Run: case Wait: _fn(*this);
break; default: break; } return _didWork;` -/
def run (fn : TaskFn σ) (t : Task) (w : World σ) : Outcome (Bool × Task × World σ) :=
  let t1 := { t with _didWork := false }
  match t1._state with
  | State.Run | State.Wait =>
    match fn t1 w with
    | .ok (t2, w2) => .ok (t2._didWork, t2, w2)
    | .abort => .abort
    | .outOfFuel => .outOfFuel
  | State.Done => .ok (t1._didWork, t1, w)

/-- Source: `bool _sleepDone() const { return (TimeMs()-_sleepStartMs) >= _sleepDurationMs; }`,
the subtraction being that of `uint32_t`. -/
def _sleepDone (t : Task) (cpu : Cpu) : Bool :=
  decide ((TimeMs cpu + 2 ^ 32 - t._sleepStartMs) % 2 ^ 32 ≥ t._sleepDurationMs)

/-- The given number of successive `run()` calls on one task, collecting what they
return. -/
def runs (fn : TaskFn σ) : Nat → Task → World σ → Outcome (List Bool × Task × World σ)
  | 0, t, w => .ok ([], t, w)
  | n + 1, t, w =>
    match run fn t w with
    | .ok (b, t1, w1) =>
      match runs fn n t1 w1 with
      | .ok (bs, t2, w2) => .ok (b :: bs, t2, w2)
      | .abort => .abort
      | .outOfFuel => .outOfFuel
    | .abort => .abort
    | .outOfFuel => .outOfFuel

/-- The loop `for (Task& task : tasks) didWork |= task.run();` of `Task::Run`; a task is
given as its body together with its data.  `|=` always evaluates `task.run()`. -/
def runEach : List (TaskFn σ × Task) → Bool → World σ →
    Outcome (Bool × List (TaskFn σ × Task) × World σ)
  | [], didWork, w => .ok (didWork, [], w)
  | (fn, t) :: rest, didWork, w =>
    match run fn t w with
    | .ok (b, t1, w1) =>
      match runEach rest (didWork || b) w1 with
      | .ok (d, rest1, w2) => .ok (d, (fn, t1) :: rest1, w2)
      | .abort => .abort
      | .outOfFuel => .outOfFuel
    | .abort => .abort
    | .outOfFuel => .outOfFuel

/-- One iteration of the `for (;;)` loop of `static void Run(Tasks&... ts)`:
`IRQState irq = IRQState::Disabled(); bool didWork = false; for (...) didWork |= task.run();
if (!didWork) IRQState::WaitForInterrupt();`, then the destructor of `irq` at the end of
the loop body. -/
def RunRound (elide : Bool) (tasks : List (TaskFn σ × Task)) (w : World σ) :
    Outcome (List (TaskFn σ × Task) × World σ) :=
  match IRQState.Disabled elide w.cpu with
  | .error _ => .abort
  | .ok (irq, cpu1) =>
    match runEach tasks false { w with cpu := cpu1 } with
    | .ok (didWork, tasks1, w1) =>
      let w2 := if !didWork then { w1 with cpu := WaitForInterrupt w1.cpu } else w1
      .ok (tasks1, { w2 with cpu := irq.destroy w2.cpu })
    | .abort => .abort
    | .outOfFuel => .outOfFuel

/-- The first `n` iterations of the endless loop of `static void Run(Tasks&... ts)`. -/
def Run (elide : Bool) : Nat → List (TaskFn σ × Task) → World σ →
    Outcome (List (TaskFn σ × Task) × World σ)
  | 0, tasks, w => .ok (tasks, w)
  | n + 1, tasks, w =>
    match RunRound elide tasks w with
    | .ok (tasks1, w1) => Run elide n tasks1 w1
    | .abort => .abort
    | .outOfFuel => .outOfFuel

end Task

/-! ### Task bodies written with the control primitives

A body written with `TaskBegin`, `TaskYield`, `TaskWait`, `TaskSleepMs` and `TaskEnd` is a
sequence of items after the leading `TaskBegin()`: plain statements, the control
primitives, and the jumps that the loops and conditionals of the body amount to.  Local
variables of the body do not survive a `return`, so the client's variables are the `user`
part of the world. -/

/-- One item of a task body. -/
inductive Instr (σ : Type) where
  /-- statements without control primitives; `none` is `abort()` -/
  | stmt (f : Cpu → σ → Option (Cpu × σ))
  /-- Source: `TaskYield();` -/
  | TaskYield
  /-- Source: `TaskWait(cond);` -/
  | TaskWait (cond : Cpu → σ → Bool × Cpu × σ)
  /-- Source: `TaskSleepMs(ms);` -/
  | TaskSleepMs (ms : Cpu → σ → Nat)
  /-- Source: `TaskEnd();` -/
  | TaskEnd
  /-- unconditional jump to the item at `target` (the back edge of a loop) -/
  | jump (target : Nat)
  /-- jump to the item at `target` if `cond` is false, else go on with the next item -/
  | branch (cond : Cpu → σ → Bool) (target : Nat)

/-- What executing one control primitive leads to: going on with the next item of the
body, or `return`. -/
inductive Step (σ : Type) where
  | next (t : Task) (w : World σ)
  | ret (t : Task) (w : World σ)

namespace World

variable {σ : Type}

/-- Append an event to the log. -/
def note (w : World σ) (e : Event) : World σ :=
  { w with log := w.log ++ [e] }

end World

section Primitives

variable {σ : Type}

/-- Source: `TaskBegin()`: `if (task._jmp) goto *task._jmp;`.  Gives the position at which the
body continues, and whether that position is the label inside a control point (`true`) or
the top of the body (`false`). -/
def TaskBegin (t : Task) : Nat × Bool :=
  match t._jmp with
  | some pc => (pc, true)
  | none => (0, false)

/-- Source: `TaskYield()` at position `pc`: `task._state = Wait; task._jmp = &&jmp; return; jmp:;
task._state = Run; task._didWork = true;`.  With `atLabel` execution starts at `jmp:`. -/
def TaskYield (pc : Nat) (atLabel : Bool) (t : Task) (w : World σ) : Step σ :=
  if atLabel then
    let t1 := { t with _state := Task.State.Run }
    .next { t1 with _didWork := true } (w.note (Event.pass pc))
  else
    let t1 := { t with _state := Task.State.Wait }
    .ret { t1 with _jmp := some pc } (w.note (Event.suspend pc))

/-- Source: `TaskWait(cond)` at position `pc`: `task._state = Wait; while (!(cond)) { task._jmp =
&&jmp; return; jmp:; } task._state = Run; task._didWork = true;`.  With `atLabel` execution
starts at `jmp:`, which is followed by the loop test. -/
def TaskWait (cond : Cpu → σ → Bool × Cpu × σ) (pc : Nat) (atLabel : Bool) (t : Task)
    (w : World σ) : Step σ :=
  let t1 := if atLabel then t else { t with _state := Task.State.Wait }
  let r := cond w.cpu w.user
  let w1 := ({ w with cpu := r.2.1, user := r.2.2 } : World σ).note (Event.cond pc r.1)
  if !r.1 then
    .ret { t1 with _jmp := some pc } (w1.note (Event.suspend pc))
  else
    let t2 := { t1 with _state := Task.State.Run }
    .next { t2 with _didWork := true } (w1.note (Event.pass pc))

/-- Source: `TaskSleepMs(ms)` at position `pc`: `task._state = Wait; task._sleepStartMs =
Task::TimeMs(); task._sleepDurationMs = (ms); do { task._jmp = &&jmp; return; jmp:; }
while (!task._sleepDone()); task._state = Run; task._didWork = true;`.  With `atLabel`
execution starts at `jmp:`, which is followed by the loop test. -/
def TaskSleepMs (ms : Cpu → σ → Nat) (pc : Nat) (atLabel : Bool) (t : Task)
    (w : World σ) : Step σ :=
  if atLabel then
    let b := t._sleepDone w.cpu
    let w1 := w.note (Event.cond pc b)
    if !b then
      .ret { t with _jmp := some pc } (w1.note (Event.suspend pc))
    else
      let t2 := { t with _state := Task.State.Run }
      .next { t2 with _didWork := true } (w1.note (Event.pass pc))
  else
    let t1 := { t with _state := Task.State.Wait }
    let t2 := { t1 with _sleepStartMs := TimeMs w.cpu }
    let t3 := { t2 with _sleepDurationMs := ms w.cpu w.user % 2 ^ 32 }
    .ret { t3 with _jmp := some pc } (w.note (Event.suspend pc))

/-- Source: `TaskEnd()` at position `pc`: `task._state = Done; task._jmp = &&jmp; jmp:; return;`.
With `atLabel` execution starts at `jmp:`. -/
def TaskEnd (pc : Nat) (atLabel : Bool) (t : Task) (w : World σ) : Step σ :=
  if atLabel then
    .ret t w
  else
    let t1 := { t with _state := Task.State.Done }
    .ret { t1 with _jmp := some pc } (w.note (Event.finish pc))

end Primitives

namespace Body

variable {σ : Type}

/-- Execute the body from position `pc` until it returns.  `atLabel` says that `pc` was
reached by `goto *task._jmp`, so that execution starts at the label inside the control
point there.  Running past the last item is the end of the function, which returns.
`fuel` bounds the number of items executed. -/
def exec (body : List (Instr σ)) : Nat → Nat → Bool → Task → World σ →
    Outcome (Task × World σ)
  | 0, _, _, _, _ => .outOfFuel
  | fuel + 1, pc, atLabel, t, w =>
    match body[pc]? with
    | none => .ok (t, w)
    | some (.stmt f) =>
      match f w.cpu w.user with
      | none => .abort
      | some r =>
        exec body fuel (pc + 1) false t
          (({ w with cpu := r.1, user := r.2 } : World σ).note (Event.stmt pc))
    | some .TaskYield =>
      match TaskYield pc atLabel t w with
      | .next t1 w1 => exec body fuel (pc + 1) false t1 w1
      | .ret t1 w1 => .ok (t1, w1)
    | some (.TaskWait cond) =>
      match TaskWait cond pc atLabel t w with
      | .next t1 w1 => exec body fuel (pc + 1) false t1 w1
      | .ret t1 w1 => .ok (t1, w1)
    | some (.TaskSleepMs ms) =>
      match TaskSleepMs ms pc atLabel t w with
      | .next t1 w1 => exec body fuel (pc + 1) false t1 w1
      | .ret t1 w1 => .ok (t1, w1)
    | some .TaskEnd =>
      match TaskEnd pc atLabel t w with
      | .next t1 w1 => exec body fuel (pc + 1) false t1 w1
      | .ret t1 w1 => .ok (t1, w1)
    | some (.jump target) => exec body fuel target false t w
    | some (.branch cond target) =>
      if cond w.cpu w.user then exec body fuel (pc + 1) false t w
      else exec body fuel target false t w

/-- The item at `pc` is a yield, wait-until or sleep point. -/
def IsSuspensionPoint (body : List (Instr σ)) (pc : Nat) : Prop :=
  body[pc]? = some .TaskYield ∨ (∃ cond, body[pc]? = some (.TaskWait cond)) ∨
    ∃ ms, body[pc]? = some (.TaskSleepMs ms)

/-- One invocation `_fn(task)` of a body that starts with `TaskBegin()`. -/
def fn (body : List (Instr σ)) (fuel : Nat) : TaskFn σ :=
  fun t w => exec body fuel (TaskBegin t).1 (TaskBegin t).2 t w

end Body

/-- A body wrapped so that each invocation is counted in the client's variables (second
component); used to say how often `run()` invokes the body. -/
def counted {σ : Type} (fn : TaskFn σ) : TaskFn (σ × Nat) :=
  fun t w =>
    match fn t { cpu := w.cpu, user := w.user.1, log := w.log } with
    | .ok (t1, w1) => .ok (t1, { cpu := w1.cpu, user := (w1.user, w.user.2 + 1), log := w1.log })
    | .abort => .abort
    | .outOfFuel => .outOfFuel

/-- What it means for the outcome of a sequence of channel calls, started on a fresh
channel, to be the outcome of the same calls on the bounded queue started empty: if no call
aborted, the calls return what the queue returns, the final state encodes the final queue,
and that queue holds at most `N` values; if a call aborted, the queue's precondition was
violated. -/
def Channel.RefinesFifo {T : Type} (N : Nat) (ops : List (Channel.Op T))
    (r : Except (Channel T × Cpu) (List (Channel.Ret T) × Channel T × Cpu)) : Prop :=
  match r with
  | .ok (rs, c1, _) =>
    Fifo.calls N ops [] = some (rs, Channel.unread N c1) ∧ (Channel.unread N c1).length ≤ N
  | .error _ => Fifo.calls N ops [] = none

/-- A body that only ever yields: `TaskBegin(); for (;;) { TaskYield(); ... TaskYield(); }`
with `k` yield points in the loop. -/
def Body.yieldLoop (σ : Type) (k : Nat) : List (Instr σ) :=
  List.replicate k Instr.TaskYield ++ [Instr.jump 0]

/-- What a scheduler round is specified to do with its tasks: `run()` is called on every
task exactly once, in the order in which the tasks were passed, each call starting in the
world the previous one left.  `bs` are the values the calls returned. -/
inductive Task.RanInOrder {σ : Type} :
    List (TaskFn σ × Task) → World σ → List Bool → List (TaskFn σ × Task) → World σ → Prop
  | nil (w : World σ) : RanInOrder [] w [] [] w
  | cons (fn : TaskFn σ) (t : Task) (rest : List (TaskFn σ × Task)) (w : World σ) (b : Bool)
      (t1 : Task) (w1 : World σ) (bs : List Bool) (rest1 : List (TaskFn σ × Task))
      (w2 : World σ) :
      Task.run fn t w = .ok (b, t1, w1) → RanInOrder rest w1 bs rest1 w2 →
      RanInOrder ((fn, t) :: rest) w (b :: bs) ((fn, t1) :: rest1) w2

/-- A task blocked on a condition that never becomes true: it is suspended at a
`TaskWait(cond)` of its body, and `cond` is false whatever the world is. -/
def Task.Blocked {σ : Type} (p : TaskFn σ × Task) : Prop :=
  ∃ (body : List (Instr σ)) (pc : Nat) (cond : Cpu → σ → Bool × Cpu × σ) (fuel : Nat),
    p.1 = Body.fn body (fuel + 1) ∧ body[pc]? = some (Instr.TaskWait cond) ∧
    (∀ cpu u, (cond cpu u).1 = false) ∧
    p.2._state = Task.State.Wait ∧ p.2._jmp = some pc

/-! ### The producer/consumer scenario

Task A writes `0, 1, 2, 3, 4` into a `Channel<int,3>`, each write after
`TaskWait(ch.writeable())`, and ends; task B loops over `TaskWait(ch.readable())` and
appending `ch.read()` to an output list. -/

namespace Scenario

/-- The variables shared by the two tasks: the channel and B's output list. -/
structure Vars where
  ch : Channel Int
  out : List Int

/-- The condition `ch.writeable()`.  The call cannot abort (the guard it takes is a fresh
one); the `error` case is there only because `Channel.writeable` has that result type. -/
def writeable (elide : Bool) (cpu : Cpu) (v : Vars) : Bool × Cpu × Vars :=
  match v.ch.writeable elide cpu with
  | .ok (b, _, cpu1) => (b, cpu1, v)
  | .error _ => (false, cpu, v)

/-- The condition `ch.readable()`. -/
def readable (elide : Bool) (cpu : Cpu) (v : Vars) : Bool × Cpu × Vars :=
  match v.ch.readable elide cpu with
  | .ok (b, _, cpu1) => (b, cpu1, v)
  | .error _ => (false, cpu, v)

/-- The statement `ch.write(x);`; `none` when `write` aborts. -/
def write (elide : Bool) (x : Int) (cpu : Cpu) (v : Vars) : Option (Cpu × Vars) :=
  match v.ch.write 3 elide x cpu with
  | .ok (c1, cpu1) => some (cpu1, { v with ch := c1 })
  | .error _ => none

/-- The statement `out.push_back(ch.read());`; `none` when `read` aborts. -/
def read (elide : Bool) (cpu : Cpu) (v : Vars) : Option (Cpu × Vars) :=
  match v.ch.read 3 elide cpu with
  | .ok (x, c1, cpu1) => some (cpu1, { ch := c1, out := v.out ++ [x] })
  | .error _ => none

/-- The body of task A: five times wait-until-writeable then write, then `TaskEnd()`. -/
def bodyA (elide : Bool) : List (Instr Vars) :=
  [Instr.TaskWait (writeable elide), Instr.stmt (write elide 0),
   Instr.TaskWait (writeable elide), Instr.stmt (write elide 1),
   Instr.TaskWait (writeable elide), Instr.stmt (write elide 2),
   Instr.TaskWait (writeable elide), Instr.stmt (write elide 3),
   Instr.TaskWait (writeable elide), Instr.stmt (write elide 4),
   Instr.TaskEnd]

/-- The body of task B: `for (;;) { TaskWait(ch.readable()); out.push_back(ch.read()); }`. -/
def bodyB (elide : Bool) : List (Instr Vars) :=
  [Instr.TaskWait (readable elide), Instr.stmt (read elide), Instr.jump 0]

/-- Task A, with a step budget that is never exhausted in the scenario. -/
def taskA (elide : Bool) : TaskFn Vars × Task := (Body.fn (bodyA elide) 64, {})

/-- Task B. -/
def taskB (elide : Bool) : TaskFn Vars × Task := (Body.fn (bodyB elide) 64, {})

/-- The world at the start: interrupts in the given state, an empty channel, no output. -/
def start (ien : Bool) : World Vars :=
  { cpu := { ien := ien }, user := { ch := Channel.fresh (fun _ => 0), out := [] } }

/-- What is observed at a round boundary: for each task its state and resumption marker,
B's output list, the number of unread values in the channel, and whether the channel is
readable; `none` if a task aborted or ran out of its step budget. -/
def observe (r : Outcome (List (TaskFn Vars × Task) × World Vars)) :
    Option (List (Task.State × Option Nat) × List Int × Nat × Bool) :=
  match r with
  | .ok (tasks, w) =>
    some (tasks.map (fun p => (p.2._state, p.2._jmp)), w.user.out,
      Channel.count 3 w.user.ch, w.user.ch._readable)
  | .abort => none
  | .outOfFuel => none

end Scenario

/-! ## TaskSwap (TaskSwap.h)

`TaskSwap(initFn, sp, spSave)` is a sequence of `asm volatile` statements.  Each statement
is one instruction; the instructions are interpreted on a machine with numbered registers,
a hardware stack pointer, a program counter and a memory.  `sp` and `spSave` are the two
lvalues passed to `TaskSwap`; they are memory operands (`"m"`), kept here as two cells of
their own, which assumes that they do not lie in the stack area that is pushed or popped.
Addresses are natural numbers and are not reduced modulo the address space; the theorems
assume that the pushes do not run below address 0.  A stack slot is one pointer-sized
cell, `width` bytes apart from the next. -/

namespace Swap

/-- The targets for which `TaskSwap.h` defines `TaskSwap`: `TaskMSP430` with
`sizeof(void*) == 2`, `TaskMSP430` otherwise, and `TaskARM32`. -/
inductive Arch where
  | MSP430Small
  | MSP430Large
  | ARM32
  deriving DecidableEq, Repr

/-- Bytes taken by one register on the stack: 2 for `pushm`/`popm`/`ret`, 4 for
`pushm.a`/`popm.a`/`ret.a` and for ARM `push`/`pop`. -/
def Arch.width : Arch → Nat
  | .MSP430Small => 2
  | .MSP430Large => 4
  | .ARM32 => 4

/-- The two lvalues passed to `TaskSwap`. -/
inductive Var where
  | sp
  | spSave
  deriving DecidableEq, Repr

/-- The machine state the instructions act on. -/
structure Machine where
  reg : Nat → Nat
  SP : Nat
  PC : Nat
  mem : Nat → Nat
  sp : Nat
  spSave : Nat

namespace Machine

/-- Read a memory operand. -/
def load (m : Machine) : Var → Nat
  | .sp => m.sp
  | .spSave => m.spSave

/-- Write a memory operand. -/
def store (m : Machine) (v : Var) (x : Nat) : Machine :=
  match v with
  | .sp => { m with sp := x }
  | .spSave => { m with spSave := x }

/-- Push one register: decrement the stack pointer, then store the register there. -/
def push1 (w : Nat) (r : Nat) (m : Machine) : Machine :=
  { m with SP := m.SP - w, mem := Function.update m.mem (m.SP - w) (m.reg r) }

/-- Pop one register: load it from the top of the stack, then increment the stack
pointer. -/
def pop1 (w : Nat) (r : Nat) (m : Machine) : Machine :=
  { m with reg := Function.update m.reg r (m.mem m.SP), SP := m.SP + w }

/-- Push the registers in the order of the list. -/
def pushRegs (w : Nat) : List Nat → Machine → Machine
  | [], m => m
  | r :: rs, m => pushRegs w rs (push1 w r m)

/-- Pop the registers in the order of the list. -/
def popRegs (w : Nat) : List Nat → Machine → Machine
  | [], m => m
  | r :: rs, m => popRegs w rs (pop1 w r m)

end Machine

/-- The instructions that occur in `TaskSwap`, one constructor per instruction text (the
`.a` forms of the MSP430 large model are the same constructors, executed with width 4). -/
inductive Asm where
  /-- MSP430 `pushm #n, r`: push `r`, `r-1`, ..., `r-n+1` -/
  | pushm (n r : Nat)
  /-- MSP430 `popm #n, r`: pop `r-n+1`, ..., `r` -/
  | popm (n r : Nat)
  /-- MSP430 `mov sp, %0` with `%0` the memory operand `v` -/
  | mov_sp_to (v : Var)
  /-- MSP430 `mov %0, r` -/
  | mov_to_reg (v : Var) (r : Nat)
  /-- MSP430 `mov %1, %0` (`movx.a` in the large model) with `%1 = src`, `%0 = dst` -/
  | mov_mem (src dst : Var)
  /-- MSP430 `mov r, %0` -/
  | mov_from_reg (r : Nat) (v : Var)
  /-- MSP430 `mov %0, sp` -/
  | mov_to_sp (v : Var)
  /-- MSP430 `br %0` -/
  | br (target : Nat)
  /-- MSP430 `ret`: pop the return address into the program counter -/
  | ret
  /-- ARM `push {regs}`: the lowest-numbered register ends at the lowest address -/
  | push (regs : List Nat)
  /-- ARM `pop {regs}`: the lowest-numbered register is loaded from the lowest address -/
  | pop (regs : List Nat)
  /-- ARM `str sp, %0` -/
  | str_sp (v : Var)
  /-- ARM `ldr r, %0` -/
  | ldr (r : Nat) (v : Var)
  /-- ARM `str r, %0` -/
  | str (r : Nat) (v : Var)
  /-- ARM `ldr sp, %0` -/
  | ldr_sp (v : Var)
  /-- ARM `b %0` -/
  | b (target : Nat)
  /-- ARM `bx r` -/
  | bx (r : Nat)

/-- Execute one instruction. -/
def step (a : Arch) (i : Asm) (m : Machine) : Machine :=
  match i with
  | .pushm n r => m.pushRegs a.width ((List.range n).map (fun k => r - k))
  | .popm n r => m.popRegs a.width ((List.range n).map (fun k => r + 1 - n + k))
  | .mov_sp_to v => m.store v m.SP
  | .mov_to_reg v r => { m with reg := Function.update m.reg r (m.load v) }
  | .mov_mem src dst => m.store dst (m.load src)
  | .mov_from_reg r v => m.store v (m.reg r)
  | .mov_to_sp v => { m with SP := m.load v }
  | .br target => { m with PC := target }
  | .ret => { m with PC := m.mem m.SP, SP := m.SP + a.width }
  | .push regs => m.pushRegs a.width regs.reverse
  | .pop regs => m.popRegs a.width regs
  | .str_sp v => m.store v m.SP
  | .ldr r v => { m with reg := Function.update m.reg r (m.load v) }
  | .str r v => m.store v (m.reg r)
  | .ldr_sp v => { m with SP := m.load v }
  | .b target => { m with PC := target }
  | .bx r => { m with PC := m.reg r }

/-- Execute a sequence of instructions. -/
def run (a : Arch) (prog : List Asm) (m : Machine) : Machine :=
  prog.foldl (fun m i => step a i m) m

/-- The macro `TaskSwap(initFn, sp, spSave)` for each target, instruction by instruction in
the order of the source; `initFn` is `none` for `nullptr`. -/
def TaskSwap (a : Arch) (initFn : Option Nat) : List Asm :=
  match a with
  | .MSP430Small =>
    [Asm.pushm 7 10,
     Asm.mov_sp_to Var.spSave,
     Asm.mov_to_reg Var.sp 11,
     Asm.mov_mem Var.spSave Var.sp,
     Asm.mov_from_reg 11 Var.spSave,
     Asm.mov_to_sp Var.spSave] ++
    (match initFn with
     | some f => [Asm.br f]
     | none => [Asm.popm 7 10, Asm.ret])
  | .MSP430Large =>
    [Asm.pushm 7 10,
     Asm.mov_sp_to Var.spSave,
     Asm.mov_to_reg Var.sp 11,
     Asm.mov_mem Var.spSave Var.sp,
     Asm.mov_from_reg 11 Var.spSave,
     Asm.mov_to_sp Var.spSave] ++
    (match initFn with
     | some f => [Asm.br f]
     | none => [Asm.popm 7 10, Asm.ret])
  | .ARM32 =>
    [Asm.push [4, 5, 6, 7, 8, 9, 10, 11, 14],
     Asm.str_sp Var.spSave,
     Asm.ldr 0 Var.sp,
     Asm.ldr 1 Var.spSave,
     Asm.str 0 Var.spSave,
     Asm.str 1 Var.sp,
     Asm.ldr_sp Var.spSave] ++
    (match initFn with
     | some f => [Asm.b f]
     | none => [Asm.pop [4, 5, 6, 7, 8, 9, 10, 11, 14], Asm.bx 14])

/-- The registers `TaskSwap` saves, in ascending order: `r4`..`r10` on the MSP430,
`r4`..`r11` and `lr` (`r14`) on ARM. -/
def saved : Arch → List Nat
  | .MSP430Small => [4, 5, 6, 7, 8, 9, 10]
  | .MSP430Large => [4, 5, 6, 7, 8, 9, 10]
  | .ARM32 => [4, 5, 6, 7, 8, 9, 10, 11, 14]

/-- Bytes of stack taken by the saved registers. -/
def frame (a : Arch) : Nat :=
  (saved a).length * a.width

/-- Bytes popped by the return instruction itself: the return address on the MSP430 (it
was pushed by the call), nothing on ARM (the return address is in `lr`). -/
def retBytes : Arch → Nat
  | .MSP430Small => 2
  | .MSP430Large => 4
  | .ARM32 => 0

end Swap

/-! # Theorems -/

namespace Channel

variable {T : Type}

/-! ### The guard around a channel operation -/

theorem Disabled_ok (elide : Bool) (cpu : Cpu) :
    ∃ irq cpu1, IRQState.Disabled elide cpu = .ok (irq, cpu1) := by
  cases elide <;> simp [IRQState.Disabled, IRQState.disable]

theorem read_of_readable (N : Nat) (elide : Bool) (c : Channel T) (cpu : Cpu)
    (h : c._readable = true) :
    ∃ cpu1, c.read N elide cpu = .ok ((c._read N).1, (c._read N).2, cpu1) := by
  obtain ⟨irq, cpu1, hd⟩ := Disabled_ok elide cpu
  exact ⟨irq.destroy cpu1, by simp [read, hd, h]⟩

theorem read_of_not_readable (N : Nat) (elide : Bool) (c : Channel T) (cpu : Cpu)
    (h : c._readable = false) :
    ∃ cpu1, c.read N elide cpu = .error (c, cpu1) := by
  obtain ⟨irq, cpu1, hd⟩ := Disabled_ok elide cpu
  exact ⟨cpu1, by simp [read, hd, h]⟩

theorem write_of_writeable (N : Nat) (elide : Bool) (c : Channel T) (x : T) (cpu : Cpu)
    (h : c._writeable = true) :
    ∃ cpu1, c.write N elide x cpu = .ok (c._write N x, cpu1) := by
  obtain ⟨irq, cpu1, hd⟩ := Disabled_ok elide cpu
  exact ⟨irq.destroy cpu1, by simp [write, hd, h]⟩

theorem write_of_not_writeable (N : Nat) (elide : Bool) (c : Channel T) (x : T) (cpu : Cpu)
    (h : c._writeable = false) :
    ∃ cpu1, c.write N elide x cpu = .error (c, cpu1) := by
  obtain ⟨irq, cpu1, hd⟩ := Disabled_ok elide cpu
  exact ⟨cpu1, by simp [write, hd, h]⟩

theorem readTry_eq (N : Nat) (elide : Bool) (c : Channel T) (cpu : Cpu) :
    ∃ cpu1, c.readTry N elide cpu =
      .ok (if c._readable then (some (c._read N).1, (c._read N).2, cpu1)
           else (none, c, cpu1)) := by
  obtain ⟨irq, cpu1, hd⟩ := Disabled_ok elide cpu
  refine ⟨irq.destroy cpu1, ?_⟩
  cases h : c._readable <;> simp [readTry, hd, h]

theorem writeTry_eq (N : Nat) (elide : Bool) (c : Channel T) (x : T) (cpu : Cpu) :
    ∃ cpu1, c.writeTry N elide x cpu =
      .ok (if c._writeable then (true, c._write N x, cpu1) else (false, c, cpu1)) := by
  obtain ⟨irq, cpu1, hd⟩ := Disabled_ok elide cpu
  refine ⟨irq.destroy cpu1, ?_⟩
  cases h : c._writeable <;> simp [writeTry, hd, h]

theorem readable_eq (elide : Bool) (c : Channel T) (cpu : Cpu) :
    ∃ cpu1, c.readable elide cpu = .ok (c._readable, c, cpu1) := by
  obtain ⟨irq, cpu1, hd⟩ := Disabled_ok elide cpu
  exact ⟨irq.destroy cpu1, by simp [readable, hd]⟩

theorem writeable_eq (elide : Bool) (c : Channel T) (cpu : Cpu) :
    ∃ cpu1, c.writeable elide cpu = .ok (c._writeable, c, cpu1) := by
  obtain ⟨irq, cpu1, hd⟩ := Disabled_ok elide cpu
  exact ⟨irq.destroy cpu1, by simp [writeable, hd]⟩

/-! ### Index arithmetic -/

theorem mod_wrap (N j : Nat) (h : j < 2 * N) :
    j % N = if j < N then j else j - N := by
  split
  · next h1 => exact Nat.mod_eq_of_lt h1
  · next h1 =>
    have h2 : j = (j - N) + N := by omega
    rw [h2, Nat.add_mod_right, Nat.mod_eq_of_lt (by omega)]
    omega

theorem count_eq (N : Nat) (c : Channel T) (h : WF N c) :
    count N c = if c._full then N
      else if c._rptr ≤ c._wptr then c._wptr - c._rptr else c._wptr + N - c._rptr := by
  obtain ⟨h1, h2, _⟩ := h
  unfold count
  split
  · rfl
  · rw [mod_wrap N _ (by omega)]
    split_ifs <;> omega

theorem fresh_WF (N : Nat) (hN : 1 ≤ N) (buf : Nat → T) : WF N (fresh buf) := by
  simp [WF, fresh]; omega

theorem reset_WF (N : Nat) (hN : 1 ≤ N) (c : Channel T) : WF N c.reset := by
  simp [WF, reset]; omega

theorem fresh_unread (N : Nat) (buf : Nat → T) : unread N (fresh buf) = [] := by
  simp [unread, count, fresh]

theorem reset_unread (N : Nat) (c : Channel T) : unread N c.reset = [] := by
  simp [unread, count, reset]

theorem count_le (N : Nat) (c : Channel T) (h : WF N c) : count N c ≤ N := by
  rw [count_eq N c h]; obtain ⟨h1, h2, _⟩ := h
  split_ifs <;> omega

theorem unread_length (N : Nat) (c : Channel T) : (unread N c).length = count N c := by
  simp [unread]

theorem writeable_iff (N : Nat) (c : Channel T) (h : WF N c) :
    c._writeable = true ↔ count N c < N := by
  rw [count_eq N c h]; obtain ⟨h1, h2, _⟩ := h
  cases hf : c._full <;> simp [_writeable, hf]
  split_ifs <;> omega

theorem readable_iff (N : Nat) (c : Channel T) (h : WF N c) :
    c._readable = true ↔ 0 < count N c := by
  rw [count_eq N c h]; obtain ⟨h1, h2, h3⟩ := h
  cases hf : c._full <;> simp [_readable, hf]
  · split_ifs <;> omega
  · omega

/-! ### One write, one read -/

theorem write_buf (N : Nat) (c : Channel T) (x : T) :
    (c._write N x)._buf = Function.update c._buf c._wptr x := by
  by_cases h : c._wptr + 1 = N <;> simp [_write, h]

theorem write_rptr (N : Nat) (c : Channel T) (x : T) : (c._write N x)._rptr = c._rptr := by
  by_cases h : c._wptr + 1 = N <;> simp [_write, h]

theorem write_wptr (N : Nat) (c : Channel T) (x : T) :
    (c._write N x)._wptr = if c._wptr + 1 = N then 0 else c._wptr + 1 := by
  by_cases h : c._wptr + 1 = N <;> simp [_write, h]

theorem write_full (N : Nat) (c : Channel T) (x : T) :
    (c._write N x)._full = (c._rptr == (if c._wptr + 1 = N then 0 else c._wptr + 1)) := by
  by_cases h : c._wptr + 1 = N <;> simp [_write, h]

theorem read_val (N : Nat) (c : Channel T) : (c._read N).1 = c._buf c._rptr := by
  simp [_read]

theorem read_buf (N : Nat) (c : Channel T) : (c._read N).2._buf = c._buf := by
  by_cases h : c._rptr + 1 = N <;> simp [_read, h]

theorem read_rptr (N : Nat) (c : Channel T) :
    (c._read N).2._rptr = if c._rptr + 1 = N then 0 else c._rptr + 1 := by
  by_cases h : c._rptr + 1 = N <;> simp [_read, h]

theorem read_wptr (N : Nat) (c : Channel T) : (c._read N).2._wptr = c._wptr := by
  by_cases h : c._rptr + 1 = N <;> simp [_read, h]

theorem read_full (N : Nat) (c : Channel T) : (c._read N).2._full = false := by
  simp [_read]

theorem write_WF (N : Nat) (c : Channel T) (x : T) (h : WF N c) : WF N (c._write N x) := by
  obtain ⟨h1, h2, _⟩ := h
  simp only [WF, write_rptr, write_wptr, write_full, beq_iff_eq]
  split_ifs <;> omega

theorem write_count (N : Nat) (c : Channel T) (x : T) (h : WF N c)
    (hw : c._writeable = true) : count N (c._write N x) = count N c + 1 := by
  have h' := write_WF N c x h
  rw [count_eq N _ h', count_eq N c h]
  obtain ⟨h1, h2, _⟩ := h
  have hf : c._full = false := by simpa [_writeable] using hw
  rw [write_rptr, write_wptr, write_full, hf]
  by_cases hwn : c._wptr + 1 = N
  · by_cases hr0 : c._rptr = 0
    · simp [hwn, hr0]
    · simp [hwn, hr0]; split_ifs <;> omega
  · by_cases hrw : c._rptr = c._wptr + 1
    · simp [hwn, hrw]; omega
    · simp [hwn, hrw]; split_ifs <;> omega

theorem write_unread (N : Nat) (c : Channel T) (x : T) (h : WF N c)
    (hw : c._writeable = true) : unread N (c._write N x) = unread N c ++ [x] := by
  have hc := write_count N c x h hw
  have hk := count_eq N c h
  have hlt := (writeable_iff N c h).mp hw
  obtain ⟨h1, h2, _⟩ := h
  have hf : c._full = false := by simpa [_writeable] using hw
  simp only [hf, Bool.false_eq_true, if_false] at hk
  unfold unread
  rw [hc, List.range_succ, List.map_append, write_buf, write_rptr]
  congr 1
  · apply List.map_congr_left
    intro i hi
    have hi' : i < count N c := List.mem_range.mp hi
    have hne : (c._rptr + i) % N ≠ c._wptr := by
      rw [mod_wrap N _ (by omega)]
      split_ifs at hk ⊢ <;> omega
    simp [Function.update, hne]
  · have he : (c._rptr + count N c) % N = c._wptr := by
      rw [mod_wrap N _ (by omega)]
      split_ifs at hk ⊢ <;> omega
    rw [List.map_singleton, he]
    simp

theorem read_WF (N : Nat) (c : Channel T) (h : WF N c) : WF N (c._read N).2 := by
  obtain ⟨h1, h2, _⟩ := h
  simp only [WF, read_rptr, read_wptr, read_full]
  split_ifs <;> simp <;> omega

theorem read_count (N : Nat) (c : Channel T) (h : WF N c) (hr : c._readable = true) :
    count N c = count N (c._read N).2 + 1 := by
  have h' := read_WF N c h
  rw [count_eq N _ h', count_eq N c h]
  obtain ⟨h1, h2, h3⟩ := h
  simp only [read_rptr, read_wptr, read_full]
  cases hf : c._full
  · have hne : c._rptr ≠ c._wptr := by simpa [_readable, hf] using hr
    simp only [Bool.false_eq_true, if_false]
    split_ifs <;> omega
  · have := h3 hf
    simp only [Bool.false_eq_true, if_false, if_true]
    split_ifs <;> omega

theorem read_unread (N : Nat) (c : Channel T) (h : WF N c) (hr : c._readable = true) :
    unread N c = (c._read N).1 :: unread N (c._read N).2 := by
  have hc := read_count N c h hr
  have hle := count_le N c h
  obtain ⟨h1, h2, _⟩ := h
  unfold unread
  rw [hc, List.range_succ_eq_map, List.map_cons, List.map_map, read_buf, read_val]
  congr 1
  · simp [Nat.mod_eq_of_lt h1]
  · apply List.map_congr_left
    intro i hi
    have hi' : i < count N (c._read N).2 := List.mem_range.mp hi
    have he : (c._rptr + (i + 1)) % N = ((c._read N).2._rptr + i) % N := by
      rw [read_rptr, mod_wrap N (c._rptr + (i + 1)) (by omega),
        mod_wrap N _ (by split_ifs <;> omega)]
      split_ifs <;> omega
    simp only [Function.comp, Nat.succ_eq_add_one, he]

/-! ### Simulation of the bounded queue -/

theorem unread_of_not_readable (N : Nat) (c : Channel T) (h : WF N c)
    (hr : c._readable = false) : unread N c = [] := by
  have h0 : count N c = 0 := by
    have := (readable_iff N c h).not
    simp [hr] at this
    exact this
  simp [unread, h0]

theorem unread_length_lt_iff (N : Nat) (c : Channel T) (h : WF N c) :
    (unread N c).length < N ↔ c._writeable = true := by
  rw [unread_length, writeable_iff N c h]

theorem unread_isEmpty (N : Nat) (c : Channel T) (h : WF N c) :
    (!(unread N c).isEmpty) = c._readable := by
  cases hr : c._readable
  · simp [unread_of_not_readable N c h hr]
  · simp [read_unread N c h hr]

theorem call_sim (N : Nat) (hN : 1 ≤ N) (elide : Bool) (op : Op T) (c : Channel T)
    (cpu : Cpu) (h : WF N c) :
    match call N elide op c cpu with
    | .ok (r, c1, _) => Fifo.call N op (unread N c) = some (r, unread N c1) ∧ WF N c1
    | .error _ => Fifo.call N op (unread N c) = none := by
  cases op with
  | readable =>
    obtain ⟨cpu1, e⟩ := readable_eq elide c cpu
    simp [call, e, Except.map, Fifo.call, unread_isEmpty N c h, h]
  | writeable =>
    obtain ⟨cpu1, e⟩ := writeable_eq elide c cpu
    simp only [call, e, Except.map, Fifo.call]
    refine ⟨?_, h⟩
    cases hw : c._writeable
    · have := (unread_length_lt_iff N c h).not
      simp [hw] at this
      simp; omega
    · have := (unread_length_lt_iff N c h).mpr hw
      simp [this]
  | read =>
    cases hr : c._readable
    · obtain ⟨cpu1, e⟩ := read_of_not_readable N elide c cpu hr
      simp [call, e, Except.map, unread_of_not_readable N c h hr, Fifo.call]
    · obtain ⟨cpu1, e⟩ := read_of_readable N elide c cpu hr
      simp [call, e, Except.map, read_unread N c h hr, Fifo.call, read_WF N c h]
  | write x =>
    cases hw : c._writeable
    · obtain ⟨cpu1, e⟩ := write_of_not_writeable N elide c x cpu hw
      have := (unread_length_lt_iff N c h).not
      simp [hw] at this
      simp [call, e, Except.map, Fifo.call]; omega
    · obtain ⟨cpu1, e⟩ := write_of_writeable N elide c x cpu hw
      have := (unread_length_lt_iff N c h).mpr hw
      simp [call, e, Except.map, Fifo.call, this, write_unread N c x h hw, write_WF N c x h]
  | readTry =>
    obtain ⟨cpu1, e⟩ := readTry_eq N elide c cpu
    cases hr : c._readable
    · simp [call, e, Except.map, hr, unread_of_not_readable N c h hr, Fifo.call, h]
    · simp [call, e, Except.map, hr, read_unread N c h hr, Fifo.call, read_WF N c h]
  | writeTry x =>
    obtain ⟨cpu1, e⟩ := writeTry_eq N elide c x cpu
    cases hw : c._writeable
    · have := (unread_length_lt_iff N c h).not
      simp [hw] at this
      simp [call, e, Except.map, hw, Fifo.call, h]; omega
    · have := (unread_length_lt_iff N c h).mpr hw
      simp [call, e, Except.map, hw, Fifo.call, this, write_unread N c x h hw,
        write_WF N c x h]
  | reset =>
    simp [call, Fifo.call, reset_unread, reset_WF N hN c]

theorem calls_sim (N : Nat) (hN : 1 ≤ N) (elide : Bool) (ops : List (Op T)) :
    ∀ (c : Channel T) (cpu : Cpu), WF N c →
    match calls N elide ops c cpu with
    | .ok (rs, c1, _) => Fifo.calls N ops (unread N c) = some (rs, unread N c1) ∧ WF N c1
    | .error _ => Fifo.calls N ops (unread N c) = none := by
  induction ops with
  | nil => intro c cpu h; simp [calls, Fifo.calls, h]
  | cons op ops ih =>
    intro c cpu h
    have h1 := call_sim N hN elide op c cpu h
    unfold calls Fifo.calls
    cases e1 : call N elide op c cpu with
    | error e => simp [e1] at h1; simp [h1]
    | ok r1 =>
      obtain ⟨r, c1, cpu1⟩ := r1
      simp [e1] at h1
      have h2 := ih c1 cpu1 h1.2
      simp only [h1.1]
      cases e2 : calls N elide ops c1 cpu1 with
      | error e => simp [e2] at h2; simp [h2]
      | ok r2 =>
        obtain ⟨rs, c2, cpu2⟩ := r2
        simp [e2] at h2
        simp [h2.1, h2.2]

/-- Every state reached from a fresh channel by calls that do not abort satisfies the
state invariant. -/
theorem calls_WF (N : Nat) (hN : 1 ≤ N) (elide : Bool) (ops : List (Op T)) (buf : Nat → T)
    (cpu : Cpu) (rs : List (Ret T)) (c1 : Channel T) (cpu1 : Cpu)
    (h : calls N elide ops (fresh buf) cpu = .ok (rs, c1, cpu1)) : WF N c1 := by
  have := calls_sim N hN elide ops (fresh buf) cpu (fresh_WF N hN buf)
  simp [h] at this
  exact this.2

theorem writeAll_ok (N : Nat) (elide : Bool) (vs : List T) :
    ∀ (c : Channel T) (cpu : Cpu), WF N c → (unread N c).length + vs.length ≤ N →
    ∃ c1 cpu1, writeAll N elide vs c cpu = .ok (c1, cpu1) ∧ WF N c1 ∧
      unread N c1 = unread N c ++ vs := by
  induction vs with
  | nil => intro c cpu h _; exact ⟨c, cpu, rfl, h, by simp⟩
  | cons x xs ih =>
    intro c cpu h hl
    have hw : c._writeable = true :=
      (unread_length_lt_iff N c h).mp (by simp at hl; omega)
    obtain ⟨cpu1, e⟩ := write_of_writeable N elide c x cpu hw
    have hu := write_unread N c x h hw
    obtain ⟨c2, cpu2, e2, h2, u2⟩ := ih (c._write N x) cpu1 (write_WF N c x h)
      (by rw [hu]; simp at hl ⊢; omega)
    refine ⟨c2, cpu2, ?_, h2, ?_⟩
    · simp [writeAll, e, e2]
    · rw [u2, hu]; simp

theorem readAll_ok (N : Nat) (elide : Bool) (vs : List T) :
    ∀ (c : Channel T) (cpu : Cpu) (rest : List T), WF N c → unread N c = vs ++ rest →
    ∃ c1 cpu1, readAll N elide vs.length c cpu = .ok (vs, c1, cpu1) ∧ WF N c1 ∧
      unread N c1 = rest := by
  induction vs with
  | nil => intro c cpu rest h hu; exact ⟨c, cpu, rfl, h, by simpa using hu⟩
  | cons x xs ih =>
    intro c cpu rest h hu
    have hr : c._readable = true := by
      rw [← unread_isEmpty N c h, hu]; simp
    obtain ⟨cpu1, e⟩ := read_of_readable N elide c cpu hr
    have hu1 := read_unread N c h hr
    rw [hu] at hu1
    simp only [List.cons_append, List.cons.injEq] at hu1
    obtain ⟨c2, cpu2, e2, h2, u2⟩ := ih (c._read N).2 cpu1 rest (read_WF N c h) hu1.2.symm
    refine ⟨c2, cpu2, ?_, h2, u2⟩
    simp [readAll, e, e2, hu1.1]

theorem empty_of_unread_nil (N : Nat) (c : Channel T) (h : WF N c) (hu : unread N c = []) :
    c._readable = false ∧ c._writeable = true ∧ c._rptr = c._wptr ∧ c._full = false := by
  have h0 : count N c = 0 := by rw [← unread_length, hu]; rfl
  have hk := count_eq N c h
  obtain ⟨h1, h2, h3⟩ := h
  rw [h0] at hk
  cases hf : c._full
  · simp only [hf, Bool.false_eq_true, if_false] at hk
    have : c._rptr = c._wptr := by split_ifs at hk <;> omega
    simp [_readable, _writeable, hf, this]
  · simp [hf] at hk; omega

theorem full_of_unread_length (N : Nat) (c : Channel T) (h : WF N c)
    (hu : (unread N c).length = N) (hN : 1 ≤ N) :
    c._readable = true ∧ c._writeable = false := by
  have hw : ¬ c._writeable = true := by
    rw [← unread_length_lt_iff N c h]; omega
  have hr : c._readable = true := by
    rw [readable_iff N c h, ← unread_length]; omega
  simp at hw
  exact ⟨hr, hw⟩

/-- The guard taken and released around a channel operation leaves the interrupt-enable
state as it found it. -/
theorem guard_ien (elide : Bool) (cpu cpu1 : Cpu) (irq : IRQState)
    (h : IRQState.Disabled elide cpu = .ok (irq, cpu1)) : (irq.destroy cpu1).ien = cpu.ien := by
  cases elide <;>
    simp [IRQState.Disabled, IRQState.disable, IRQState.move, IRQState.destroy,
      IRQState.restore, SetInterruptsEnabled] at h <;>
    obtain ⟨h1, h2⟩ := h <;> subst h1 <;> subst h2 <;>
    simp [IRQState.destroy, IRQState.restore, SetInterruptsEnabled]

theorem emptyAt_WF (N i : Nat) (hi : i < N) (buf : Nat → T) :
    WF N { _buf := buf, _rptr := i, _wptr := i, _full := false } := by
  simp [WF, hi]

theorem emptyAt_unread (N i : Nat) (buf : Nat → T) :
    unread N ({ _buf := buf, _rptr := i, _wptr := i, _full := false } : Channel T) = [] := by
  have : (i + N - i) % N = 0 := by
    rw [Nat.add_sub_cancel_left]; exact Nat.mod_self N
  simp [unread, count, this]

/-! ### Claims about the channel -/

/-- C1: for every capacity `N ≥ 1` and every finite sequence of channel operations applied
to a freshly constructed channel, the channel behaves exactly like a bounded FIFO queue:
if no call aborts, every call returns what the same call returns on the queue of values
written and not yet read (so a successful read returns the earliest such value), the
state encodes exactly that queue, and the queue never holds more than `N` values; and a
call aborts exactly when the sequence calls `read` on an empty queue or `write` on a full
one. -/
theorem refines_bounded_fifo (N : Nat) (hN : 1 ≤ N) (elide : Bool) (buf : Nat → T)
    (cpu : Cpu) (ops : List (Op T)) :
    RefinesFifo N ops (calls N elide ops (fresh buf) cpu) := by
  have h := calls_sim N hN elide ops (fresh buf) cpu (fresh_WF N hN buf)
  rw [fresh_unread] at h
  unfold RefinesFifo
  cases e : calls N elide ops (fresh buf) cpu with
  | error x => simpa [e] using h
  | ok r =>
    obtain ⟨rs, c1, cpu1⟩ := r
    simp only [e] at h ⊢
    exact ⟨h.1, by rw [unread_length]; exact count_le N c1 h.2⟩

theorem refines_bounded_fifo_witness :
    1 ≤ 2 ∧
    RefinesFifo 2
      [Op.write 7, Op.write 8, Op.writeTry 9, Op.read, Op.write 5, Op.readTry, Op.read,
        Op.readTry]
      (calls 2 false
        [Op.write 7, Op.write 8, Op.writeTry 9, Op.read, Op.write 5, Op.readTry, Op.read,
          Op.readTry]
        (fresh (fun _ => 0)) { ien := true }) :=
  ⟨by decide, refines_bounded_fifo 2 (by decide) false (fun _ => 0) { ien := true } _⟩

/-- C2: round trip.  For every `N`, every position `i < N` (so `N ≥ 1`), every list
`v1..vk` with `k ≤ N` and every empty channel state with both indices at `i` and the full
flag clear, `k` successive `write(v_j)` all succeed without aborting, and `k` successive
`read()` then return `v1..vk` in that order and leave the channel empty. -/
theorem write_read_roundtrip (N : Nat) (elide : Bool) (vs : List T) (hk : vs.length ≤ N)
    (i : Nat) (hi : i < N) (buf : Nat → T) (cpu : Cpu) :
    ∃ c1 cpu1 c2 cpu2,
      writeAll N elide vs { _buf := buf, _rptr := i, _wptr := i, _full := false } cpu
        = .ok (c1, cpu1) ∧
      readAll N elide vs.length c1 cpu1 = .ok (vs, c2, cpu2) ∧
      c2._readable = false ∧ c2._rptr = c2._wptr ∧ c2._full = false := by
  obtain ⟨c1, cpu1, e1, w1, u1⟩ := writeAll_ok N elide vs _ cpu (emptyAt_WF N i hi buf)
    (by rw [emptyAt_unread]; simpa using hk)
  rw [emptyAt_unread, List.nil_append] at u1
  obtain ⟨c2, cpu2, e2, w2, u2⟩ := readAll_ok N elide vs c1 cpu1 [] w1 (by simpa using u1)
  obtain ⟨h1, _, h3, h4⟩ := empty_of_unread_nil N c2 w2 u2
  exact ⟨c1, cpu1, c2, cpu2, e1, e2, h1, h3, h4⟩

theorem write_read_roundtrip_witness :
    [10, 20, 30].length ≤ 3 ∧ 2 < 3 ∧
    ∃ c1 cpu1 c2 cpu2,
      writeAll 3 true [10, 20, 30]
        { _buf := fun _ => 0, _rptr := 2, _wptr := 2, _full := false } { ien := true }
        = .ok (c1, cpu1) ∧
      readAll 3 true [10, 20, 30].length c1 cpu1 = .ok ([10, 20, 30], c2, cpu2) ∧
      c2._readable = false ∧ c2._rptr = c2._wptr ∧ c2._full = false :=
  ⟨by decide, by decide,
    write_read_roundtrip 3 true [10, 20, 30] (by decide) 2 (by decide) (fun _ => 0)
      { ien := true }⟩

/-- C3: for every `N ≥ 1`, starting from a freshly constructed channel or from any channel
state on which `reset()` has just been called: `N` writes with no interleaved reads all
succeed, after which `writeable()` returns false and `readable()` returns true; `N` further
reads with no interleaved writes all succeed (returning the values written), after which
`readable()` returns false and `writeable()` returns true. -/
theorem fill_then_drain (N : Nat) (hN : 1 ≤ N) (elide : Bool) (c0 : Channel T)
    (h0 : (∃ buf, c0 = fresh buf) ∨ (∃ c : Channel T, c0 = c.reset)) (vs : List T)
    (hl : vs.length = N) (cpu : Cpu) :
    ∃ c1 cpu1, writeAll N elide vs c0 cpu = .ok (c1, cpu1) ∧
      (∀ cpu2, ∃ cpu3, c1.writeable elide cpu2 = .ok (false, c1, cpu3)) ∧
      (∀ cpu2, ∃ cpu3, c1.readable elide cpu2 = .ok (true, c1, cpu3)) ∧
      ∀ cpu2, ∃ c2 cpu3, readAll N elide N c1 cpu2 = .ok (vs, c2, cpu3) ∧
        (∀ cpu4, ∃ cpu5, c2.readable elide cpu4 = .ok (false, c2, cpu5)) ∧
        (∀ cpu4, ∃ cpu5, c2.writeable elide cpu4 = .ok (true, c2, cpu5)) := by
  have hw0 : WF N c0 ∧ unread N c0 = [] := by
    rcases h0 with ⟨buf, rfl⟩ | ⟨c, rfl⟩
    · exact ⟨fresh_WF N hN buf, fresh_unread N buf⟩
    · exact ⟨reset_WF N hN c, reset_unread N c⟩
  obtain ⟨c1, cpu1, e1, w1, u1⟩ := writeAll_ok N elide vs c0 cpu hw0.1
    (by rw [hw0.2]; simp [hl])
  rw [hw0.2, List.nil_append] at u1
  obtain ⟨hr1, hwr1⟩ := full_of_unread_length N c1 w1 (by rw [u1, hl]) hN
  refine ⟨c1, cpu1, e1, ?_, ?_, ?_⟩
  · intro cpu2
    obtain ⟨cpu3, e⟩ := writeable_eq elide c1 cpu2
    exact ⟨cpu3, by rw [e, hwr1]⟩
  · intro cpu2
    obtain ⟨cpu3, e⟩ := readable_eq elide c1 cpu2
    exact ⟨cpu3, by rw [e, hr1]⟩
  · intro cpu2
    obtain ⟨c2, cpu3, e2, w2, u2⟩ := readAll_ok N elide vs c1 cpu2 [] w1 (by simpa using u1)
    rw [hl] at e2
    obtain ⟨h1, h2, _, _⟩ := empty_of_unread_nil N c2 w2 u2
    refine ⟨c2, cpu3, e2, ?_, ?_⟩
    · intro cpu4
      obtain ⟨cpu5, e⟩ := readable_eq elide c2 cpu4
      exact ⟨cpu5, by rw [e, h1]⟩
    · intro cpu4
      obtain ⟨cpu5, e⟩ := writeable_eq elide c2 cpu4
      exact ⟨cpu5, by rw [e, h2]⟩

theorem fill_then_drain_witness :
    1 ≤ 2 ∧
    ((∃ buf, ({ _buf := fun _ => 9, _rptr := 1, _wptr := 0, _full := false } :
        Channel Nat).reset = fresh buf) ∨
      (∃ c : Channel Nat, ({ _buf := fun _ => 9, _rptr := 1, _wptr := 0, _full := false } :
        Channel Nat).reset = c.reset)) ∧
    [4, 5].length = 2 ∧
    ∃ c1 cpu1,
      writeAll 2 true [4, 5]
        ({ _buf := fun _ => 9, _rptr := 1, _wptr := 0, _full := false } : Channel Nat).reset
        { ien := false } = .ok (c1, cpu1) ∧
      (∀ cpu2, ∃ cpu3, c1.writeable true cpu2 = .ok (false, c1, cpu3)) ∧
      (∀ cpu2, ∃ cpu3, c1.readable true cpu2 = .ok (true, c1, cpu3)) ∧
      ∀ cpu2, ∃ c2 cpu3, readAll 2 true 2 c1 cpu2 = .ok ([4, 5], c2, cpu3) ∧
        (∀ cpu4, ∃ cpu5, c2.readable true cpu4 = .ok (false, c2, cpu5)) ∧
        (∀ cpu4, ∃ cpu5, c2.writeable true cpu4 = .ok (true, c2, cpu5)) :=
  ⟨by decide, Or.inr ⟨_, rfl⟩, by decide,
    fill_then_drain 2 (by decide) true _ (Or.inr ⟨_, rfl⟩) [4, 5] (by decide)
      { ien := false }⟩

theorem succ_mod (N i : Nat) (hi : i < N) :
    (if i + 1 = N then 0 else i + 1) = (i + 1) % N := by
  rw [mod_wrap N (i + 1) (by omega)]
  split_ifs <;> omega

theorem read_eq_mod (N : Nat) (c : Channel T) (h : WF N c) :
    c._read N = (c._buf c._rptr, { c with _rptr := (c._rptr + 1) % N, _full := false }) := by
  rw [← succ_mod N c._rptr h.1]
  by_cases hr : c._rptr + 1 = N <;> simp [_read, hr]

theorem write_eq_mod (N : Nat) (c : Channel T) (x : T) (h : WF N c) :
    c._write N x =
      { _buf := Function.update c._buf c._wptr x, _rptr := c._rptr,
        _wptr := (c._wptr + 1) % N, _full := decide (c._rptr = (c._wptr + 1) % N) } := by
  rw [← succ_mod N c._wptr h.2.1]
  by_cases hw : c._wptr + 1 = N <;> simp [_write, hw] <;> rfl

/-- C4: in a channel state satisfying the state invariant (as every reachable state does),
`read()` aborts if and only if the channel is not readable and `write(x)` aborts if and
only if the channel is not writeable, which is when the full flag is set and `N` values
are unread; at the abort the channel is as it was, so nothing has been overwritten.  When
readable, `read` returns the value stored at the read index, advances the read index by
one modulo `N` and clears the full flag.  When writeable, `write` stores `x` at the write
index, advances the write index by one modulo `N`, sets the full flag exactly when the two
indices are then equal, and keeps every unread value (the unread values become the old
ones followed by `x`). -/
theorem read_write_contract (N : Nat) (elide : Bool) (c : Channel T) (hwf : WF N c) (x : T)
    (cpu : Cpu) :
    ((∃ e, c.read N elide cpu = .error e) ↔ c._readable = false) ∧
    ((∃ e, c.write N elide x cpu = .error e) ↔ c._writeable = false) ∧
    (c._writeable = false ↔ c._full = true ∧ (unread N c).length = N) ∧
    (c._readable = false → ∃ cpu1, c.read N elide cpu = .error (c, cpu1)) ∧
    (c._writeable = false → ∃ cpu1, c.write N elide x cpu = .error (c, cpu1)) ∧
    (c._readable = true → ∃ cpu1, c.read N elide cpu =
      .ok (c._buf c._rptr, { c with _rptr := (c._rptr + 1) % N, _full := false }, cpu1)) ∧
    (c._writeable = true →
      (∃ cpu1, c.write N elide x cpu =
        .ok ({ _buf := Function.update c._buf c._wptr x, _rptr := c._rptr,
               _wptr := (c._wptr + 1) % N,
               _full := decide (c._rptr = (c._wptr + 1) % N) }, cpu1)) ∧
      unread N (c._write N x) = unread N c ++ [x]) := by
  refine ⟨?_, ?_, ?_, ?_, ?_, ?_, ?_⟩
  · cases hr : c._readable
    · obtain ⟨cpu1, e⟩ := read_of_not_readable N elide c cpu hr
      simp [e]
    · obtain ⟨cpu1, e⟩ := read_of_readable N elide c cpu hr
      simp [e]
  · cases hw : c._writeable
    · obtain ⟨cpu1, e⟩ := write_of_not_writeable N elide c x cpu hw
      simp [e]
    · obtain ⟨cpu1, e⟩ := write_of_writeable N elide c x cpu hw
      simp [e]
  · rw [unread_length]
    constructor
    · intro hw
      have hf : c._full = true := by simpa [_writeable] using hw
      exact ⟨hf, by simp [count, hf]⟩
    · intro h; simp [_writeable, h.1]
  · exact read_of_not_readable N elide c cpu
  · exact write_of_not_writeable N elide c x cpu
  · intro hr
    obtain ⟨cpu1, e⟩ := read_of_readable N elide c cpu hr
    exact ⟨cpu1, by rw [e, read_eq_mod N c hwf]⟩
  · intro hw
    obtain ⟨cpu1, e⟩ := write_of_writeable N elide c x cpu hw
    exact ⟨⟨cpu1, by rw [e, write_eq_mod N c x hwf]⟩, write_unread N c x hwf hw⟩

theorem read_write_contract_witness :
    WF 3 ({ _buf := fun i => 10 + i, _rptr := 2, _wptr := 1, _full := false } : Channel Nat) ∧
    (∃ cpu1, ({ _buf := fun i => 10 + i, _rptr := 2, _wptr := 1, _full := false } :
        Channel Nat).read 3 true { ien := true } =
      .ok (12, { _buf := fun i => 10 + i, _rptr := (2 + 1) % 3, _wptr := 1, _full := false },
        cpu1)) :=
  ⟨by decide,
    (read_write_contract 3 true
      ({ _buf := fun i => 10 + i, _rptr := 2, _wptr := 1, _full := false } : Channel Nat)
      (by decide) 0 { ien := true }).2.2.2.2.2.1 rfl⟩

/-- C5: `readTry()` and `writeTry(x)` never abort.  On a channel that is not readable,
`readTry()` returns an empty result and leaves the channel (indices, full flag, buffer) and
the interrupt-enable state unchanged; on a full channel `writeTry(x)` returns false and
leaves them unchanged.  Otherwise `readTry()` returns a non-empty result carrying exactly
the value `read()` returns and `writeTry(x)` returns true, each with the same successor
state as `read()` / `write(x)`. -/
theorem try_variants (N : Nat) (elide : Bool) (c : Channel T) (x : T) (cpu : Cpu) :
    (∃ r, c.readTry N elide cpu = .ok r) ∧
    (∃ r, c.writeTry N elide x cpu = .ok r) ∧
    (c._readable = false →
      ∃ cpu1, c.readTry N elide cpu = .ok (none, c, cpu1) ∧ cpu1.ien = cpu.ien) ∧
    (c._full = true →
      ∃ cpu1, c.writeTry N elide x cpu = .ok (false, c, cpu1) ∧ cpu1.ien = cpu.ien) ∧
    (c._readable = true →
      ∃ v c1 cpu1, c.read N elide cpu = .ok (v, c1, cpu1) ∧
        c.readTry N elide cpu = .ok (some v, c1, cpu1)) ∧
    (c._full = false →
      ∃ c1 cpu1, c.write N elide x cpu = .ok (c1, cpu1) ∧
        c.writeTry N elide x cpu = .ok (true, c1, cpu1)) := by
  obtain ⟨irq, cpu1, hd⟩ := Disabled_ok elide cpu
  have hi := guard_ien elide cpu cpu1 irq hd
  refine ⟨?_, ?_, ?_, ?_, ?_, ?_⟩
  · cases h : c._readable <;> simp [readTry, hd, h]
  · cases h : c._writeable <;> simp [writeTry, hd, h]
  · intro h
    exact ⟨irq.destroy cpu1, by simp [readTry, hd, h], hi⟩
  · intro h
    exact ⟨irq.destroy cpu1, by simp [writeTry, hd, _writeable, h], hi⟩
  · intro h
    exact ⟨(c._read N).1, (c._read N).2, irq.destroy cpu1, by simp [read, hd, h],
      by simp [readTry, hd, h]⟩
  · intro h
    exact ⟨c._write N x, irq.destroy cpu1, by simp [write, hd, _writeable, h],
      by simp [writeTry, hd, _writeable, h]⟩

theorem try_variants_witness :
    (∃ cpu1, (fresh (fun _ => 0) : Channel Nat).readTry 2 false { ien := true } =
        .ok (none, fresh (fun _ => 0), cpu1) ∧ cpu1.ien = true) ∧
    (∃ c1 cpu1, (fresh (fun _ => 0) : Channel Nat).write 2 false 5 { ien := true } =
        .ok (c1, cpu1) ∧
      (fresh (fun _ => 0) : Channel Nat).writeTry 2 false 5 { ien := true } =
        .ok (true, c1, cpu1)) :=
  ⟨(try_variants 2 false (fresh (fun _ => 0) : Channel Nat) 5 { ien := true }).2.2.1 rfl,
    (try_variants 2 false (fresh (fun _ => 0) : Channel Nat) 5 { ien := true }).2.2.2.2.2 rfl⟩

end Channel

namespace IRQState

/-! ### Claims about the interrupt-mask guard -/

/-- C6 (the code at the failing input): move-constructing a guard from an armed guard
leaves the moved-from guard armed, so destroying both objects calls
`SetInterruptsEnabled` with the recorded state twice; and `Disabled()`, when its `return`
is not elided, hands back an armed guard while interrupts are enabled again. -/
theorem move_keeps_source_armed :
    (move { _prevEn := true, _prevEnValid := true }).2._prevEnValid = true ∧
    ((move { _prevEn := true, _prevEnValid := true }).1.destroy
      ((move { _prevEn := true, _prevEnValid := true }).2.destroy { ien := false })).calls
      = [HookCall.SetInterruptsEnabled true, HookCall.SetInterruptsEnabled true] ∧
    Disabled false { ien := true } =
      .ok ({ _prevEn := true, _prevEnValid := true },
           { ien := true,
             calls := [HookCall.SetInterruptsEnabled false,
                       HookCall.SetInterruptsEnabled true] }) := by
  refine ⟨rfl, rfl, rfl⟩

/-- C7: with `SetInterruptsEnabled` setting the interrupt-enable state and returning the
previous one, for every initial state of the machine and every unarmed guard: `disable()`
leaves interrupts masked and records the previous state, `enable()` leaves them enabled and
records the previous state; a following `restore()` sets the interrupt-enable state back to
what it was and disarms the guard; any number of further `restore()` calls change nothing
(so they make no hook call); and `restore()` on the unarmed guard does nothing. -/
theorem disable_enable_restore (p : Bool) (cpu : Cpu) (n : Nat) :
    (∃ g1 cpu1, disable { _prevEn := p, _prevEnValid := false } cpu = .ok (g1, cpu1) ∧
      cpu1.ien = false ∧ g1._prevEn = cpu.ien ∧ g1._prevEnValid = true ∧
      cpu1.calls = cpu.calls ++ [HookCall.SetInterruptsEnabled false] ∧
      (g1.restore cpu1).2.ien = cpu.ien ∧ (g1.restore cpu1).1._prevEnValid = false ∧
      (g1.restore cpu1).2.calls = cpu1.calls ++ [HookCall.SetInterruptsEnabled cpu.ien] ∧
      (fun s : IRQState × Cpu => s.1.restore s.2)^[n] (g1.restore cpu1) = g1.restore cpu1) ∧
    (∃ g1 cpu1, enable { _prevEn := p, _prevEnValid := false } cpu = .ok (g1, cpu1) ∧
      cpu1.ien = true ∧ g1._prevEn = cpu.ien ∧ g1._prevEnValid = true ∧
      cpu1.calls = cpu.calls ++ [HookCall.SetInterruptsEnabled true] ∧
      (g1.restore cpu1).2.ien = cpu.ien ∧ (g1.restore cpu1).1._prevEnValid = false ∧
      (g1.restore cpu1).2.calls = cpu1.calls ++ [HookCall.SetInterruptsEnabled cpu.ien] ∧
      (fun s : IRQState × Cpu => s.1.restore s.2)^[n] (g1.restore cpu1) = g1.restore cpu1) ∧
    restore { _prevEn := p, _prevEnValid := false } cpu
      = ({ _prevEn := p, _prevEnValid := false }, cpu) := by
  have hfix : ∀ (g : IRQState) (c : Cpu), g._prevEnValid = false →
      (fun s : IRQState × Cpu => s.1.restore s.2)^[n] (g, c) = (g, c) := by
    intro g c hg
    apply Function.iterate_fixed
    simp [restore, hg]
  refine ⟨⟨_, _, rfl, rfl, rfl, rfl, rfl, rfl, rfl, rfl, ?_⟩,
    ⟨_, _, rfl, rfl, rfl, rfl, rfl, rfl, rfl, rfl, ?_⟩, rfl⟩
  · exact hfix _ _ rfl
  · exact hfix _ _ rfl

/-- C8: `disable()` and `enable()` abort if and only if the guard is already armed; at the
abort neither the machine state nor the guard has changed, so the hook was not called and
the recorded state was not overwritten.  A guard armed by `disable()` or `enable()` is
armed, so arming it again aborts; after `restore()` it can be armed again without
aborting. -/
theorem arm_aborts_iff_armed (g : IRQState) (cpu : Cpu) :
    ((∃ e, g.disable cpu = .error e) ↔ g._prevEnValid = true) ∧
    ((∃ e, g.enable cpu = .error e) ↔ g._prevEnValid = true) ∧
    (g._prevEnValid = true →
      g.disable cpu = .error (g, cpu) ∧ g.enable cpu = .error (g, cpu)) ∧
    (∀ g1 cpu1, (g.disable cpu = .ok (g1, cpu1) ∨ g.enable cpu = .ok (g1, cpu1)) →
      g1._prevEnValid = true ∧
      ∀ cpu2, g1.disable cpu2 = .error (g1, cpu2) ∧ g1.enable cpu2 = .error (g1, cpu2)) ∧
    (∃ r, (g.restore cpu).1.disable (g.restore cpu).2 = .ok r) ∧
    (∃ r, (g.restore cpu).1.enable (g.restore cpu).2 = .ok r) := by
  cases hv : g._prevEnValid
  · refine ⟨by simp [disable, hv], by simp [enable, hv], by simp, ?_,
      by simp [restore, disable, hv], by simp [restore, enable, hv]⟩
    intro g1 cpu1 h
    have h1 : g1._prevEnValid = true := by
      rcases h with h | h
      · simp [disable, hv] at h; rw [← h.1]
      · simp [enable, hv] at h; rw [← h.1]
    exact ⟨h1, fun cpu2 => by simp [disable, enable, h1]⟩
  · refine ⟨by simp [disable, hv], by simp [enable, hv], by simp [disable, enable, hv], ?_,
      by simp [restore, disable, hv], by simp [restore, enable, hv]⟩
    intro g1 cpu1 h
    rcases h with h | h
    · simp [disable, hv] at h
    · simp [enable, hv] at h

theorem arm_aborts_iff_armed_witness :
    (disable { _prevEn := true, _prevEnValid := true } { ien := false } =
        .error ({ _prevEn := true, _prevEnValid := true }, { ien := false }) ∧
      enable { _prevEn := true, _prevEnValid := true } { ien := false } =
        .error ({ _prevEn := true, _prevEnValid := true }, { ien := false })) :=
  (arm_aborts_iff_armed { _prevEn := true, _prevEnValid := true } { ien := false }).2.2.1 rfl

end IRQState

namespace Body

variable {σ : Type}

/-! ### What an invocation of a body leaves behind -/

theorem note_log (w : World σ) (e : Event) : (w.note e).log = w.log ++ [e] := rfl

/-- An invocation that returns only appends to the log; if it logged the execution of a
`TaskEnd`, it returned from there with state `Done` and the marker inside that `TaskEnd`;
and the progress flag is set on return only if it was set before or the body went through
the completion side of a yield, wait-until or sleep point. -/
theorem exec_log (body : List (Instr σ)) (fuel : Nat) :
    ∀ (pc : Nat) (atLabel : Bool) (t : Task) (w : World σ) (t1 : Task) (w1 : World σ),
    exec body fuel pc atLabel t w = .ok (t1, w1) →
    ∃ added, w1.log = w.log ++ added ∧
      (∀ p, Event.finish p ∈ added →
        t1._state = Task.State.Done ∧ t1._jmp = some p ∧ body[p]? = some .TaskEnd) ∧
      (t1._didWork = true →
        t._didWork = true ∨ ∃ p, Event.pass p ∈ added ∧ IsSuspensionPoint body p) := by
  induction fuel with
  | zero => intro pc atLabel t w t1 w1 h; simp [exec] at h
  | succ fuel ih =>
    intro pc atLabel t w t1 w1 h
    have cont : ∀ (e : Event) (pc2 : Nat) (t2 : Task) (w2 : World σ),
        w2.log = w.log ++ [e] → (∀ p, e ≠ Event.finish p) →
        (t2._didWork = true → t._didWork = true ∨ (e = Event.pass pc ∧ IsSuspensionPoint body pc)) →
        exec body fuel pc2 false t2 w2 = .ok (t1, w1) →
        ∃ added, w1.log = w.log ++ added ∧
          (∀ p, Event.finish p ∈ added →
            t1._state = Task.State.Done ∧ t1._jmp = some p ∧ body[p]? = some .TaskEnd) ∧
          (t1._didWork = true →
            t._didWork = true ∨ ∃ p, Event.pass p ∈ added ∧ IsSuspensionPoint body p) := by
      intro e pc2 t2 w2 hl hne hd hx
      obtain ⟨added, h1, h2, h3⟩ := ih pc2 false t2 w2 t1 w1 hx
      refine ⟨e :: added, by rw [h1, hl]; simp, ?_, ?_⟩
      · intro p hp
        rcases List.mem_cons.mp hp with hp | hp
        · exact absurd hp.symm (hne p)
        · exact h2 p hp
      · intro hw
        rcases h3 hw with h4 | ⟨p, hp, hs⟩
        · rcases hd h4 with h5 | ⟨h5, h6⟩
          · exact Or.inl h5
          · exact Or.inr ⟨pc, by rw [h5]; exact List.mem_cons_self _ _, h6⟩
        · exact Or.inr ⟨p, List.mem_cons_of_mem _ hp, hs⟩
    have same : ∀ (pc2 : Nat), exec body fuel pc2 false t w = .ok (t1, w1) →
        ∃ added, w1.log = w.log ++ added ∧
          (∀ p, Event.finish p ∈ added →
            t1._state = Task.State.Done ∧ t1._jmp = some p ∧ body[p]? = some .TaskEnd) ∧
          (t1._didWork = true →
            t._didWork = true ∨ ∃ p, Event.pass p ∈ added ∧ IsSuspensionPoint body p) :=
      fun pc2 hx => ih pc2 false t w t1 w1 hx
    unfold exec at h
    cases hb : body[pc]? with
    | none =>
      simp only [hb] at h
      cases h
      exact ⟨[], by simp, by simp, fun hw => Or.inl hw⟩
    | some i =>
      simp only [hb] at h
      cases i with
      | stmt f =>
        simp only at h
        cases hf : f w.cpu w.user with
        | none => simp [hf] at h
        | some r =>
          simp only [hf] at h
          exact cont (Event.stmt pc) _ _ _ rfl (by simp) (fun hw => Or.inl hw) h
      | TaskYield =>
        cases atLabel
        · simp only [TaskYield, Bool.false_eq_true, if_false] at h
          cases h
          exact ⟨[Event.suspend pc], rfl, by simp, fun hw => Or.inl hw⟩
        · simp only [TaskYield, if_true] at h
          exact cont (Event.pass pc) _ _ _ rfl (by simp)
            (fun _ => Or.inr ⟨rfl, Or.inl hb⟩) h
      | TaskWait cond =>
        simp only [TaskWait] at h
        cases hc : (cond w.cpu w.user).1
        · simp only [hc, Bool.not_false, if_true] at h
          cases h
          refine ⟨[Event.cond pc false, Event.suspend pc], by simp [note_log, World.note], by simp, ?_⟩
          intro hw
          cases atLabel <;> exact Or.inl hw
        · simp only [hc, Bool.not_true, Bool.false_eq_true, if_false] at h
          obtain ⟨added, h1, h2, h3⟩ := ih _ false _ _ t1 w1 h
          refine ⟨Event.cond pc true :: Event.pass pc :: added,
            by rw [h1]; simp [World.note], ?_, ?_⟩
          · intro p hp
            simp only [List.mem_cons] at hp
            rcases hp with hp | hp | hp
            · cases hp
            · cases hp
            · exact h2 p hp
          · intro hw
            right
            rcases h3 hw with h4 | ⟨p, hp, hs⟩
            · exact ⟨pc, by simp, Or.inr (Or.inl ⟨cond, hb⟩)⟩
            · exact ⟨p, by simp [hp], hs⟩
      | TaskSleepMs ms =>
        cases atLabel
        · simp only [TaskSleepMs, Bool.false_eq_true, if_false] at h
          cases h
          exact ⟨[Event.suspend pc], rfl, by simp, fun hw => Or.inl hw⟩
        · simp only [TaskSleepMs, if_true] at h
          cases hc : t._sleepDone w.cpu
          · simp only [hc, Bool.not_false, if_true] at h
            cases h
            exact ⟨[Event.cond pc false, Event.suspend pc], by simp [World.note], by simp,
              fun hw => Or.inl hw⟩
          · simp only [hc, Bool.not_true, Bool.false_eq_true, if_false] at h
            obtain ⟨added, h1, h2, h3⟩ := ih _ false _ _ t1 w1 h
            refine ⟨Event.cond pc true :: Event.pass pc :: added,
              by rw [h1]; simp [World.note], ?_, ?_⟩
            · intro p hp
              simp only [List.mem_cons] at hp
              rcases hp with hp | hp | hp
              · cases hp
              · cases hp
              · exact h2 p hp
            · intro hw
              right
              rcases h3 hw with h4 | ⟨p, hp, hs⟩
              · exact ⟨pc, by simp, Or.inr (Or.inr ⟨ms, hb⟩)⟩
              · exact ⟨p, by simp [hp], hs⟩
      | TaskEnd =>
        cases atLabel
        · simp only [TaskEnd, Bool.false_eq_true, if_false] at h
          cases h
          refine ⟨[Event.finish pc], rfl, ?_, fun hw => Or.inl hw⟩
          intro p hp
          simp only [List.mem_singleton, Event.finish.injEq] at hp
          subst hp
          exact ⟨rfl, rfl, hb⟩
        · simp only [TaskEnd, if_true] at h
          cases h
          exact ⟨[], by simp, by simp, fun hw => Or.inl hw⟩
      | jump target =>
        simp only at h
        exact same target h
      | branch cond target =>
        simp only at h
        split at h
        · exact same _ h
        · exact same _ h

theorem exec_TaskEnd_label (body : List (Instr σ)) (pc fuel : Nat) (t : Task) (w : World σ)
    (hb : body[pc]? = some .TaskEnd) : exec body (fuel + 1) pc true t w = .ok (t, w) := by
  simp [exec, hb, TaskEnd]

theorem fn_of_done (body : List (Instr σ)) (pc fuel : Nat) (t : Task) (w : World σ)
    (hb : body[pc]? = some .TaskEnd) (hj : t._jmp = some pc) :
    fn body (fuel + 1) t w = .ok (t, w) := by
  simp [fn, TaskBegin, hj, exec_TaskEnd_label body pc fuel t w hb]

end Body

namespace Task

variable {σ : Type}

theorem run_of_done (f : TaskFn σ) (t : Task) (w : World σ) (h : t._state = State.Done) :
    run f t w = .ok (false, { t with _didWork := false }, w) := by
  simp [run, h]

theorem run_of_not_done (f : TaskFn σ) (t : Task) (w : World σ) (h : t._state ≠ State.Done) :
    run f t w = (f { t with _didWork := false } w).map (fun r => (r.1._didWork, r.1, r.2)) := by
  obtain ⟨st, dw, j, s1, s2⟩ := t
  cases st
  · simp only [run]
    generalize f _ w = o
    cases o <;> rfl
  · simp only [run]
    generalize f _ w = o
    cases o <;> rfl
  · exact absurd rfl h

theorem runs_of_done (f : TaskFn σ) (n : Nat) :
    ∀ (t : Task) (w : World σ), t._state = State.Done →
    runs f (n + 1) t w = .ok (List.replicate (n + 1) false, { t with _didWork := false }, w) := by
  induction n with
  | zero => intro t w h; simp [runs, run_of_done f t w h]
  | succ n ih =>
    intro t w h
    have h2 := ih { t with _didWork := false } w h
    rw [runs, run_of_done f t w h]
    simp only [h2]
    rfl

/-! ### Claims about `run()` and `Done` -/

/-- C9: `run()` first clears the progress flag, then invokes the body exactly once if the
state is `Run` or `Wait` (on the task with the flag cleared and the world as it is) and
not at all if the state is `Done`, and returns the progress flag as the body left it.  For
a body written with the control primitives it returns true only if the body went through
the completion side (`_state = Run; _didWork = true`) of a yield, wait-until or sleep point
during this call. -/
theorem run_contract (f : TaskFn σ) (body : List (Instr σ)) (fuel : Nat) (t : Task)
    (w : World σ) (k : Nat) :
    (t._state = State.Done → run f t w = .ok (false, { t with _didWork := false }, w)) ∧
    (t._state ≠ State.Done →
      run f t w = (f { t with _didWork := false } w).map (fun r => (r.1._didWork, r.1, r.2))) ∧
    (∀ r, run (counted f) t { cpu := w.cpu, user := (w.user, k), log := w.log } = .ok r →
      r.2.2.user.2 = k + (if t._state = State.Done then 0 else 1)) ∧
    (∀ t1 w1, run (Body.fn body fuel) t w = .ok (true, t1, w1) →
      ∃ added pc, w1.log = w.log ++ added ∧ Event.pass pc ∈ added ∧
        Body.IsSuspensionPoint body pc) := by
  refine ⟨run_of_done f t w, run_of_not_done f t w, ?_, ?_⟩
  · intro r hr
    by_cases hd : t._state = State.Done
    · rw [run_of_done _ t _ hd] at hr
      cases hr
      simp [hd]
    · rw [run_of_not_done _ t _ hd] at hr
      simp only [counted] at hr
      cases hf : f { t with _didWork := false } { cpu := w.cpu, user := w.user, log := w.log }
        with
      | abort => simp [hf, Outcome.map] at hr
      | outOfFuel => simp [hf, Outcome.map] at hr
      | ok a =>
        simp only [hf, Outcome.map, Outcome.ok.injEq] at hr
        subst hr
        simp [hd]
  · intro t1 w1 hr
    by_cases hd : t._state = State.Done
    · rw [run_of_done _ t _ hd] at hr
      simp at hr
    · rw [run_of_not_done _ t _ hd] at hr
      cases hf : Body.fn body fuel { t with _didWork := false } w with
      | abort => simp [hf, Outcome.map] at hr
      | outOfFuel => simp [hf, Outcome.map] at hr
      | ok a =>
        obtain ⟨t2, w2⟩ := a
        simp only [hf, Outcome.map, Outcome.ok.injEq, Prod.mk.injEq] at hr
        obtain ⟨h1, h2, h3⟩ := hr
        subst h2; subst h3
        obtain ⟨added, ha, _, hp⟩ := Body.exec_log body fuel _ _ _ _ _ _ hf
        rcases hp h1 with h4 | ⟨p, hp1, hp2⟩
        · simp at h4
        · exact ⟨added, p, ha, hp1, hp2⟩

theorem run_contract_witness :
    run (Body.fn [Instr.TaskYield, Instr.jump 0] 5)
      { _state := State.Wait, _didWork := false, _jmp := some 0 }
      ({ cpu := { ien := false }, user := () } : World Unit) =
      (Body.fn [Instr.TaskYield, Instr.jump 0] 5
        { _state := State.Wait, _didWork := false, _jmp := some 0 }
        ({ cpu := { ien := false }, user := () } : World Unit)).map
        (fun r => (r.1._didWork, r.1, r.2)) ∧
    ∃ added pc,
      ({ cpu := { ien := false }, user := (),
         log := [Event.pass 0, Event.suspend 0] } : World Unit).log
        = ({ cpu := { ien := false }, user := () } : World Unit).log ++ added ∧
      Event.pass pc ∈ added ∧
      Body.IsSuspensionPoint ([Instr.TaskYield, Instr.jump 0] : List (Instr Unit)) pc :=
  ⟨(run_contract (Body.fn [Instr.TaskYield, Instr.jump 0] 5) [] 0
      { _state := State.Wait, _didWork := false, _jmp := some 0 }
      ({ cpu := { ien := false }, user := () } : World Unit) 0).2.1 (by decide),
    (run_contract (Body.fn [Instr.TaskYield, Instr.jump 0] 5) [Instr.TaskYield, Instr.jump 0] 5
      { _state := State.Wait, _didWork := false, _jmp := some 0 }
      ({ cpu := { ien := false }, user := () } : World Unit) 0).2.2.2
      { _state := State.Wait, _didWork := true, _jmp := some 0 }
      { cpu := { ien := false }, user := (), log := [Event.pass 0, Event.suspend 0] } rfl⟩

/-- C10: `Done` is absorbing until reset.  If an invocation of a body written with the
control primitives executed `TaskEnd` (at position `pc`), it returned with state `Done` and
the resumption marker inside that `TaskEnd`.  From then on, for every task in state `Done`
with that marker: `run()` returns false without invoking the body, any number of `run()`
calls return false each, a direct invocation of the body returns at once, and all of them
leave the world (so also the log of what the body executed), the state `Done` and the
marker unchanged.  `reset()` sets the state to `Run` and clears the marker, and the next
`run()` executes the body from the top. -/
theorem done_absorbing (body : List (Instr σ)) (fuel : Nat) (t : Task) (w : World σ)
    (t1 : Task) (w1 : World σ) (pc : Nat) (added : List Event)
    (hinv : Body.fn body fuel t w = .ok (t1, w1))
    (hlog : w1.log = w.log ++ added) (hfin : Event.finish pc ∈ added) :
    t1._state = State.Done ∧ t1._jmp = some pc ∧ body[pc]? = some .TaskEnd ∧
    (∀ (t2 : Task) (w2 : World σ) (fuel2 n : Nat),
      t2._state = State.Done → t2._jmp = some pc →
      run (Body.fn body fuel2) t2 w2 = .ok (false, { t2 with _didWork := false }, w2) ∧
      runs (Body.fn body fuel2) (n + 1) t2 w2 =
        .ok (List.replicate (n + 1) false, { t2 with _didWork := false }, w2) ∧
      Body.fn body (fuel2 + 1) t2 w2 = .ok (t2, w2)) ∧
    (reset t1)._state = State.Run ∧ (reset t1)._jmp = none ∧
    (∀ (w2 : World σ) (fuel2 : Nat),
      run (Body.fn body fuel2) (reset t1) w2 =
        (Body.exec body fuel2 0 false { reset t1 with _didWork := false } w2).map
          (fun r => (r.1._didWork, r.1, r.2))) := by
  obtain ⟨added2, ha, hf, _⟩ := Body.exec_log body fuel _ _ _ _ _ _ hinv
  have he : added2 = added := List.append_cancel_left (ha.symm.trans hlog)
  subst he
  obtain ⟨h1, h2, h3⟩ := hf pc hfin
  refine ⟨h1, h2, h3, ?_, rfl, rfl, ?_⟩
  · intro t2 w2 fuel2 n hs hj
    exact ⟨run_of_done _ t2 w2 hs, runs_of_done _ n t2 w2 hs,
      Body.fn_of_done body pc fuel2 t2 w2 h3 hj⟩
  · intro w2 fuel2
    rw [run_of_not_done _ _ _ (by simp [reset])]
    rfl

theorem done_absorbing_witness :
    Body.fn ([Instr.TaskYield, Instr.TaskEnd] : List (Instr Unit)) 3
        { _state := State.Wait, _jmp := some 0 } { cpu := { ien := false }, user := () }
      = .ok ({ _state := State.Done, _didWork := true, _jmp := some 1 },
             { cpu := { ien := false }, user := (),
               log := [Event.pass 0, Event.finish 1] }) ∧
    (({ _state := State.Done, _didWork := true, _jmp := some 1 } : Task)._state = State.Done ∧
      ({ _state := State.Done, _didWork := true, _jmp := some 1 } : Task)._jmp = some 1 ∧
      ([Instr.TaskYield, Instr.TaskEnd] : List (Instr Unit))[1]? = some .TaskEnd ∧
      (∀ (t2 : Task) (w2 : World Unit) (fuel2 n : Nat),
        t2._state = State.Done → t2._jmp = some 1 →
        run (Body.fn [Instr.TaskYield, Instr.TaskEnd] fuel2) t2 w2
          = .ok (false, { t2 with _didWork := false }, w2) ∧
        runs (Body.fn [Instr.TaskYield, Instr.TaskEnd] fuel2) (n + 1) t2 w2 =
          .ok (List.replicate (n + 1) false, { t2 with _didWork := false }, w2) ∧
        Body.fn [Instr.TaskYield, Instr.TaskEnd] (fuel2 + 1) t2 w2 = .ok (t2, w2)) ∧
      (reset { _state := State.Done, _didWork := true, _jmp := some 1 })._state = State.Run ∧
      (reset { _state := State.Done, _didWork := true, _jmp := some 1 })._jmp = none ∧
      (∀ (w2 : World Unit) (fuel2 : Nat),
        run (Body.fn [Instr.TaskYield, Instr.TaskEnd] fuel2)
            (reset { _state := State.Done, _didWork := true, _jmp := some 1 }) w2 =
          (Body.exec [Instr.TaskYield, Instr.TaskEnd] fuel2 0 false
            { reset { _state := State.Done, _didWork := true, _jmp := some 1 } with
              _didWork := false } w2).map
            (fun r => (r.1._didWork, r.1, r.2)))) :=
  ⟨rfl,
    done_absorbing [Instr.TaskYield, Instr.TaskEnd] 3
      { _state := State.Wait, _jmp := some 0 } { cpu := { ien := false }, user := () }
      { _state := State.Done, _didWork := true, _jmp := some 1 }
      { cpu := { ien := false }, user := (), log := [Event.pass 0, Event.finish 1] }
      1 [Event.pass 0, Event.finish 1] rfl rfl (by decide)⟩

end Task

namespace Task

/-! ### The sleep test -/

/-- C19: wraparound tolerance of the sleep test.  For every 32-bit start time `s`, every
duration `d` and every true elapsed time `e < 2^32`, if the millisecond counter reads
`(s + e) mod 2^32`, then `_sleepDone()` returns true if and only if `e ≥ d`; this includes
the case in which the counter has wrapped past zero and reads less than `s`. -/
theorem sleepDone_wraparound (t : Task) (cpu : Cpu) (s d e : Nat) (hs : s < 2 ^ 32)
    (he : e < 2 ^ 32) (hst : t._sleepStartMs = s) (hdu : t._sleepDurationMs = d)
    (hc : cpu.timeMs = (s + e) % 2 ^ 32) : t._sleepDone cpu = true ↔ d ≤ e := by
  have h : (TimeMs cpu + 2 ^ 32 - t._sleepStartMs) % 2 ^ 32 = e := by
    simp only [TimeMs, hc, hst]
    omega
  rw [_sleepDone, h, hdu]
  simp

theorem sleepDone_wraparound_witness :
    4294967291 < 2 ^ 32 ∧ 10 < 2 ^ 32 ∧
    ((({ _sleepStartMs := 4294967291, _sleepDurationMs := 8 } : Task)._sleepDone
        { ien := false, timeMs := 5 } = true) ↔ 8 ≤ 10) :=
  ⟨by decide, by decide,
    sleepDone_wraparound { _sleepStartMs := 4294967291, _sleepDurationMs := 8 }
      { ien := false, timeMs := 5 } 4294967291 8 10 (by decide) (by decide) rfl rfl
      (by decide)⟩

end Task

namespace Channel

variable {T : Type}

/-! ### The state invariant -/

theorem int_sub_emod (N r w : Nat) (hr : r < N) (hw : w < N) :
    ((w : Int) - r) % N = ((if r ≤ w then w - r else w + N - r : Nat) : Int) := by
  split
  · next h =>
    rw [Int.emod_eq_of_lt (by omega) (by omega)]
    omega
  · next h =>
    have e : ((w : Int) - r) = ((w + N - r : Nat) : Int) + (-1) * N := by
      rw [Nat.cast_sub (by omega)]; push_cast; ring
    rw [e, Int.add_mul_emod_self, Int.emod_eq_of_lt (by omega) (by omega)]

/-- C18: the channel state invariant.  For every `N ≥ 1`, in every state reached from a
freshly constructed channel by a sequence of calls none of which aborts (so `read` and
`write` are called under their preconditions): the read index and the write index are
both `< N`, the full flag implies that the two indices are equal, the full flag is set if
and only if exactly `N` written values are still unread, and the number of unread values
is `N` when full and `(write index - read index) mod N` otherwise.  The unread values are
those of the bounded queue that received the same calls. -/
theorem state_invariant (N : Nat) (hN : 1 ≤ N) (elide : Bool) (ops : List (Op T))
    (buf : Nat → T) (cpu : Cpu) (rs : List (Ret T)) (c : Channel T) (cpu1 : Cpu)
    (h : calls N elide ops (fresh buf) cpu = .ok (rs, c, cpu1)) :
    c._rptr < N ∧ c._wptr < N ∧ (c._full = true → c._rptr = c._wptr) ∧
    ∃ q, Fifo.calls N ops [] = some (rs, q) ∧
      (c._full = true ↔ q.length = N) ∧
      (q.length : Int) = if c._full then (N : Int) else ((c._wptr : Int) - c._rptr) % N := by
  have hs := calls_sim N hN elide ops (fresh buf) cpu (fresh_WF N hN buf)
  rw [fresh_unread] at hs
  simp only [h] at hs
  obtain ⟨hq, hwf⟩ := hs
  have hc := count_eq N c hwf
  have hw := writeable_iff N c hwf
  refine ⟨hwf.1, hwf.2.1, hwf.2.2, unread N c, hq, ?_, ?_⟩
  · rw [unread_length]
    cases hf : c._full
    · simp only [_writeable, hf, Bool.not_false, true_iff] at hw
      simp; omega
    · simp [hc, hf]
  · rw [unread_length, hc]
    cases hf : c._full
    · simp only [Bool.false_eq_true, if_false]
      rw [int_sub_emod N _ _ hwf.1 hwf.2.1]
    · simp

theorem state_invariant_witness :
    1 ≤ 2 ∧
    ((1 : Nat) < 2 ∧ (1 : Nat) < 2 ∧ (true = true → (1 : Nat) = 1) ∧
      ∃ q : List Nat, Fifo.calls 2 [Op.write 7, Op.read, Op.writeTry 8, Op.write 9] [] =
          some ([Ret.void, Ret.value 7, Ret.bool true, Ret.void], q) ∧
        (true = true ↔ q.length = 2) ∧
        (q.length : Int) = if true then ((2 : Nat) : Int) else (((1 : Nat) : Int) - (1 : Nat)) % (2 : Nat)) :=
  ⟨by decide,
    state_invariant 2 (by decide) true
      [Op.write 7, Op.read, Op.writeTry 8, Op.write 9] (fun _ => (0 : Nat)) { ien := true }
      [Ret.void, Ret.value 7, Ret.bool true, Ret.void]
      { _buf := Function.update (Function.update (Function.update (fun _ => 0) 0 7) 1 8) 0 9,
        _rptr := 1, _wptr := 1, _full := true }
      { ien := true,
        calls := [HookCall.SetInterruptsEnabled false, HookCall.SetInterruptsEnabled true,
                  HookCall.SetInterruptsEnabled false, HookCall.SetInterruptsEnabled true,
                  HookCall.SetInterruptsEnabled false, HookCall.SetInterruptsEnabled true,
                  HookCall.SetInterruptsEnabled false, HookCall.SetInterruptsEnabled true] }
      rfl⟩

end Channel

namespace Body

variable {σ : Type}

/-! ### Single items -/

theorem exec_yield_enter (body : List (Instr σ)) (pc fuel : Nat) (t : Task) (w : World σ)
    (hb : body[pc]? = some .TaskYield) :
    exec body (fuel + 1) pc false t w =
      .ok ({ t with _state := Task.State.Wait, _jmp := some pc }, w.note (Event.suspend pc)) := by
  simp [exec, hb, TaskYield]

theorem exec_yield_label (body : List (Instr σ)) (pc fuel : Nat) (t : Task) (w : World σ)
    (hb : body[pc]? = some .TaskYield) :
    exec body (fuel + 1) pc true t w =
      exec body fuel (pc + 1) false { t with _state := Task.State.Run, _didWork := true }
        (w.note (Event.pass pc)) := by
  simp [exec, hb, TaskYield]

theorem exec_jump (body : List (Instr σ)) (pc target fuel : Nat) (atLabel : Bool) (t : Task)
    (w : World σ) (hb : body[pc]? = some (.jump target)) :
    exec body (fuel + 1) pc atLabel t w = exec body fuel target false t w := by
  simp [exec, hb]

theorem exec_wait_false (body : List (Instr σ)) (pc fuel : Nat)
    (cond : Cpu → σ → Bool × Cpu × σ) (atLabel : Bool) (t : Task) (w : World σ)
    (hb : body[pc]? = some (.TaskWait cond)) (hc : (cond w.cpu w.user).1 = false) :
    exec body (fuel + 1) pc atLabel t w =
      .ok ({ (if atLabel then t else { t with _state := Task.State.Wait }) with
              _jmp := some pc },
           { cpu := (cond w.cpu w.user).2.1, user := (cond w.cpu w.user).2.2,
             log := w.log ++ [Event.cond pc false, Event.suspend pc] }) := by
  simp [exec, hb, TaskWait, hc, World.note]

theorem exec_wait_true (body : List (Instr σ)) (pc fuel : Nat)
    (cond : Cpu → σ → Bool × Cpu × σ) (atLabel : Bool) (t : Task) (w : World σ)
    (hb : body[pc]? = some (.TaskWait cond)) (hc : (cond w.cpu w.user).1 = true) :
    exec body (fuel + 1) pc atLabel t w =
      exec body fuel (pc + 1) false
        { t with _state := Task.State.Run, _didWork := true }
        { cpu := (cond w.cpu w.user).2.1, user := (cond w.cpu w.user).2.2,
          log := w.log ++ [Event.cond pc true, Event.pass pc] } := by
  cases atLabel <;> simp [exec, hb, TaskWait, hc, World.note]

theorem exec_sleep_enter (body : List (Instr σ)) (pc fuel : Nat) (ms : Cpu → σ → Nat)
    (t : Task) (w : World σ) (hb : body[pc]? = some (.TaskSleepMs ms)) :
    exec body (fuel + 1) pc false t w =
      .ok ({ t with _state := Task.State.Wait, _sleepStartMs := TimeMs w.cpu,
                    _sleepDurationMs := ms w.cpu w.user % 2 ^ 32, _jmp := some pc },
           w.note (Event.suspend pc)) := by
  simp [exec, hb, TaskSleepMs]

theorem exec_sleep_label_false (body : List (Instr σ)) (pc fuel : Nat) (ms : Cpu → σ → Nat)
    (t : Task) (w : World σ) (hb : body[pc]? = some (.TaskSleepMs ms))
    (hc : t._sleepDone w.cpu = false) :
    exec body (fuel + 1) pc true t w =
      .ok ({ t with _jmp := some pc },
           { w with log := w.log ++ [Event.cond pc false, Event.suspend pc] }) := by
  simp [exec, hb, TaskSleepMs, hc, World.note]

theorem exec_sleep_label_true (body : List (Instr σ)) (pc fuel : Nat) (ms : Cpu → σ → Nat)
    (t : Task) (w : World σ) (hb : body[pc]? = some (.TaskSleepMs ms))
    (hc : t._sleepDone w.cpu = true) :
    exec body (fuel + 1) pc true t w =
      exec body fuel (pc + 1) false { t with _state := Task.State.Run, _didWork := true }
        { w with log := w.log ++ [Event.cond pc true, Event.pass pc] } := by
  simp [exec, hb, TaskSleepMs, hc, World.note]

/-- Nothing in a body clears the progress flag. -/
theorem exec_didWork (body : List (Instr σ)) (fuel : Nat) :
    ∀ (pc : Nat) (atLabel : Bool) (t : Task) (w : World σ) (t1 : Task) (w1 : World σ),
    exec body fuel pc atLabel t w = .ok (t1, w1) → t._didWork = true →
    t1._didWork = true := by
  induction fuel with
  | zero => intro pc atLabel t w t1 w1 h; simp [exec] at h
  | succ fuel ih =>
    intro pc atLabel t w t1 w1 h hd
    unfold exec at h
    cases hb : body[pc]? with
    | none =>
      simp only [hb] at h
      cases h
      exact hd
    | some i =>
      simp only [hb] at h
      cases i with
      | stmt f =>
        simp only at h
        cases hf : f w.cpu w.user with
        | none => simp [hf] at h
        | some r =>
          simp only [hf] at h
          exact ih _ _ _ _ _ _ h hd
      | TaskYield =>
        cases atLabel
        · simp only [TaskYield, Bool.false_eq_true, if_false] at h
          cases h
          exact hd
        · simp only [TaskYield, if_true] at h
          exact ih _ _ _ _ _ _ h rfl
      | TaskWait cond =>
        simp only [TaskWait] at h
        cases hc : (cond w.cpu w.user).1
        · simp only [hc, Bool.not_false, if_true] at h
          cases h
          cases atLabel <;> exact hd
        · simp only [hc, Bool.not_true, Bool.false_eq_true, if_false] at h
          exact ih _ _ _ _ _ _ h rfl
      | TaskSleepMs ms =>
        cases atLabel
        · simp only [TaskSleepMs, Bool.false_eq_true, if_false] at h
          cases h
          exact hd
        · simp only [TaskSleepMs, if_true] at h
          cases hc : t._sleepDone w.cpu
          · simp only [hc, Bool.not_false, if_true] at h
            cases h
            exact hd
          · simp only [hc, Bool.not_true, Bool.false_eq_true, if_false] at h
            exact ih _ _ _ _ _ _ h rfl
      | TaskEnd =>
        cases atLabel
        · simp only [TaskEnd, Bool.false_eq_true, if_false] at h
          cases h
          exact hd
        · simp only [TaskEnd, if_true] at h
          cases h
          exact hd
      | jump target =>
        simp only at h
        exact ih _ _ _ _ _ _ h hd
      | branch cond target =>
        simp only at h
        split at h
        · exact ih _ _ _ _ _ _ h hd
        · exact ih _ _ _ _ _ _ h hd

theorem yieldLoop_yield (k p : Nat) (hp : p < k) :
    (yieldLoop σ k)[p]? = some Instr.TaskYield := by
  simp [yieldLoop, List.getElem?_append_left, hp]

theorem yieldLoop_jump (k : Nat) : (yieldLoop σ k)[k]? = some (Instr.jump 0) := by
  simp [yieldLoop, List.getElem?_append_right]

end Body

namespace Task

variable {σ : Type}

/-! ### Claims about yield, wait-until and sleep points -/

theorem run_yieldLoop_first (k : Nat) (hk : 1 ≤ k) (fuel : Nat) (t : Task) (w : World σ)
    (hs : t._state = State.Run) (hj : t._jmp = none) :
    run (Body.fn (Body.yieldLoop σ k) (fuel + 1)) t w =
      .ok (false, { t with _state := State.Wait, _didWork := false, _jmp := some 0 },
        w.note (Event.suspend 0)) := by
  rw [run_of_not_done _ _ _ (by simp [hs])]
  simp [Body.fn, TaskBegin, hj, Body.exec_yield_enter _ 0 fuel _ w
    (Body.yieldLoop_yield k 0 (by omega)), Outcome.map]

theorem run_yieldLoop_next (k : Nat) (fuel p : Nat) (hp : p < k) (t : Task) (w : World σ)
    (hs : t._state = State.Wait) (hj : t._jmp = some p) :
    ∃ t1 w1 p1, run (Body.fn (Body.yieldLoop σ k) (fuel + 3)) t w = .ok (true, t1, w1) ∧
      t1._state = State.Wait ∧ t1._jmp = some p1 ∧ p1 < k := by
  rw [run_of_not_done _ _ _ (by simp [hs])]
  simp only [Body.fn, TaskBegin, hj]
  rw [Body.exec_yield_label _ p (fuel + 2) _ w (Body.yieldLoop_yield k p hp)]
  by_cases hq : p + 1 < k
  · rw [Body.exec_yield_enter _ (p + 1) (fuel + 1) _ _ (Body.yieldLoop_yield k (p + 1) hq)]
    exact ⟨_, _, p + 1, rfl, rfl, rfl, hq⟩
  · have hk : p + 1 = k := by omega
    rw [hk, Body.exec_jump _ k 0 (fuel + 1) false _ _ (Body.yieldLoop_jump k),
      Body.exec_yield_enter _ 0 fuel _ _ (Body.yieldLoop_yield k 0 (by omega))]
    exact ⟨_, _, 0, rfl, rfl, rfl, by omega⟩

theorem runs_yieldLoop_next (k : Nat) (fuel : Nat) (n : Nat) :
    ∀ (p : Nat) (t : Task) (w : World σ), p < k → t._state = State.Wait → t._jmp = some p →
    ∃ t1 w1, runs (Body.fn (Body.yieldLoop σ k) (fuel + 3)) n t w
        = .ok (List.replicate n true, t1, w1) ∧
      t1._state = State.Wait := by
  induction n with
  | zero => intro p t w _ hs _; exact ⟨t, w, rfl, hs⟩
  | succ n ih =>
    intro p t w hp hs hj
    obtain ⟨t1, w1, p1, e1, hs1, hj1, hp1⟩ := run_yieldLoop_next k fuel p hp t w hs hj
    obtain ⟨t2, w2, e2, hs2⟩ := ih p1 t1 w1 hp1 hs1 hj1
    exact ⟨t2, w2, by simp [runs, e1, e2, List.replicate_succ], hs2⟩

/-- C11 (counterexample): on a fresh task whose body is `for (;;) TaskYield();`, the very
first `run()` returns false: it only reaches the yield point and suspends. -/
theorem first_run_of_yield_loop_reports_no_progress :
    run (Body.fn (Body.yieldLoop Unit 1) 3) {} { cpu := { ien := true }, user := () } =
      .ok (false, { _state := State.Wait, _didWork := false, _jmp := some 0 },
        { cpu := { ien := true }, user := (), log := [Event.suspend 0] }) := by
  rfl

/-- C11 (amended): for a task whose body is `TaskBegin()` followed only by an endless loop
of `k ≥ 1` yield points, started fresh or just reset, the first `run()` returns false and
every later `run()` returns true, so from the second round on each round reports progress
exactly once; the state after every call is `Wait`, never `Done`. -/
theorem yield_only_progress (k : Nat) (hk : 1 ≤ k) (fuel : Nat) (t : Task) (w : World σ)
    (hs : t._state = State.Run) (hj : t._jmp = none) (n : Nat) :
    ∃ t1 w1, runs (Body.fn (Body.yieldLoop σ k) (fuel + 3)) (n + 1) t w
        = .ok (false :: List.replicate n true, t1, w1) ∧
      t1._state = State.Wait ∧ t1._state ≠ State.Done := by
  have e1 := run_yieldLoop_first k hk (fuel + 2) t w hs hj
  obtain ⟨t2, w2, e2, hs2⟩ := runs_yieldLoop_next k fuel n 0 _ (w.note (Event.suspend 0))
    (by omega)
    (show ({ t with _state := State.Wait, _didWork := false, _jmp := some 0 } : Task)._state
      = State.Wait from rfl) rfl
  exact ⟨t2, w2, by simp [runs, e1, e2], hs2, by simp [hs2]⟩

theorem yield_only_progress_witness :
    1 ≤ 2 ∧ ({} : Task)._state = State.Run ∧ ({} : Task)._jmp = none ∧
    ∃ t1 w1, runs (Body.fn (Body.yieldLoop Unit 2) (0 + 3)) (4 + 1) {}
        { cpu := { ien := true }, user := () }
        = .ok (false :: List.replicate 4 true, t1, w1) ∧
      t1._state = State.Wait ∧ t1._state ≠ State.Done :=
  ⟨by decide, rfl, rfl,
    yield_only_progress 2 (by decide) 0 {} { cpu := { ien := true }, user := () } rfl rfl 4⟩

theorem run_wait_false (body : List (Instr σ)) (pc : Nat) (cond : Cpu → σ → Bool × Cpu × σ)
    (hb : body[pc]? = some (.TaskWait cond)) (fuel : Nat) (t : Task) (w : World σ)
    (hs : t._state = State.Wait) (hj : t._jmp = some pc)
    (hc : (cond w.cpu w.user).1 = false) :
    run (Body.fn body (fuel + 1)) t w =
      .ok (false, { t with _didWork := false },
        { cpu := (cond w.cpu w.user).2.1, user := (cond w.cpu w.user).2.2,
          log := w.log ++ [Event.cond pc false, Event.suspend pc] }) := by
  rw [run_of_not_done _ _ _ (by simp [hs])]
  simp only [Body.fn, TaskBegin, hj]
  rw [Body.exec_wait_false body pc fuel cond true _ w hb hc]
  simp only [Outcome.map, if_true]

theorem run_wait_true (body : List (Instr σ)) (pc : Nat) (cond : Cpu → σ → Bool × Cpu × σ)
    (hb : body[pc]? = some (.TaskWait cond)) (fuel : Nat) (t : Task) (w : World σ)
    (hs : t._state = State.Wait) (hj : t._jmp = some pc)
    (hc : (cond w.cpu w.user).1 = true) :
    run (Body.fn body (fuel + 1)) t w =
      (Body.exec body fuel (pc + 1) false { t with _state := State.Run, _didWork := true }
        { cpu := (cond w.cpu w.user).2.1, user := (cond w.cpu w.user).2.2,
          log := w.log ++ [Event.cond pc true, Event.pass pc] }).map
        (fun r => (r.1._didWork, r.1, r.2)) := by
  rw [run_of_not_done _ _ _ (by simp [hs])]
  simp only [Body.fn, TaskBegin, hj]
  rw [Body.exec_wait_true body pc fuel cond true _ w hb hc]

theorem map_didWork_true (o : Outcome (Task × World σ)) (b : Bool) (t1 : Task)
    (w1 : World σ) (h : o.map (fun r => (r.1._didWork, r.1, r.2)) = .ok (b, t1, w1)) :
    o = .ok (t1, w1) ∧ b = t1._didWork := by
  cases o with
  | abort => simp [Outcome.map] at h
  | outOfFuel => simp [Outcome.map] at h
  | ok a =>
    obtain ⟨t2, w2⟩ := a
    simp only [Outcome.map, Outcome.ok.injEq, Prod.mk.injEq] at h
    obtain ⟨h1, h2, h3⟩ := h
    subst h2; subst h3
    exact ⟨rfl, h1.symm⟩

theorem runs_wait_never (body : List (Instr σ)) (pc : Nat) (cond : Cpu → σ → Bool × Cpu × σ)
    (hb : body[pc]? = some (.TaskWait cond)) (hnever : ∀ cpu u, (cond cpu u).1 = false)
    (fuel n : Nat) :
    ∀ (t : Task) (w : World σ), t._state = State.Wait → t._jmp = some pc →
    ∃ w1, runs (Body.fn body (fuel + 1)) (n + 1) t w
      = .ok (List.replicate (n + 1) false, { t with _didWork := false }, w1) := by
  induction n with
  | zero =>
    intro t w hs hj
    have e1 := run_wait_false body pc cond hb fuel t w hs hj (hnever _ _)
    exact ⟨{ cpu := (cond w.cpu w.user).2.1, user := (cond w.cpu w.user).2.2,
             log := w.log ++ [Event.cond pc false, Event.suspend pc] },
      by rw [runs, e1]; rfl⟩
  | succ n ih =>
    intro t w hs hj
    have e1 := run_wait_false body pc cond hb fuel t w hs hj (hnever _ _)
    obtain ⟨w2, e2⟩ := ih { t with _didWork := false }
      { cpu := (cond w.cpu w.user).2.1, user := (cond w.cpu w.user).2.2,
        log := w.log ++ [Event.cond pc false, Event.suspend pc] } hs hj
    exact ⟨w2, by rw [runs, e1]; simp only [e2]; rfl⟩

/-- C12: for a task suspended at `TaskWait(cond)` (state `Wait`, resumption marker inside
that wait point), each `run()` evaluates `cond` exactly once.  If it is false, the call
returns false with state `Wait` and the same marker, having done nothing but that one
evaluation; so a condition that is never true keeps every `run()` returning false, each
call returning to its caller.  If it is true, the body sets state `Run` and the progress
flag and continues with the item after the wait point, and the call returns true if it
returns. -/
theorem wait_point (body : List (Instr σ)) (pc : Nat) (cond : Cpu → σ → Bool × Cpu × σ)
    (hb : body[pc]? = some (.TaskWait cond)) (fuel : Nat) (t : Task) (w : World σ)
    (hs : t._state = State.Wait) (hj : t._jmp = some pc) :
    ((cond w.cpu w.user).1 = false →
      run (Body.fn body (fuel + 1)) t w =
        .ok (false, { t with _didWork := false },
          { cpu := (cond w.cpu w.user).2.1, user := (cond w.cpu w.user).2.2,
            log := w.log ++ [Event.cond pc false, Event.suspend pc] }) ∧
      ({ t with _didWork := false } : Task)._state = State.Wait ∧
      ({ t with _didWork := false } : Task)._jmp = some pc) ∧
    ((cond w.cpu w.user).1 = true →
      run (Body.fn body (fuel + 1)) t w =
        (Body.exec body fuel (pc + 1) false { t with _state := State.Run, _didWork := true }
          { cpu := (cond w.cpu w.user).2.1, user := (cond w.cpu w.user).2.2,
            log := w.log ++ [Event.cond pc true, Event.pass pc] }).map
          (fun r => (r.1._didWork, r.1, r.2)) ∧
      ∀ b t1 w1, run (Body.fn body (fuel + 1)) t w = .ok (b, t1, w1) → b = true) ∧
    ((∀ cpu u, (cond cpu u).1 = false) →
      ∀ n, ∃ w1, runs (Body.fn body (fuel + 1)) (n + 1) t w
        = .ok (List.replicate (n + 1) false, { t with _didWork := false }, w1)) := by
  refine ⟨fun hc => ⟨run_wait_false body pc cond hb fuel t w hs hj hc, hs, hj⟩, ?_, ?_⟩
  · intro hc
    have e := run_wait_true body pc cond hb fuel t w hs hj hc
    refine ⟨e, ?_⟩
    intro b t1 w1 h
    rw [e] at h
    obtain ⟨h1, h2⟩ := map_didWork_true _ b t1 w1 h
    rw [h2]
    exact Body.exec_didWork body fuel _ _ _ _ _ _ h1 rfl
  · intro hnever n
    exact runs_wait_never body pc cond hb hnever fuel n t w hs hj

theorem wait_point_witness :
    ([Instr.TaskWait (fun cpu u => (false, cpu, u)), Instr.TaskEnd] : List (Instr Unit))[0]?
      = some (Instr.TaskWait (fun cpu u => (false, cpu, u))) ∧
    ({ _state := State.Wait, _jmp := some 0 } : Task)._state = State.Wait ∧
    ({ _state := State.Wait, _jmp := some 0 } : Task)._jmp = some 0 ∧
    ∀ n, ∃ w1,
      runs (Body.fn ([Instr.TaskWait (fun cpu u => (false, cpu, u)), Instr.TaskEnd] :
          List (Instr Unit)) (0 + 1)) (n + 1)
        { _state := State.Wait, _jmp := some 0 } { cpu := { ien := false }, user := () }
        = .ok (List.replicate (n + 1) false,
            { ({ _state := State.Wait, _jmp := some 0 } : Task) with _didWork := false }, w1) :=
  ⟨rfl, rfl, rfl,
    (wait_point ([Instr.TaskWait (fun cpu u => (false, cpu, u)), Instr.TaskEnd] :
        List (Instr Unit)) 0 (fun cpu u => (false, cpu, u)) rfl 0
      { _state := State.Wait, _jmp := some 0 } { cpu := { ien := false }, user := () }
      rfl rfl).2.2 (fun _ _ => rfl)⟩

end Task

namespace Task

variable {σ : Type}

/-- C13 (counterexample): with the body `TaskYield(); TaskSleepMs(0);` and the task
suspended at the yield point, the call that reaches the sleep point suspends there in state
`Wait` but returns true, because it went through the completion side of the yield point
first. -/
theorem call_reaching_sleep_may_report_progress :
    run (Body.fn ([Instr.TaskYield, Instr.TaskSleepMs (fun _ _ => 0)] : List (Instr Unit)) 3)
        { _state := State.Wait, _jmp := some 0 } { cpu := { ien := true }, user := () } =
      .ok (true, { _state := State.Wait, _didWork := true, _jmp := some 1 },
        { cpu := { ien := true }, user := (),
          log := [Event.pass 0, Event.suspend 1] }) := by
  rfl

/-- C13 (amended): a body that reaches `TaskSleepMs(ms)` always suspends there, also for
`ms = 0`: it sets state `Wait`, records the start time `TimeMs()` and the duration, and
returns, leaving the progress flag as it was (so the call reports progress only if it went
through an earlier point).  On each later `run()` of the task suspended there, the body
continues past the sleep point if and only if `(TimeMs() - start) mod 2^32 ≥ duration` at
that call: if so it sets state `Run` and the progress flag and goes on with the next item,
and the call returns true if it returns; if not, the call returns false with state `Wait`
and the same marker. -/
theorem sleep_point (body : List (Instr σ)) (pc : Nat) (ms : Cpu → σ → Nat)
    (hb : body[pc]? = some (.TaskSleepMs ms)) (fuel : Nat) (t : Task) (w : World σ)
    (t2 : Task) (w2 : World σ) (hs : t2._state = State.Wait) (hj : t2._jmp = some pc) :
    Body.exec body (fuel + 1) pc false t w =
      .ok ({ t with _state := State.Wait, _sleepStartMs := TimeMs w.cpu,
                    _sleepDurationMs := ms w.cpu w.user % 2 ^ 32, _jmp := some pc },
           w.note (Event.suspend pc)) ∧
    ((TimeMs w2.cpu + 2 ^ 32 - t2._sleepStartMs) % 2 ^ 32 ≥ t2._sleepDurationMs →
      run (Body.fn body (fuel + 1)) t2 w2 =
        (Body.exec body fuel (pc + 1) false
          { t2 with _state := State.Run, _didWork := true }
          { w2 with log := w2.log ++ [Event.cond pc true, Event.pass pc] }).map
          (fun r => (r.1._didWork, r.1, r.2)) ∧
      ∀ b t1 w1, run (Body.fn body (fuel + 1)) t2 w2 = .ok (b, t1, w1) → b = true) ∧
    (¬ (TimeMs w2.cpu + 2 ^ 32 - t2._sleepStartMs) % 2 ^ 32 ≥ t2._sleepDurationMs →
      run (Body.fn body (fuel + 1)) t2 w2 =
        .ok (false, { t2 with _didWork := false },
          { w2 with log := w2.log ++ [Event.cond pc false, Event.suspend pc] }) ∧
      ({ t2 with _didWork := false } : Task)._state = State.Wait ∧
      ({ t2 with _didWork := false } : Task)._jmp = some pc) := by
  refine ⟨Body.exec_sleep_enter body pc fuel ms t w hb, ?_, ?_⟩
  · intro hc
    have hd : ∀ t3 : Task, t3._sleepStartMs = t2._sleepStartMs →
        t3._sleepDurationMs = t2._sleepDurationMs → t3._sleepDone w2.cpu = true := by
      intro t3 h1 h2
      simpa [_sleepDone, h1, h2] using hc
    have e : run (Body.fn body (fuel + 1)) t2 w2 =
        (Body.exec body fuel (pc + 1) false
          { t2 with _state := State.Run, _didWork := true }
          { w2 with log := w2.log ++ [Event.cond pc true, Event.pass pc] }).map
          (fun r => (r.1._didWork, r.1, r.2)) := by
      rw [run_of_not_done _ _ _ (by simp [hs])]
      simp only [Body.fn, TaskBegin, hj]
      rw [Body.exec_sleep_label_true body pc fuel ms
        { _state := t2._state, _didWork := false, _jmp := some pc,
            _sleepStartMs := t2._sleepStartMs, _sleepDurationMs := t2._sleepDurationMs }
        w2 hb (hd _ rfl rfl)]
    refine ⟨e, ?_⟩
    intro b t1 w1 h
    rw [e] at h
    obtain ⟨h1, h2⟩ := map_didWork_true _ b t1 w1 h
    rw [h2]
    exact Body.exec_didWork body fuel _ _ _ _ _ _ h1 rfl
  · intro hc
    have hd : ∀ t3 : Task, t3._sleepStartMs = t2._sleepStartMs →
        t3._sleepDurationMs = t2._sleepDurationMs → t3._sleepDone w2.cpu = false := by
      intro t3 h1 h2
      simpa [_sleepDone, h1, h2] using hc
    refine ⟨?_, hs, hj⟩
    rw [run_of_not_done _ _ _ (by simp [hs])]
    simp only [Body.fn, TaskBegin, hj]
    rw [Body.exec_sleep_label_false body pc fuel ms
      { _state := t2._state, _didWork := false, _jmp := some pc,
            _sleepStartMs := t2._sleepStartMs, _sleepDurationMs := t2._sleepDurationMs }
      w2 hb (hd _ rfl rfl)]
    simp only [Outcome.map]

theorem sleep_point_witness :
    ([Instr.TaskSleepMs (fun _ _ => 20), Instr.TaskEnd] : List (Instr Unit))[0]?
      = some (Instr.TaskSleepMs (fun _ _ => 20)) ∧
    ({ _state := State.Wait, _jmp := some 0, _sleepStartMs := 4294967290,
       _sleepDurationMs := 20 } : Task)._state = State.Wait ∧
    ({ _state := State.Wait, _jmp := some 0, _sleepStartMs := 4294967290,
       _sleepDurationMs := 20 } : Task)._jmp = some 0 ∧
    ¬ (TimeMs { ien := false, timeMs := 4 } + 2 ^ 32 - 4294967290) % 2 ^ 32 ≥ 20 ∧
    run (Body.fn ([Instr.TaskSleepMs (fun _ _ => 20), Instr.TaskEnd] : List (Instr Unit))
          (0 + 1))
        { _state := State.Wait, _jmp := some 0, _sleepStartMs := 4294967290,
          _sleepDurationMs := 20 }
        { cpu := { ien := false, timeMs := 4 }, user := () } =
      .ok (false,
        { _state := State.Wait, _didWork := false, _jmp := some 0,
          _sleepStartMs := 4294967290, _sleepDurationMs := 20 },
        { cpu := { ien := false, timeMs := 4 }, user := (),
          log := [Event.cond 0 false, Event.suspend 0] }) :=
  ⟨rfl, rfl, rfl, by decide,
    ((sleep_point ([Instr.TaskSleepMs (fun _ _ => 20), Instr.TaskEnd] : List (Instr Unit)) 0
      (fun _ _ => 20) rfl 0 {} { cpu := { ien := false }, user := () }
      { _state := State.Wait, _jmp := some 0, _sleepStartMs := 4294967290,
        _sleepDurationMs := 20 }
      { cpu := { ien := false, timeMs := 4 }, user := () } rfl rfl).2.2 (by decide)).1⟩

end Task

namespace Task

variable {σ : Type}

/-! ### The scheduler round -/

theorem runEach_of_ranInOrder (tasks : List (TaskFn σ × Task)) (w : World σ) (bs : List Bool)
    (tasks1 : List (TaskFn σ × Task)) (w1 : World σ) (h : RanInOrder tasks w bs tasks1 w1) :
    ∀ d, runEach tasks d w = .ok (d || bs.any id, tasks1, w1) := by
  induction h with
  | nil w => intro d; simp [runEach]
  | cons fn t rest w b t1 w1 bs rest1 w2 hr _ ih =>
    intro d
    simp [runEach, hr, ih (d || b), Bool.or_assoc]

theorem ranInOrder_of_runEach (tasks : List (TaskFn σ × Task)) :
    ∀ (d : Bool) (w : World σ) (d1 : Bool) (tasks1 : List (TaskFn σ × Task)) (w1 : World σ),
    runEach tasks d w = .ok (d1, tasks1, w1) →
    ∃ bs, RanInOrder tasks w bs tasks1 w1 ∧ d1 = (d || bs.any id) := by
  induction tasks with
  | nil =>
    intro d w d1 tasks1 w1 h
    simp only [runEach, Outcome.ok.injEq, Prod.mk.injEq] at h
    obtain ⟨h1, h2, h3⟩ := h
    subst h1; subst h2; subst h3
    exact ⟨[], RanInOrder.nil w, by simp⟩
  | cons p rest ih =>
    intro d w d1 tasks1 w1 h
    obtain ⟨fn, t⟩ := p
    simp only [runEach] at h
    cases hr : run fn t w with
    | abort => simp [hr] at h
    | outOfFuel => simp [hr] at h
    | ok r =>
      obtain ⟨b, t2, w2⟩ := r
      simp only [hr] at h
      cases he : runEach rest (d || b) w2 with
      | abort => simp [he] at h
      | outOfFuel => simp [he] at h
      | ok r2 =>
        obtain ⟨d2, rest1, w3⟩ := r2
        simp only [he, Outcome.ok.injEq, Prod.mk.injEq] at h
        obtain ⟨h1, h2, h3⟩ := h
        subst h1; subst h2; subst h3
        obtain ⟨bs, hb, hd⟩ := ih (d || b) w2 d2 rest1 w3 he
        exact ⟨b :: bs, RanInOrder.cons fn t rest w b t2 w2 bs rest1 w3 hr hb,
          by simp [hd, Bool.or_assoc]⟩

theorem ranInOrder_length (tasks : List (TaskFn σ × Task)) (w : World σ) (bs : List Bool)
    (tasks1 : List (TaskFn σ × Task)) (w1 : World σ) (h : RanInOrder tasks w bs tasks1 w1) :
    bs.length = tasks.length ∧ tasks1.length = tasks.length ∧
      tasks1.map Prod.fst = tasks.map Prod.fst := by
  induction h with
  | nil w => simp
  | cons fn t rest w b t1 w1 bs rest1 w2 _ _ ih => simp [ih.1, ih.2.1, ih.2.2]

theorem ranInOrder_of_blocked (tasks : List (TaskFn σ × Task)) :
    (∀ p ∈ tasks, Blocked p) → ∀ (w : World σ),
    ∃ tasks1 w1, RanInOrder tasks w (List.replicate tasks.length false) tasks1 w1 ∧
      ∀ p ∈ tasks1, Blocked p := by
  induction tasks with
  | nil => intro _ w; exact ⟨[], w, RanInOrder.nil w, by simp⟩
  | cons p rest ih =>
    intro hb w
    obtain ⟨fn, t⟩ := p
    obtain ⟨body, pc, cond, fuel, h1, h2, h3, h4, h5⟩ := hb (fn, t) (by simp)
    simp only at h1 h4 h5
    subst h1
    have e := run_wait_false body pc cond h2 fuel t w h4 h5 (h3 _ _)
    obtain ⟨rest1, w2, hr, hbl⟩ := ih (fun p hp => hb p (List.mem_cons_of_mem _ hp))
      { cpu := (cond w.cpu w.user).2.1, user := (cond w.cpu w.user).2.2,
        log := w.log ++ [Event.cond pc false, Event.suspend pc] }
    refine ⟨(Body.fn body (fuel + 1), { t with _didWork := false }) :: rest1, w2,
      RanInOrder.cons _ t rest w false _ _ _ rest1 w2 e hr, ?_⟩
    intro p hp
    rcases List.mem_cons.mp hp with hp | hp
    · subst hp
      exact ⟨body, pc, cond, fuel, rfl, h2, h3, h4, h5⟩
    · exact hbl p hp

theorem Disabled_armed (elide : Bool) (cpu : Cpu) :
    ∃ irq cpu0, IRQState.Disabled elide cpu = .ok (irq, cpu0) ∧ irq._prevEnValid = true ∧
      irq._prevEn = cpu.ien := by
  cases elide <;> simp [IRQState.Disabled, IRQState.disable, IRQState.move,
    SetInterruptsEnabled]

theorem RunRound_of_ranInOrder (elide : Bool) (tasks : List (TaskFn σ × Task)) (w : World σ)
    (irq : IRQState) (cpu0 : Cpu) (hd : IRQState.Disabled elide w.cpu = .ok (irq, cpu0))
    (bs : List Bool) (tasks1 : List (TaskFn σ × Task)) (w1 : World σ)
    (h : RanInOrder tasks { w with cpu := cpu0 } bs tasks1 w1) :
    RunRound elide tasks w =
      .ok (tasks1,
        { w1 with
          cpu := irq.destroy (if bs.any id then w1.cpu else WaitForInterrupt w1.cpu) }) := by
  have e := runEach_of_ranInOrder _ _ _ _ _ h false
  simp only [RunRound, hd, e, Bool.false_or]
  cases bs.any id <;> rfl

end Task

namespace Task

variable {σ : Type}

theorem RunRound_blocked (elide : Bool) (tasks : List (TaskFn σ × Task)) (w : World σ)
    (irq : IRQState) (cpu0 : Cpu) (hd : IRQState.Disabled elide w.cpu = .ok (irq, cpu0))
    (hb : ∀ p ∈ tasks, Blocked p) :
    ∃ tasks1, ∃ w1 : World σ, RunRound elide tasks w =
        .ok (tasks1, { w1 with cpu := irq.destroy (WaitForInterrupt w1.cpu) }) ∧
      ∀ p ∈ tasks1, Blocked p := by
  obtain ⟨tasks1, w1, hr, hbl⟩ := ranInOrder_of_blocked tasks hb { w with cpu := cpu0 }
  refine ⟨tasks1, w1, ?_, hbl⟩
  rw [RunRound_of_ranInOrder elide tasks w irq cpu0 hd _ tasks1 w1 hr]
  simp

theorem Run_blocked (elide : Bool) (n : Nat) :
    ∀ (tasks : List (TaskFn σ × Task)) (w : World σ), (∀ p ∈ tasks, Blocked p) →
    ∃ tasks1 w1, Run elide n tasks w = .ok (tasks1, w1) ∧ ∀ p ∈ tasks1, Blocked p := by
  induction n with
  | zero => intro tasks w hb; exact ⟨tasks, w, rfl, hb⟩
  | succ n ih =>
    intro tasks w hb
    obtain ⟨irq, cpu0, hd, _, _⟩ := Disabled_armed elide w.cpu
    obtain ⟨tasks1, w1, e, hbl⟩ := RunRound_blocked elide tasks w irq cpu0 hd hb
    obtain ⟨tasks2, w2, e2, hbl2⟩ :=
      ih tasks1 { w1 with cpu := irq.destroy (WaitForInterrupt w1.cpu) } hbl
    exact ⟨tasks2, w2, by simp only [Run, e, e2], hbl2⟩

/-- C14: one scheduler round takes the guard and then, provided the `run()` calls return,
is exactly this: `run()` is called on every registered task once, in the order the tasks
were passed, each call on the world the previous one left and whatever the earlier calls
returned; then `WaitForInterrupt` is called exactly once if every `run()` returned false
and not at all if at least one returned true; then the guard is released.  Conversely a
round that completes has run the tasks in that way.  When every task is blocked on a
condition that is never true, the round calls the hook and leaves every task blocked, so
every round does. -/
theorem round_contract (elide : Bool) (tasks : List (TaskFn σ × Task)) (w : World σ) :
    ∃ irq cpu0, IRQState.Disabled elide w.cpu = .ok (irq, cpu0) ∧
      (∀ bs tasks1 w1, RanInOrder tasks { w with cpu := cpu0 } bs tasks1 w1 →
        bs.length = tasks.length ∧
        RunRound elide tasks w =
          .ok (tasks1,
            { w1 with
              cpu := irq.destroy (if bs.any id then w1.cpu else WaitForInterrupt w1.cpu) }) ∧
        (irq.destroy (if bs.any id then w1.cpu else WaitForInterrupt w1.cpu)).calls =
          w1.cpu.calls ++ (if bs.any id then [] else [HookCall.WaitForInterrupt]) ++
            [HookCall.SetInterruptsEnabled w.cpu.ien]) ∧
      (∀ tasks1 w2, RunRound elide tasks w = .ok (tasks1, w2) →
        ∃ bs w1, RanInOrder tasks { w with cpu := cpu0 } bs tasks1 w1) ∧
      ((∀ p ∈ tasks, Blocked p) →
        ∃ tasks1, ∃ w1 : World σ, RunRound elide tasks w =
            .ok (tasks1, { w1 with cpu := irq.destroy (WaitForInterrupt w1.cpu) }) ∧
          ∀ p ∈ tasks1, Blocked p) ∧
      ((∀ p ∈ tasks, Blocked p) →
        ∀ n, ∃ tasks1 w1, Run elide n tasks w = .ok (tasks1, w1) ∧
          ∀ p ∈ tasks1, Blocked p) := by
  obtain ⟨irq, cpu0, hd, hv, hp⟩ := Disabled_armed elide w.cpu
  refine ⟨irq, cpu0, hd, ?_, ?_, RunRound_blocked elide tasks w irq cpu0 hd,
    fun hb n => Run_blocked elide n tasks w hb⟩
  · intro bs tasks1 w1 h
    refine ⟨(ranInOrder_length _ _ _ _ _ h).1,
      RunRound_of_ranInOrder elide tasks w irq cpu0 hd bs tasks1 w1 h, ?_⟩
    cases bs.any id <;>
      simp [IRQState.destroy, IRQState.restore, hv, hp, SetInterruptsEnabled,
        WaitForInterrupt]
  · intro tasks1 w2 h
    simp only [RunRound, hd] at h
    cases he : runEach tasks false { w with cpu := cpu0 } with
    | abort => simp [he] at h
    | outOfFuel => simp [he] at h
    | ok r =>
      obtain ⟨d, tasks2, w1⟩ := r
      simp only [he, Outcome.ok.injEq, Prod.mk.injEq] at h
      obtain ⟨bs, hb, _⟩ := ranInOrder_of_runEach tasks false _ d tasks2 w1 he
      exact ⟨bs, w1, by rw [← h.1]; exact hb⟩

theorem round_contract_witness :
    ∃ irq cpu0, IRQState.Disabled true { ien := true } = .ok (irq, cpu0) ∧
      ∃ tasks1, ∃ w1 : World Unit,
        RunRound true
          [(Body.fn ([Instr.TaskWait (fun cpu u => (false, cpu, u))] : List (Instr Unit))
              (0 + 1), { _state := State.Wait, _jmp := some 0 })]
          { cpu := { ien := true }, user := () } =
            .ok (tasks1, { w1 with cpu := irq.destroy (WaitForInterrupt w1.cpu) }) ∧
          ∀ p ∈ tasks1, Blocked p :=
  let ⟨irq, cpu0, hd, _, _, hb, _⟩ := round_contract true
    [(Body.fn ([Instr.TaskWait (fun cpu u => (false, cpu, u))] : List (Instr Unit)) (0 + 1),
      { _state := State.Wait, _jmp := some 0 })]
    { cpu := { ien := true }, user := () }
  ⟨irq, cpu0, hd, hb (fun p hp => by
    rw [List.mem_singleton] at hp
    subst hp
    exact ⟨_, 0, fun cpu u => (false, cpu, u), 0, rfl, rfl, fun _ _ => rfl, rfl, rfl⟩)⟩

end Task

namespace Task

variable {σ : Type}

theorem RunRound_fns (elide : Bool) (tasks tasks1 : List (TaskFn σ × Task)) (w w1 : World σ)
    (h : RunRound elide tasks w = .ok (tasks1, w1)) :
    tasks1.map Prod.fst = tasks.map Prod.fst := by
  obtain ⟨irq, cpu0, hd, _, _⟩ := Disabled_armed elide w.cpu
  simp only [RunRound, hd] at h
  cases he : runEach tasks false { w with cpu := cpu0 } with
  | abort => simp [he] at h
  | outOfFuel => simp [he] at h
  | ok r =>
    obtain ⟨d, tasks2, w2⟩ := r
    simp only [he, Outcome.ok.injEq, Prod.mk.injEq] at h
    obtain ⟨bs, hb, _⟩ := ranInOrder_of_runEach tasks false _ d tasks2 w2 he
    rw [← h.1]
    exact (ranInOrder_length _ _ _ _ _ hb).2.2

theorem Run_add (elide : Bool) (n k : Nat) :
    ∀ (tasks tasks1 : List (TaskFn σ × Task)) (w w1 : World σ),
    Run elide n tasks w = .ok (tasks1, w1) →
    Run elide (n + k) tasks w = Run elide k tasks1 w1 := by
  induction n with
  | zero =>
    intro tasks tasks1 w w1 h
    simp only [Run, Outcome.ok.injEq, Prod.mk.injEq] at h
    rw [h.1, h.2, Nat.zero_add]
  | succ n ih =>
    intro tasks tasks1 w w1 h
    rw [Nat.add_right_comm]
    simp only [Run] at h ⊢
    cases hr : RunRound elide tasks w with
    | abort => simp [hr] at h
    | outOfFuel => simp [hr] at h
    | ok r =>
      obtain ⟨tasks2, w2⟩ := r
      simp only [hr] at h ⊢
      exact ih tasks2 tasks1 w2 w1 h

end Task

namespace Scenario

/-! ### The producer/consumer scenario -/

theorem readable_of_not_readable (elide : Bool) (cpu : Cpu) (v : Vars)
    (h : v.ch._readable = false) :
    (readable elide cpu v).1 = false ∧ (readable elide cpu v).2.2 = v := by
  obtain ⟨cpu1, e⟩ := Channel.readable_eq elide v.ch cpu
  simp [readable, e, h]

/-- Once the scenario has come to rest (A is `Done`, B is suspended at its wait point, the
channel is not readable), a round changes neither the channel nor the output list and
leaves the tasks as they are. -/
theorem round_at_rest (elide : Bool) (first : Bool) (tA tB : Task) (w : World Vars)
    (hA : tA._state = Task.State.Done) (hB : tB._state = Task.State.Wait)
    (hj : tB._jmp = some 0) (hr : w.user.ch._readable = false) :
    ∃ (w1 : World Vars),
      Task.RunRound elide
          (if first then [(Body.fn (bodyA elide) 64, tA), (Body.fn (bodyB elide) 64, tB)]
           else [(Body.fn (bodyB elide) 64, tB), (Body.fn (bodyA elide) 64, tA)]) w
        = .ok ((if first then
                  [(Body.fn (bodyA elide) 64, { tA with _didWork := false }),
                   (Body.fn (bodyB elide) 64, { tB with _didWork := false })]
                else
                  [(Body.fn (bodyB elide) 64, { tB with _didWork := false }),
                   (Body.fn (bodyA elide) 64, { tA with _didWork := false })]), w1) ∧
      w1.user = w.user := by
  obtain ⟨irq, cpu0, hd, _, _⟩ := Task.Disabled_armed elide w.cpu
  have eA : ∀ w2 : World Vars, Task.run (Body.fn (bodyA elide) 64) tA w2
      = .ok (false, { tA with _didWork := false }, w2) :=
    fun w2 => Task.run_of_done _ tA w2 hA
  have eB : ∀ w2 : World Vars, w2.user = w.user →
      Task.run (Body.fn (bodyB elide) 64) tB w2
        = .ok (false, { tB with _didWork := false },
            { cpu := (readable elide w2.cpu w2.user).2.1,
              user := (readable elide w2.cpu w2.user).2.2,
              log := w2.log ++ [Event.cond 0 false, Event.suspend 0] }) := by
    intro w2 hu
    exact Task.run_wait_false (bodyB elide) 0 (readable elide) rfl 63 tB w2 hB hj
      (readable_of_not_readable elide _ _ (by rw [hu]; exact hr)).1
  cases first
  · have h1 := eB { w with cpu := cpu0 } rfl
    have h2 := eA { cpu := (readable elide cpu0 w.user).2.1,
                    user := (readable elide cpu0 w.user).2.2,
                    log := w.log ++ [Event.cond 0 false, Event.suspend 0] }
    refine ⟨_, Task.RunRound_of_ranInOrder elide _ w irq cpu0 hd [false, false] _ _
      (Task.RanInOrder.cons _ _ _ _ _ _ _ _ _ _ h1
        (Task.RanInOrder.cons _ _ _ _ _ _ _ _ _ _ h2 (Task.RanInOrder.nil _))), ?_⟩
    exact (readable_of_not_readable elide cpu0 w.user hr).2
  · have h1 := eA { w with cpu := cpu0 }
    have h2 := eB { w with cpu := cpu0 } rfl
    refine ⟨_, Task.RunRound_of_ranInOrder elide _ w irq cpu0 hd [false, false] _ _
      (Task.RanInOrder.cons _ _ _ _ _ _ _ _ _ _ h1
        (Task.RanInOrder.cons _ _ _ _ _ _ _ _ _ _ h2 (Task.RanInOrder.nil _))), ?_⟩
    exact (readable_of_not_readable elide cpu0 w.user hr).2

end Scenario

namespace Task

variable {σ : Type}

theorem Run_fns (elide : Bool) (n : Nat) :
    ∀ (tasks tasks1 : List (TaskFn σ × Task)) (w w1 : World σ),
    Run elide n tasks w = .ok (tasks1, w1) → tasks1.map Prod.fst = tasks.map Prod.fst := by
  induction n with
  | zero =>
    intro tasks tasks1 w w1 h
    simp only [Run, Outcome.ok.injEq, Prod.mk.injEq] at h
    rw [h.1]
  | succ n ih =>
    intro tasks tasks1 w w1 h
    simp only [Run] at h
    cases hr : RunRound elide tasks w with
    | abort => simp [hr] at h
    | outOfFuel => simp [hr] at h
    | ok r =>
      obtain ⟨tasks2, w2⟩ := r
      simp only [hr] at h
      rw [ih tasks2 tasks1 w2 w1 h, RunRound_fns elide tasks tasks2 w w2 hr]

end Task

namespace Scenario

theorem rounds_at_rest (elide : Bool) (first : Bool) (k : Nat) :
    ∀ (tA tB : Task) (w : World Vars),
    tA._state = Task.State.Done → tB._state = Task.State.Wait → tB._jmp = some 0 →
    w.user.ch._readable = false →
    ∃ tasks1 w1,
      Task.Run elide k
          (if first then [(Body.fn (bodyA elide) 64, tA), (Body.fn (bodyB elide) 64, tB)]
           else [(Body.fn (bodyB elide) 64, tB), (Body.fn (bodyA elide) 64, tA)]) w
        = .ok (tasks1, w1) ∧ w1.user = w.user := by
  induction k with
  | zero => intro tA tB w _ _ _ _; exact ⟨_, w, rfl, rfl⟩
  | succ k ih =>
    intro tA tB w hA hB hj hr
    obtain ⟨w1, e1, hu⟩ := round_at_rest elide first tA tB w hA hB hj hr
    obtain ⟨tasks2, w2, e2, hu2⟩ := ih { tA with _didWork := false }
      { tB with _didWork := false } w1 hA hB hj (by rw [hu]; exact hr)
    exact ⟨tasks2, w2, by simp only [Task.Run, e1, e2], by rw [hu2, hu]⟩

/-- From a round boundary at which A is `Done`, B is suspended at its wait point and the
channel is empty, every later round boundary is observed with the same output list and an
empty channel. -/
theorem observe_after_rest (elide : Bool) (first : Bool) (n j : Nat) (w0 : World Vars)
    (sts : List (Task.State × Option Nat)) (out : List Int)
    (hsts : sts = if first then [(Task.State.Done, some 10), (Task.State.Wait, some 0)]
      else [(Task.State.Wait, some 0), (Task.State.Done, some 10)])
    (h : observe (Task.Run elide n
        (if first then [taskA elide, taskB elide] else [taskB elide, taskA elide]) w0)
      = some (sts, out, 0, false)) :
    ∃ o, observe (Task.Run elide (n + j)
        (if first then [taskA elide, taskB elide] else [taskB elide, taskA elide]) w0)
      = some o ∧ o.2.2.1 ≤ 3 := by
  cases hr : Task.Run elide n
      (if first then [taskA elide, taskB elide] else [taskB elide, taskA elide]) w0 with
  | abort => simp [hr, observe] at h
  | outOfFuel => simp [hr, observe] at h
  | ok r =>
    obtain ⟨tasks, w⟩ := r
    have hf := Task.Run_fns elide n _ tasks w0 w hr
    rw [Task.Run_add elide n j _ tasks w0 w hr]
    simp only [hr, observe, Option.some.injEq, Prod.mk.injEq] at h
    obtain ⟨h1, h2, h3, h4⟩ := h
    subst hsts
    cases first
    · simp only [Bool.false_eq_true, if_false, taskA, taskB] at hf h1
      match tasks, hf, h1 with
      | [(f1, tB), (f2, tA)], hf, h1 =>
        simp only [List.map_cons, List.map_nil, List.cons.injEq, Prod.mk.injEq, and_true]
          at hf h1
        obtain ⟨rfl, rfl⟩ := hf
        obtain ⟨tasks1, w1, e, hu⟩ := rounds_at_rest elide false j tA tB w h1.2.1 h1.1.1
          h1.1.2 h4
        simp only [Bool.false_eq_true, if_false] at e
        exact ⟨_, by rw [e]; rfl, by simp [hu, h3]⟩
    · simp only [if_true, taskA, taskB] at hf h1
      match tasks, hf, h1 with
      | [(f1, tA), (f2, tB)], hf, h1 =>
        simp only [List.map_cons, List.map_nil, List.cons.injEq, Prod.mk.injEq, and_true]
          at hf h1
        obtain ⟨rfl, rfl⟩ := hf
        obtain ⟨tasks1, w1, e, hu⟩ := rounds_at_rest elide true j tA tB w h1.1.1 h1.2.1
          h1.2.2 h4
        simp only [if_true] at e
        exact ⟨_, by rw [e]; rfl, by simp [hu, h3]⟩

end Scenario

namespace Scenario

/-- C15: the producer/consumer scenario, for either initial interrupt-enable state.  With
the tasks registered as (A, B), after 2 rounds B's output list is `[0,1,2,3,4]`, A is
`Done` and the channel is empty; registered as (B, A), the same holds after 3 rounds.  No
round aborts (no `read` on an empty or `write` on a full channel happens), however many
rounds are run, and at every round boundary the channel holds at most 3 unread values. -/
theorem producer_consumer (elide ien : Bool) :
    observe (Task.Run elide 2 [taskA elide, taskB elide] (start ien))
      = some ([(Task.State.Done, some 10), (Task.State.Wait, some 0)], [0, 1, 2, 3, 4],
          0, false) ∧
    observe (Task.Run elide 3 [taskB elide, taskA elide] (start ien))
      = some ([(Task.State.Wait, some 0), (Task.State.Done, some 10)], [0, 1, 2, 3, 4],
          0, false) ∧
    (∀ k, ∃ o, observe (Task.Run elide k [taskA elide, taskB elide] (start ien)) = some o ∧
      o.2.2.1 ≤ 3) ∧
    (∀ k, ∃ o, observe (Task.Run elide k [taskB elide, taskA elide] (start ien)) = some o ∧
      o.2.2.1 ≤ 3) := by
  have hAB : observe (Task.Run elide 2 [taskA elide, taskB elide] (start ien))
      = some ([(Task.State.Done, some 10), (Task.State.Wait, some 0)], [0, 1, 2, 3, 4],
          0, false) := by
    cases elide <;> cases ien <;> rfl
  have hBA : observe (Task.Run elide 3 [taskB elide, taskA elide] (start ien))
      = some ([(Task.State.Wait, some 0), (Task.State.Done, some 10)], [0, 1, 2, 3, 4],
          0, false) := by
    cases elide <;> cases ien <;> rfl
  refine ⟨hAB, hBA, ?_, ?_⟩
  · intro k
    rcases Nat.lt_or_ge k 2 with hk | hk
    · have h01 : k = 0 ∨ k = 1 := by omega
      rcases h01 with rfl | rfl
      · exact ⟨([(Task.State.Run, none), (Task.State.Run, none)], [], 0, false),
          by cases elide <;> cases ien <;> rfl, by decide⟩
      · exact ⟨([(Task.State.Wait, some 6), (Task.State.Wait, some 0)], [0, 1, 2], 0, false),
          by cases elide <;> cases ien <;> rfl, by decide⟩
    · obtain ⟨j, rfl⟩ := Nat.exists_eq_add_of_le hk
      exact observe_after_rest elide true 2 j (start ien) _ _ rfl hAB
  · intro k
    rcases Nat.lt_or_ge k 3 with hk | hk
    · have h012 : k = 0 ∨ k = 1 ∨ k = 2 := by omega
      rcases h012 with rfl | rfl | rfl
      · exact ⟨([(Task.State.Run, none), (Task.State.Run, none)], [], 0, false),
          by cases elide <;> cases ien <;> rfl, by decide⟩
      · exact ⟨([(Task.State.Wait, some 0), (Task.State.Wait, some 6)], [], 3, true),
          by cases elide <;> cases ien <;> rfl, by decide⟩
      · exact ⟨([(Task.State.Wait, some 0), (Task.State.Done, some 10)], [0, 1, 2], 2, true),
          by cases elide <;> cases ien <;> rfl, by decide⟩
    · obtain ⟨j, rfl⟩ := Nat.exists_eq_add_of_le hk
      exact observe_after_rest elide false 3 j (start ien) _ _ rfl hBA

end Scenario

namespace Channel

variable {T : Type}

/-! ### The guard taken by the channel operations -/

/-- Every operation other than `reset`, with the `return` of `Disabled()` elided, makes
exactly two hook calls when it returns: it masks interrupts first and re-applies the
previous state last, so the interrupt-enable state is what it was before the call. -/
theorem call_guarded (N : Nat) (op : Op T) (hop : op ≠ Op.reset) (c : Channel T) (cpu : Cpu)
    (r : Ret T) (c1 : Channel T) (cpu1 : Cpu)
    (h : call N true op c cpu = .ok (r, c1, cpu1)) :
    cpu1 = { cpu with calls := cpu.calls ++ [HookCall.SetInterruptsEnabled false,
      HookCall.SetInterruptsEnabled cpu.ien] } := by
  have hd : IRQState.Disabled true cpu =
      .ok ({ _prevEn := cpu.ien, _prevEnValid := true },
        { cpu with ien := false,
                   calls := cpu.calls ++ [HookCall.SetInterruptsEnabled false] }) := rfl
  have hx : IRQState.destroy { _prevEn := cpu.ien, _prevEnValid := true }
      { cpu with ien := false, calls := cpu.calls ++ [HookCall.SetInterruptsEnabled false] }
      = { cpu with calls := cpu.calls ++ [HookCall.SetInterruptsEnabled false,
          HookCall.SetInterruptsEnabled cpu.ien] } := by
    simp [IRQState.destroy, IRQState.restore, SetInterruptsEnabled]
  cases op with
  | reset => exact absurd rfl hop
  | readable =>
    simp only [call, readable, hd, Except.map, Except.ok.injEq, Prod.mk.injEq] at h
    rw [← h.2.2, hx]
  | writeable =>
    simp only [call, writeable, hd, Except.map, Except.ok.injEq, Prod.mk.injEq] at h
    rw [← h.2.2, hx]
  | read =>
    simp only [call, read, hd] at h
    split at h
    · simp [Except.map] at h
    · simp only [Except.map, Except.ok.injEq, Prod.mk.injEq] at h
      rw [← h.2.2, hx]
  | write x =>
    simp only [call, write, hd] at h
    split at h
    · simp [Except.map] at h
    · simp only [Except.map, Except.ok.injEq, Prod.mk.injEq] at h
      rw [← h.2.2, hx]
  | readTry =>
    simp only [call, readTry, hd] at h
    split at h <;>
    · simp only [Except.map, Except.ok.injEq, Prod.mk.injEq] at h
      rw [← h.2.2, hx]
  | writeTry x =>
    simp only [call, writeTry, hd] at h
    split at h <;>
    · simp only [Except.map, Except.ok.injEq, Prod.mk.injEq] at h
      rw [← h.2.2, hx]

/-- C16 (the code at the failing input): `reset()` called with interrupts enabled sets the
read index, the write index and the full flag without any hook call, so with interrupts
enabled throughout; `write` on the same channel and machine state masks interrupts first
and re-applies the previous state last. -/
theorem reset_takes_no_guard :
    call 3 true Op.reset
        ({ _buf := fun _ => 0, _rptr := 1, _wptr := 2, _full := false } : Channel Int)
        { ien := true, calls := [] }
      = .ok (Ret.void, { _buf := fun _ => 0, _rptr := 0, _wptr := 0, _full := false },
          { ien := true, calls := [] }) ∧
    call 3 true (Op.write 5)
        ({ _buf := fun _ => 0, _rptr := 1, _wptr := 2, _full := false } : Channel Int)
        { ien := true, calls := [] }
      = .ok (Ret.void,
          { _buf := Function.update (fun _ => 0) 2 5, _rptr := 1, _wptr := 0, _full := false },
          { ien := true,
            calls := [HookCall.SetInterruptsEnabled false,
                      HookCall.SetInterruptsEnabled true] }) := by
  exact ⟨rfl, rfl⟩

end Channel

namespace Task

variable {σ : Type}

/-! ### The guard of a scheduler round -/

/-- With the `return` of `Disabled()` elided, a round masks interrupts with one hook call
before the first task runs, and after the tasks have run (and after `WaitForInterrupt`, if
it is called) re-applies the previous state with one hook call; the interrupt-enable state
after the round is the one before it. -/
theorem RunRound_elided (tasks : List (TaskFn σ × Task)) (w : World σ) (bs : List Bool)
    (tasks1 : List (TaskFn σ × Task)) (w1 : World σ)
    (h : RanInOrder tasks
      { w with
        cpu := { w.cpu with ien := false,
                            calls := w.cpu.calls ++ [HookCall.SetInterruptsEnabled false] } }
      bs tasks1 w1) :
    RunRound true tasks w =
      .ok (tasks1,
        { w1 with
          cpu := { w1.cpu with
                   ien := w.cpu.ien,
                   calls := w1.cpu.calls ++
                     (if bs.any id then [] else [HookCall.WaitForInterrupt]) ++
                     [HookCall.SetInterruptsEnabled w.cpu.ien] } }) := by
  have hd : IRQState.Disabled true w.cpu =
      .ok ({ _prevEn := w.cpu.ien, _prevEnValid := true },
        { w.cpu with ien := false,
                     calls := w.cpu.calls ++ [HookCall.SetInterruptsEnabled false] }) := rfl
  rw [RunRound_of_ranInOrder true tasks w _ _ hd bs tasks1 w1 h]
  cases bs.any id <;>
    simp [IRQState.destroy, IRQState.restore, SetInterruptsEnabled, WaitForInterrupt]

/-- A consequence of the move constructor leaving its source armed: when the `return` of
`Disabled()` is not elided and interrupts are enabled before the round, the round makes two
hook calls to take the guard, the second of which enables interrupts again;
`WaitForInterrupt` is then called with interrupts enabled, and the recorded state is
re-applied a second time at the end. -/
theorem round_without_elision :
    RunRound false
        [(Body.fn ([Instr.TaskEnd] : List (Instr Unit)) 1,
          { _state := State.Done, _jmp := some 0 })]
        { cpu := { ien := true, calls := [] }, user := () }
      = .ok ([(Body.fn ([Instr.TaskEnd] : List (Instr Unit)) 1,
                { _state := State.Done, _didWork := false, _jmp := some 0 })],
          { cpu := { ien := true,
                     calls := [HookCall.SetInterruptsEnabled false,
                               HookCall.SetInterruptsEnabled true,
                               HookCall.WaitForInterrupt,
                               HookCall.SetInterruptsEnabled true] },
            user := () }) ∧
    IRQState.Disabled false { ien := true, calls := [] } =
      .ok ({ _prevEn := true, _prevEnValid := true },
        { ien := true,
          calls := [HookCall.SetInterruptsEnabled false,
                    HookCall.SetInterruptsEnabled true] }) := by
  exact ⟨rfl, rfl⟩

end Task

namespace Swap

namespace Machine

theorem pushRegs_frame (w : Nat) (rs : List Nat) :
    ∀ m : Machine, (m.pushRegs w rs).reg = m.reg ∧ (m.pushRegs w rs).PC = m.PC ∧
      (m.pushRegs w rs).sp = m.sp ∧ (m.pushRegs w rs).spSave = m.spSave := by
  induction rs with
  | nil => intro m; simp [pushRegs]
  | cons r rs ih => intro m; simpa [pushRegs, push1] using ih (m.push1 w r)

theorem pushRegs_SP (w : Nat) (rs : List Nat) :
    ∀ m : Machine, rs.length * w ≤ m.SP → (m.pushRegs w rs).SP = m.SP - rs.length * w := by
  induction rs with
  | nil => intro m _; simp [pushRegs]
  | cons r rs ih =>
    intro m h
    simp only [List.length_cons, Nat.add_mul, Nat.one_mul] at h
    rw [pushRegs, ih (m.push1 w r) (by simp only [push1]; omega)]
    simp only [push1, List.length_cons, Nat.add_mul, Nat.one_mul]
    omega

theorem pushRegs_mem_out (w : Nat) (hw : 0 < w) (rs : List Nat) :
    ∀ (m : Machine) (x : Nat), rs.length * w ≤ m.SP →
    (x < m.SP - rs.length * w ∨ m.SP ≤ x) → (m.pushRegs w rs).mem x = m.mem x := by
  induction rs with
  | nil => intro m x _ _; simp [pushRegs]
  | cons r rs ih =>
    intro m x h hx
    simp only [List.length_cons, Nat.add_mul, Nat.one_mul] at h hx
    rw [pushRegs, ih (m.push1 w r) x (by simp only [push1]; omega)
      (by simp only [push1]; omega)]
    simp only [push1]
    rw [Function.update_noteq (by omega)]

theorem pushRegs_mem_in (w : Nat) (hw : 0 < w) (rs : List Nat) :
    ∀ (m : Machine) (i r : Nat), rs.length * w ≤ m.SP → rs[i]? = some r →
    (m.pushRegs w rs).mem (m.SP - (i + 1) * w) = m.reg r := by
  induction rs with
  | nil => intro m i r _ h; simp at h
  | cons r0 rs ih =>
    intro m i r h hi
    simp only [List.length_cons, Nat.add_mul, Nat.one_mul] at h
    cases i with
    | zero =>
      simp only [List.getElem?_cons_zero, Option.some.injEq] at hi
      subst hi
      rw [pushRegs, pushRegs_mem_out w hw rs (m.push1 w r0) _ (by simp only [push1]; omega)
        (by simp only [push1]; omega)]
      simp [push1]
    | succ i =>
      simp only [List.getElem?_cons_succ] at hi
      have hlt : i < rs.length := by
        rcases Nat.lt_or_ge i rs.length with h1 | h1
        · exact h1
        · rw [List.getElem?_eq_none h1] at hi; cases hi
      have hiw : (i + 1) * w ≤ rs.length * w := Nat.mul_le_mul_right w hlt
      have := ih (m.push1 w r0) i r (by simp only [push1]; omega) hi
      rw [pushRegs]
      simp only [push1] at this ⊢
      rw [← this]
      congr 1
      simp only [Nat.add_mul, Nat.one_mul] at hiw ⊢
      omega

theorem popRegs_frame (w : Nat) (rs : List Nat) :
    ∀ m : Machine, (m.popRegs w rs).mem = m.mem ∧ (m.popRegs w rs).PC = m.PC ∧
      (m.popRegs w rs).sp = m.sp ∧ (m.popRegs w rs).spSave = m.spSave ∧
      (m.popRegs w rs).SP = m.SP + rs.length * w := by
  induction rs with
  | nil => intro m; simp [popRegs]
  | cons r rs ih =>
    intro m
    have := ih (m.pop1 w r)
    simp only [pop1] at this
    simp only [popRegs, pop1, List.length_cons, Nat.add_mul, Nat.one_mul]
    refine ⟨this.1, this.2.1, this.2.2.1, this.2.2.2.1, ?_⟩
    rw [this.2.2.2.2]; omega

theorem popRegs_reg_out (w : Nat) (rs : List Nat) :
    ∀ (m : Machine) (r : Nat), r ∉ rs → (m.popRegs w rs).reg r = m.reg r := by
  induction rs with
  | nil => intro m r _; simp [popRegs]
  | cons r0 rs ih =>
    intro m r h
    simp only [List.mem_cons, not_or] at h
    rw [popRegs, ih (m.pop1 w r0) r h.2]
    simp [pop1, Function.update_noteq h.1]

theorem popRegs_reg_in (w : Nat) (rs : List Nat) :
    ∀ (m : Machine) (i r : Nat), rs.Nodup → rs[i]? = some r →
    (m.popRegs w rs).reg r = m.mem (m.SP + i * w) := by
  induction rs with
  | nil => intro m i r _ h; simp at h
  | cons r0 rs ih =>
    intro m i r hn hi
    rw [List.nodup_cons] at hn
    cases i with
    | zero =>
      simp only [List.getElem?_cons_zero, Option.some.injEq] at hi
      subst hi
      rw [popRegs, popRegs_reg_out w rs _ _ hn.1]
      simp [pop1]
    | succ i =>
      simp only [List.getElem?_cons_succ] at hi
      rw [popRegs, ih (m.pop1 w r0) i r hn.2 hi]
      simp only [pop1, Nat.add_mul, Nat.one_mul]
      congr 1
      omega

end Machine

theorem down_eq : (List.range 7).map (fun k => 10 - k) = [4, 5, 6, 7, 8, 9, 10].reverse := by
  decide

theorem up_eq : (List.range 7).map (fun k => 10 + 1 - 7 + k) = [4, 5, 6, 7, 8, 9, 10] := by
  decide

theorem width_pos (a : Arch) : 0 < a.width := by
  cases a <;> decide

theorem saved_nodup (a : Arch) : (saved a).Nodup := by
  cases a <;> decide

/-- The state after steps (1) to (4): the registers are saved on the outgoing stack, `sp`
holds the outgoing stack pointer and the hardware stack pointer holds what `sp` held. -/
theorem run_exchange (a : Arch) (initFn : Option Nat) (m : Machine)
    (hroom : frame a ≤ m.SP) :
    run a (TaskSwap a initFn) m =
      run a (match initFn with
             | some f => [if a = Arch.ARM32 then Asm.b f else Asm.br f]
             | none => if a = Arch.ARM32 then [Asm.pop (saved a), Asm.bx 14]
                       else [Asm.popm 7 10, Asm.ret])
        { reg := if a = Arch.ARM32 then
                   Function.update (Function.update m.reg 0 m.sp) 1 (m.SP - frame a)
                 else Function.update m.reg 11 m.sp,
          SP := m.sp, PC := m.PC,
          mem := (m.pushRegs a.width (saved a).reverse).mem,
          sp := m.SP - frame a, spSave := m.sp } := by
  have hf := Machine.pushRegs_frame a.width (saved a).reverse m
  have hs := Machine.pushRegs_SP a.width (saved a).reverse m
    (by rw [List.length_reverse]; exact hroom)
  rw [List.length_reverse] at hs
  cases a <;> cases initFn <;>
    simp [run, TaskSwap, step, Machine.store, Machine.load, down_eq, saved, frame, hf, hs]
    <;> simp [saved, frame] at hf hs <;> simp [hf, hs]

/-- The memory after the registers have been pushed: the saved registers lie in ascending
order from the new stack pointer, and nothing else has changed. -/
theorem pushed_mem (a : Arch) (m : Machine) (hroom : frame a ≤ m.SP) :
    (∀ i r, (saved a)[i]? = some r →
      (m.pushRegs a.width (saved a).reverse).mem (m.SP - frame a + i * a.width) = m.reg r) ∧
    (∀ x, x < m.SP - frame a ∨ m.SP ≤ x →
      (m.pushRegs a.width (saved a).reverse).mem x = m.mem x) := by
  constructor
  · intro i r hi
    have hlt : i < (saved a).length := by
      rcases Nat.lt_or_ge i (saved a).length with h1 | h1
      · exact h1
      · rw [List.getElem?_eq_none h1] at hi; cases hi
    have hrev : (saved a).reverse[(saved a).length - 1 - i]? = some r := by
      rw [List.getElem?_reverse (by omega)]
      rw [← hi]
      congr 1
      omega
    have h := Machine.pushRegs_mem_in a.width (width_pos a) (saved a).reverse m _ r
      (by rw [List.length_reverse]; exact hroom) hrev
    rw [← h]
    congr 1
    have e1 : ((saved a).length - 1 - i + 1) = (saved a).length - i := by omega
    have e2 : ((saved a).length - i) * a.width = frame a - i * a.width := by
      rw [frame, Nat.sub_mul]
    have e3 : i * a.width ≤ frame a := Nat.mul_le_mul_right _ (Nat.le_of_lt hlt)
    rw [e1, e2]
    omega
  · intro x hx
    exact Machine.pushRegs_mem_out a.width (width_pos a) (saved a).reverse m x
      (by rw [List.length_reverse]; exact hroom) (by rw [List.length_reverse]; exact hx)

/-- The state after `TaskSwap` with no entry function. -/
theorem run_none (a : Arch) (m : Machine) (hroom : frame a ≤ m.SP) :
    (run a (TaskSwap a none) m).mem = (m.pushRegs a.width (saved a).reverse).mem ∧
    (run a (TaskSwap a none) m).sp = m.SP - frame a ∧
    (run a (TaskSwap a none) m).spSave = m.sp ∧
    (∀ i r, (saved a)[i]? = some r →
      (run a (TaskSwap a none) m).reg r =
        (m.pushRegs a.width (saved a).reverse).mem (m.sp + i * a.width)) ∧
    (run a (TaskSwap a none) m).SP = m.sp + frame a + retBytes a ∧
    (run a (TaskSwap a none) m).PC =
      (if a = Arch.ARM32 then (run a (TaskSwap a none) m).reg 14
       else (m.pushRegs a.width (saved a).reverse).mem (m.sp + frame a)) := by
  rw [run_exchange a none m hroom]
  have hp := fun X => Machine.popRegs_frame a.width (saved a) X
  have hr := fun X i r => Machine.popRegs_reg_in a.width (saved a) X i r (saved_nodup a)
  cases a <;>
    simp only [run, List.foldl_cons, List.foldl_nil, step, up_eq, saved, frame, retBytes,
      Arch.width, if_true, if_false, reduceCtorEq] at hp hr ⊢ <;>
    simp only [hp, true_and] <;>
    refine ⟨fun i r hi => ?_, ?_⟩ <;>
    first
    | (rw [hr _ i r hi])
    | simp [hp]

/-- The state after `TaskSwap` with an entry function. -/
theorem run_some (a : Arch) (f : Nat) (m : Machine) (hroom : frame a ≤ m.SP) :
    (run a (TaskSwap a (some f)) m).mem = (m.pushRegs a.width (saved a).reverse).mem ∧
    (run a (TaskSwap a (some f)) m).sp = m.SP - frame a ∧
    (run a (TaskSwap a (some f)) m).spSave = m.sp ∧
    (run a (TaskSwap a (some f)) m).SP = m.sp ∧
    (run a (TaskSwap a (some f)) m).PC = f ∧
    (∀ r ∈ saved a, (run a (TaskSwap a (some f)) m).reg r = m.reg r) := by
  rw [run_exchange a (some f) m hroom]
  cases a
  · simp only [run, List.foldl_cons, List.foldl_nil, step, saved, if_false, reduceCtorEq,
      true_and]
    intro r hr
    have h11 : r ≠ 11 := by rintro rfl; simp at hr
    simp [Function.update, h11]
  · simp only [run, List.foldl_cons, List.foldl_nil, step, saved, if_false, reduceCtorEq,
      true_and]
    intro r hr
    have h11 : r ≠ 11 := by rintro rfl; simp at hr
    simp [Function.update, h11]
  · simp only [run, List.foldl_cons, List.foldl_nil, step, saved, if_true, true_and]
    intro r hr
    have h0 : r ≠ 0 := by rintro rfl; simp at hr
    have h1 : r ≠ 1 := by rintro rfl; simp at hr
    simp [Function.update, h0, h1]

/-- C17: on every supported target, `TaskSwap` with no entry function pushes the saved
registers (`r4`..`r10` on the MSP430, `r4`..`r11` and the return address `lr` on ARM) on
the active stack, leaves in `sp` the resulting stack pointer of the outgoing context and in
`spSave` the value `sp` held, loads the hardware stack pointer with the value `sp` held on
entry, pops the saved registers from that stack and returns (through the return address on
the stack on the MSP430, through `lr` on ARM).  With an entry function the same save and
exchange are followed by a jump to the entry function, the saved registers keeping their
values.  Consequently, if context X switches out and another context later switches back
through the slot while X's saved frame is intact, X resumes with its stack pointer, its
saved registers and its return address. -/
theorem taskSwap_contract (a : Arch) (m : Machine) (f : Nat) (hroom : frame a ≤ m.SP) :
    (∀ i r, (saved a)[i]? = some r →
      (run a (TaskSwap a none) m).mem (m.SP - frame a + i * a.width) = m.reg r) ∧
    (∀ x, x < m.SP - frame a ∨ m.SP ≤ x → (run a (TaskSwap a none) m).mem x = m.mem x) ∧
    (run a (TaskSwap a none) m).sp = m.SP - frame a ∧
    (run a (TaskSwap a none) m).spSave = m.sp ∧
    (∀ i r, (saved a)[i]? = some r →
      (run a (TaskSwap a none) m).reg r =
        (run a (TaskSwap a none) m).mem (m.sp + i * a.width)) ∧
    (run a (TaskSwap a none) m).SP = m.sp + frame a + retBytes a ∧
    (run a (TaskSwap a none) m).PC =
      (if a = Arch.ARM32 then (run a (TaskSwap a none) m).reg 14
       else (run a (TaskSwap a none) m).mem (m.sp + frame a)) ∧
    ((run a (TaskSwap a (some f)) m).mem = (run a (TaskSwap a none) m).mem ∧
      (run a (TaskSwap a (some f)) m).sp = m.SP - frame a ∧
      (run a (TaskSwap a (some f)) m).spSave = m.sp ∧
      (run a (TaskSwap a (some f)) m).SP = m.sp ∧
      (run a (TaskSwap a (some f)) m).PC = f ∧
      ∀ r ∈ saved a, (run a (TaskSwap a (some f)) m).reg r = m.reg r) ∧
    (∀ m2 : Machine,
      m2.sp = (run a (TaskSwap a none) m).sp →
      (∀ x, m.SP - frame a ≤ x → x < m.SP + retBytes a →
        m2.mem x = (run a (TaskSwap a none) m).mem x) →
      frame a ≤ m2.SP →
      (m2.SP ≤ m.SP - frame a ∨ m.SP + retBytes a ≤ m2.SP - frame a) →
      (∀ r ∈ saved a, (run a (TaskSwap a none) m2).reg r = m.reg r) ∧
      (run a (TaskSwap a none) m2).SP = m.SP + retBytes a ∧
      (run a (TaskSwap a none) m2).PC =
        (if a = Arch.ARM32 then m.reg 14 else m.mem m.SP) ∧
      (run a (TaskSwap a none) m2).sp = m2.SP - frame a) := by
  obtain ⟨hmem, hsp, hsv, hreg, hSP, hPC⟩ := run_none a m hroom
  obtain ⟨pin, pout⟩ := pushed_mem a m hroom
  obtain ⟨smem, ssp, ssv, sSP, sPC, sreg⟩ := run_some a f m hroom
  refine ⟨?_, ?_, hsp, hsv, ?_, hSP, ?_, ⟨?_, ssp, ssv, sSP, sPC, sreg⟩, ?_⟩
  · intro i r hi; rw [hmem]; exact pin i r hi
  · intro x hx; rw [hmem]; exact pout x hx
  · intro i r hi; rw [hmem]; exact hreg i r hi
  · rw [hPC, hmem]
  · rw [smem, hmem]
  · intro m2 h2sp h2mem hroom2 hdis
    obtain ⟨bmem, bsp, _, breg, bSP, bPC⟩ := run_none a m2 hroom2
    obtain ⟨_, pout2⟩ := pushed_mem a m2 hroom2
    rw [hsp] at h2sp
    have hF : frame a = (saved a).length * a.width := rfl
    have key : ∀ (i r : Nat), (saved a)[i]? = some r →
        (run a (TaskSwap a none) m2).reg r = m.reg r := by
      intro i r hi
      have hlt : i < (saved a).length := by
        rcases Nat.lt_or_ge i (saved a).length with h1 | h1
        · exact h1
        · rw [List.getElem?_eq_none h1] at hi; cases hi
      have e3 : (i + 1) * a.width ≤ frame a := Nat.mul_le_mul_right _ hlt
      have hw := width_pos a
      rw [Nat.add_mul, Nat.one_mul] at e3
      rw [breg i r hi, h2sp, pout2 _ (by omega), h2mem _ (by omega) (by omega), hmem]
      exact pin i r hi
    refine ⟨?_, ?_, ?_, bsp⟩
    · intro r hr
      obtain ⟨i, hi⟩ := List.getElem?_of_mem hr
      exact key i r hi
    · rw [bSP, h2sp]; omega
    · rw [bPC]
      by_cases ha : a = Arch.ARM32
      · simp only [ha, if_true]
        subst ha
        exact key 8 14 rfl
      · simp only [ha, if_false]
        have hret : 0 < retBytes a := by
          cases a
          · decide
          · decide
          · exact absurd rfl ha
        rw [h2sp, Nat.sub_add_cancel hroom, pout2 _ (by omega),
          h2mem _ (by omega) (by omega), hmem, pout _ (Or.inr (Nat.le_refl _))]

theorem taskSwap_contract_witness :
    frame Arch.MSP430Small ≤ 1000 ∧
    (run Arch.MSP430Small (TaskSwap Arch.MSP430Small none)
        { reg := fun r => 100 + r, SP := 1000, PC := 0, mem := fun x => x, sp := 2000,
          spSave := 0 }).sp = 1000 - frame Arch.MSP430Small ∧
    (run Arch.MSP430Small (TaskSwap Arch.MSP430Small none)
        { reg := fun r => 100 + r, SP := 1000, PC := 0, mem := fun x => x, sp := 2000,
          spSave := 0 }).SP = 2000 + frame Arch.MSP430Small + retBytes Arch.MSP430Small ∧
    ((∀ r ∈ saved Arch.MSP430Small,
        (run Arch.MSP430Small (TaskSwap Arch.MSP430Small none)
          { reg := fun _ => 7, SP := 3000, PC := 5,
            mem := (run Arch.MSP430Small (TaskSwap Arch.MSP430Small none)
              { reg := fun r => 100 + r, SP := 1000, PC := 0, mem := fun x => x,
                sp := 2000, spSave := 0 }).mem,
            sp := 986, spSave := 9 }).reg r = 100 + r) ∧
      (run Arch.MSP430Small (TaskSwap Arch.MSP430Small none)
          { reg := fun _ => 7, SP := 3000, PC := 5,
            mem := (run Arch.MSP430Small (TaskSwap Arch.MSP430Small none)
              { reg := fun r => 100 + r, SP := 1000, PC := 0, mem := fun x => x,
                sp := 2000, spSave := 0 }).mem,
            sp := 986, spSave := 9 }).SP = 1000 + retBytes Arch.MSP430Small ∧
      (run Arch.MSP430Small (TaskSwap Arch.MSP430Small none)
          { reg := fun _ => 7, SP := 3000, PC := 5,
            mem := (run Arch.MSP430Small (TaskSwap Arch.MSP430Small none)
              { reg := fun r => 100 + r, SP := 1000, PC := 0, mem := fun x => x,
                sp := 2000, spSave := 0 }).mem,
            sp := 986, spSave := 9 }).PC =
        (if Arch.MSP430Small = Arch.ARM32 then 100 + 14 else 1000) ∧
      (run Arch.MSP430Small (TaskSwap Arch.MSP430Small none)
          { reg := fun _ => 7, SP := 3000, PC := 5,
            mem := (run Arch.MSP430Small (TaskSwap Arch.MSP430Small none)
              { reg := fun r => 100 + r, SP := 1000, PC := 0, mem := fun x => x,
                sp := 2000, spSave := 0 }).mem,
            sp := 986, spSave := 9 }).sp = 3000 - frame Arch.MSP430Small) :=
  ⟨by decide,
    (taskSwap_contract Arch.MSP430Small
      { reg := fun r => 100 + r, SP := 1000, PC := 0, mem := fun x => x, sp := 2000,
        spSave := 0 } 0 (by decide)).2.2.1,
    (taskSwap_contract Arch.MSP430Small
      { reg := fun r => 100 + r, SP := 1000, PC := 0, mem := fun x => x, sp := 2000,
        spSave := 0 } 0 (by decide)).2.2.2.2.2.1,
    (taskSwap_contract Arch.MSP430Small
      { reg := fun r => 100 + r, SP := 1000, PC := 0, mem := fun x => x, sp := 2000,
        spSave := 0 } 0 (by decide)).2.2.2.2.2.2.2.2
      { reg := fun _ => 7, SP := 3000, PC := 5,
        mem := (run Arch.MSP430Small (TaskSwap Arch.MSP430Small none)
          { reg := fun r => 100 + r, SP := 1000, PC := 0, mem := fun x => x,
            sp := 2000, spSave := 0 }).mem,
        sp := 986, spSave := 9 }
      rfl (fun _ _ _ => rfl) (by decide) (Or.inr (by decide))⟩

end Swap

namespace Body

variable {σ : Type}

/-- A body whose plain statements and wait conditions leave the interrupt-enable state as
they found it leaves it so over a whole invocation. -/
theorem exec_ien (body : List (Instr σ))
    (hstmt : ∀ (pc : Nat) (f : Cpu → σ → Option (Cpu × σ)), body[pc]? = some (.stmt f) →
      ∀ cpu u r, f cpu u = some r → r.1.ien = cpu.ien)
    (hcond : ∀ (pc : Nat) (c : Cpu → σ → Bool × Cpu × σ), body[pc]? = some (.TaskWait c) →
      ∀ cpu u, (c cpu u).2.1.ien = cpu.ien)
    (fuel : Nat) :
    ∀ (pc : Nat) (atLabel : Bool) (t : Task) (w : World σ) (t1 : Task) (w1 : World σ),
    exec body fuel pc atLabel t w = .ok (t1, w1) → w1.cpu.ien = w.cpu.ien := by
  induction fuel with
  | zero => intro pc atLabel t w t1 w1 h; simp [exec] at h
  | succ fuel ih =>
    intro pc atLabel t w t1 w1 h
    unfold exec at h
    cases hb : body[pc]? with
    | none =>
      simp only [hb] at h
      cases h
      rfl
    | some i =>
      simp only [hb] at h
      cases i with
      | stmt f =>
        simp only at h
        cases hf : f w.cpu w.user with
        | none => simp [hf] at h
        | some r =>
          simp only [hf] at h
          rw [ih _ _ _ _ _ _ h]
          exact hstmt pc f hb _ _ r hf
      | TaskYield =>
        cases atLabel
        · simp only [TaskYield, Bool.false_eq_true, if_false] at h
          cases h
          rfl
        · simp only [TaskYield, if_true] at h
          rw [ih _ _ _ _ _ _ h]
          rfl
      | TaskWait cond =>
        simp only [TaskWait] at h
        cases hc : (cond w.cpu w.user).1
        · simp only [hc, Bool.not_false, if_true] at h
          cases h
          exact hcond pc cond hb _ _
        · simp only [hc, Bool.not_true, Bool.false_eq_true, if_false] at h
          rw [ih _ _ _ _ _ _ h]
          exact hcond pc cond hb _ _
      | TaskSleepMs ms =>
        cases atLabel
        · simp only [TaskSleepMs, Bool.false_eq_true, if_false] at h
          cases h
          rfl
        · simp only [TaskSleepMs, if_true] at h
          cases hc : t._sleepDone w.cpu
          · simp only [hc, Bool.not_false, if_true] at h
            cases h
            rfl
          · simp only [hc, Bool.not_true, Bool.false_eq_true, if_false] at h
            rw [ih _ _ _ _ _ _ h]
            rfl
      | TaskEnd =>
        cases atLabel
        · simp only [TaskEnd, Bool.false_eq_true, if_false] at h
          cases h
          rfl
        · simp only [TaskEnd, if_true] at h
          cases h
          rfl
      | jump target =>
        simp only at h
        exact ih _ _ _ _ _ _ h
      | branch cond target =>
        simp only at h
        split at h
        · exact ih _ _ _ _ _ _ h
        · exact ih _ _ _ _ _ _ h

end Body

namespace Task

variable {σ : Type}

/-- Tasks whose bodies leave the interrupt-enable state as they found it leave it so over
the whole pass of a round. -/
theorem ranInOrder_ien (tasks : List (TaskFn σ × Task)) (w : World σ) (bs : List Bool)
    (tasks1 : List (TaskFn σ × Task)) (w1 : World σ) (h : RanInOrder tasks w bs tasks1 w1) :
    (∀ p ∈ tasks, ∀ (t : Task) (w2 : World σ) (t2 : Task) (w3 : World σ),
      p.1 t w2 = .ok (t2, w3) → w3.cpu.ien = w2.cpu.ien) →
    w1.cpu.ien = w.cpu.ien := by
  induction h with
  | nil w => intro _; rfl
  | cons fn t rest w b t1 w1 bs rest1 w2 hr _ ih =>
    intro hkeep
    have h1 : w1.cpu.ien = w.cpu.ien := by
      by_cases hd : t._state = State.Done
      · rw [run_of_done fn t w hd] at hr
        simp only [Outcome.ok.injEq, Prod.mk.injEq] at hr
        rw [← hr.2.2]
      · rw [run_of_not_done fn t w hd] at hr
        obtain ⟨h2, _⟩ := map_didWork_true _ b t1 w1 hr
        exact hkeep (fn, t) (List.mem_cons_self _ _) _ _ _ _ h2
    rw [ih (fun p hp => hkeep p (List.mem_cons_of_mem _ hp)), h1]

theorem RunRound_elided_ien (tasks tasks1 : List (TaskFn σ × Task)) (w w1 : World σ)
    (h : RunRound true tasks w = .ok (tasks1, w1)) : w1.cpu.ien = w.cpu.ien := by
  have hd : IRQState.Disabled true w.cpu =
      .ok ({ _prevEn := w.cpu.ien, _prevEnValid := true },
        { w.cpu with ien := false,
                     calls := w.cpu.calls ++ [HookCall.SetInterruptsEnabled false] }) := rfl
  simp only [RunRound, hd] at h
  split at h
  · simp only [Outcome.ok.injEq, Prod.mk.injEq] at h
    rw [← h.2]
    simp [IRQState.destroy, IRQState.restore, SetInterruptsEnabled]
  · cases h
  · cases h

theorem Run_elided_ien (n : Nat) :
    ∀ (tasks tasks1 : List (TaskFn σ × Task)) (w w1 : World σ),
    Run true n tasks w = .ok (tasks1, w1) → w1.cpu.ien = w.cpu.ien := by
  induction n with
  | zero =>
    intro tasks tasks1 w w1 h
    simp only [Run, Outcome.ok.injEq, Prod.mk.injEq] at h
    rw [h.2]
  | succ n ih =>
    intro tasks tasks1 w w1 h
    simp only [Run] at h
    cases hr : RunRound true tasks w with
    | abort => simp [hr] at h
    | outOfFuel => simp [hr] at h
    | ok r =>
      obtain ⟨tasks2, w2⟩ := r
      simp only [hr] at h
      rw [ih tasks2 tasks1 w2 w1 h, RunRound_elided_ien tasks tasks2 w w2 hr]

/-- C20: in `Task::Run`, with the `return` of `Disabled()` elided (as the compilers that
build this header do by default) and task bodies that leave the interrupt-enable state as
they found it, each round performs exactly one guard acquisition, a single
`SetInterruptsEnabled(false)` made before the first task runs, and exactly one restore, a
single `SetInterruptsEnabled(previous)` made at the end of the round after
`WaitForInterrupt`, if it is called, has returned.  Interrupts are still masked when the
tasks are done, so the hook is called with interrupts masked, and the interrupt-enable
state after any number of rounds is the state before the first round. -/
theorem round_guard (tasks : List (TaskFn σ × Task)) (w : World σ) (bs : List Bool)
    (tasks1 : List (TaskFn σ × Task)) (w1 : World σ)
    (hkeep : ∀ p ∈ tasks, ∀ (t : Task) (w2 : World σ) (t2 : Task) (w3 : World σ),
      p.1 t w2 = .ok (t2, w3) → w3.cpu.ien = w2.cpu.ien)
    (h : RanInOrder tasks
      { w with
        cpu := { w.cpu with ien := false,
                            calls := w.cpu.calls ++ [HookCall.SetInterruptsEnabled false] } }
      bs tasks1 w1) :
    IRQState.Disabled true w.cpu =
      .ok ({ _prevEn := w.cpu.ien, _prevEnValid := true },
        { w.cpu with ien := false,
                     calls := w.cpu.calls ++ [HookCall.SetInterruptsEnabled false] }) ∧
    w1.cpu.ien = false ∧
    WaitForInterrupt w1.cpu =
      { w1.cpu with ien := false, calls := w1.cpu.calls ++ [HookCall.WaitForInterrupt] } ∧
    RunRound true tasks w =
      .ok (tasks1,
        { w1 with
          cpu := { w1.cpu with
                   ien := w.cpu.ien,
                   calls := w1.cpu.calls ++
                     (if bs.any id then [] else [HookCall.WaitForInterrupt]) ++
                     [HookCall.SetInterruptsEnabled w.cpu.ien] } }) ∧
    (∀ (n : Nat) (tasks2 : List (TaskFn σ × Task)) (w2 : World σ),
      Run true n tasks w = .ok (tasks2, w2) → w2.cpu.ien = w.cpu.ien) := by
  have hm : w1.cpu.ien = false := ranInOrder_ien _ _ _ _ _ h hkeep
  refine ⟨rfl, hm, ?_, RunRound_elided tasks w bs tasks1 w1 h,
    fun n tasks2 w2 hn => Run_elided_ien n tasks tasks2 w w2 hn⟩
  simp [WaitForInterrupt, ← hm]

theorem round_guard_witness :
    RunRound true
        [(Body.fn ([Instr.TaskWait (fun cpu u => (false, cpu, u))] : List (Instr Unit)) 1,
          { _state := State.Wait, _jmp := some 0 })]
        { cpu := { ien := true, calls := [] }, user := () }
      = .ok ([(Body.fn ([Instr.TaskWait (fun cpu u => (false, cpu, u))] : List (Instr Unit))
                1, { _state := State.Wait, _didWork := false, _jmp := some 0 })],
          { ({ cpu := { ien := false, calls := [HookCall.SetInterruptsEnabled false] },
               user := (),
               log := [Event.cond 0 false, Event.suspend 0] } : World Unit) with
            cpu := { ({ ien := false, calls := [HookCall.SetInterruptsEnabled false] } : Cpu)
                     with
                     ien := true,
                     calls := [HookCall.SetInterruptsEnabled false] ++
                       (if [false].any id then [] else [HookCall.WaitForInterrupt]) ++
                       [HookCall.SetInterruptsEnabled true] } }) :=
  (round_guard
    [(Body.fn ([Instr.TaskWait (fun cpu u => (false, cpu, u))] : List (Instr Unit)) 1,
      { _state := State.Wait, _jmp := some 0 })]
    { cpu := { ien := true, calls := [] }, user := () } [false]
    [(Body.fn ([Instr.TaskWait (fun cpu u => (false, cpu, u))] : List (Instr Unit)) 1,
      { _state := State.Wait, _didWork := false, _jmp := some 0 })]
    { cpu := { ien := false, calls := [HookCall.SetInterruptsEnabled false] }, user := (),
      log := [Event.cond 0 false, Event.suspend 0] }
    (fun p hp t w2 t2 w3 hf => by
      rw [List.mem_singleton] at hp
      subst hp
      exact Body.exec_ien _
        (fun pc f hb => by cases pc <;> simp at hb)
        (fun pc c hb cpu u => by
          cases pc
          · simp only [List.getElem?_cons_zero, Option.some.injEq, Instr.TaskWait.injEq] at hb
            subst hb
            rfl
          · simp at hb)
        1 _ _ t w2 t2 w3 hf)
    (RanInOrder.cons _ _ _ _ _ _ _ _ _ _ rfl (RanInOrder.nil _))).2.2.2.1

end Task

end Toastbox
